import Mathlib

/-!
# LinkUp: room broadcaster, registry and connection mailboxes

A shallow embedding of `internal/handlers/ws.go`, of `Handler.SendMessageREST` in
`internal/handlers/messages.go` and of `verifyTOTPCode` in
`internal/handlers/extended_handlers.go`.

* A Go channel is a record of its capacity, its buffered values (oldest first)
  and its closed flag.  A send on a closed channel and a second close are the
  run-time panics of Go.
* `*Client` is an address (`Ptr`); the objects behind the addresses live in a
  memory `Mem`.  The key set of `map[*Client]bool` is a list of addresses.
* One iteration of the `for { select { ... } }` loop of `Hub.Run` is the
  function `Hub.Run`, whose argument says which case of the `select` fired.
* `time.Now()` is read from a clock that is passed in.
* Collaborators outside the repository (the database, the WebSocket upgrade, the JSON
  binder) are parameters that say what the call returned.
-/

namespace LinkUp

/-! ## Events -/

/-- The value stored under a user id in a presence snapshot:
`map[string]interface{}{"online": ..., "lastSeen": ...}`. -/
structure Status where
  online : Bool
  lastSeen : Nat
deriving DecidableEq, Repr

/-- The payloads that travel through the broadcaster.  `userId uid` is
`gin.H{"userId": uid}`, `status m` is the `map[uint]map[string]interface{}` built by
`clientsStatus` (one pair per key), `message` is the `gin.H` built by the reader for a
stored message, `raw` stands for payloads built by REST collaborators, and `null` is the
nil payload of the zero `Event`. -/
inductive Payload where
  | null
  | userId (uid : Nat)
  | status (m : List (Nat × Status))
  | message (id roomId userId : Nat) (type text imageUrl : String) (createdAt : Nat)
  | raw (data : String)
deriving DecidableEq, Repr

/-- The wire event: `type Event struct { Type string; Payload interface{} }`. -/
structure Event where
  type : String
  payload : Payload
deriving DecidableEq, Repr

/-! ## Channels -/

/-- A Go channel of events: `make(chan Event, cap)`. -/
structure Chan where
  cap : Nat
  buf : List Event
  closed : Bool
deriving DecidableEq, Repr

/-- The channel returned by `make(chan Event, cap)`. -/
def Chan.make (cap : Nat) : Chan := { cap := cap, buf := [], closed := false }

/-- What a send statement `ch <- ev` finds: the value is buffered, or the buffer is full
(a plain send waits, a `select` with a `default` takes the default), or the channel is
closed (panic). -/
inductive SendResult where
  | sent (ch : Chan)
  | full
  | panic
deriving DecidableEq, Repr

/-- The send `ch <- ev` attempted once. -/
def Chan.send (ch : Chan) (ev : Event) : SendResult :=
  if ch.closed then .panic
  else if ch.buf.length < ch.cap then .sent { ch with buf := ch.buf ++ [ev] }
  else .full

/-- The call `close(ch)`: `none` is the panic for closing a closed channel. -/
def Chan.close (ch : Chan) : Option Chan :=
  if ch.closed then none else some { ch with closed := true }

/-- The receive `<-ch`: the oldest buffered value and the channel without it; on a closed and
empty channel the zero event; `none` when the receiver has to wait. -/
def Chan.recv (ch : Chan) : Option (Event × Chan) :=
  match ch.buf with
  | ev :: rest => some (ev, { ch with buf := rest })
  | [] => if ch.closed then some ({ type := "", payload := .null }, ch) else none

/-! ## Clients and memory -/

/-- An address of a `Client` object (`*Client`). -/
abbrev Ptr := Nat

/-- The transport of one connection, as far as the pumps use it: the events written to it by
`WriteJSON` and whether `Close` was called. -/
structure Conn where
  written : List Event
  closed : Bool
deriving DecidableEq, Repr

/-- The fields of `type Client struct` that the broadcaster and the writer use: the user id,
the outbound mailbox `send` and the transport `conn`.  `writerDone` is the control state of
the goroutine started by `go cl.writePump()`: it is true once that loop has returned. -/
structure Client where
  userID : Nat
  send : Chan
  conn : Conn
  writerDone : Bool
deriving DecidableEq, Repr

/-- The memory: the `Client` object behind every address. -/
abbrev Mem := Ptr → Client

/-- The memory after the mailbox of the client at `c` is replaced by `ch`. -/
def Mem.setSend (mem : Mem) (c : Ptr) (ch : Chan) : Mem :=
  fun p => if p = c then { mem c with send := ch } else mem p

/-! ## The broadcaster -/

/-- The broadcaster of one room: `type Hub struct`.  The unbuffered `register` and
`unregister` channels hold no value; what is received from them is the argument of
`Select.register` and `Select.unregister`. -/
structure Hub where
  roomID : Nat
  broadcast : Chan
  clients : List Ptr
deriving DecidableEq, Repr

/-- The constructor `NewHub(roomID)`. -/
def NewHub (roomID : Nat) : Hub :=
  { roomID := roomID, broadcast := Chan.make 64, clients := [] }

/-- How a step of a goroutine ends: it is `running` on with a new state; it is `blocked` in
a send on a full channel, in the state given (the control loop is the only receiver of its
broadcast channel, so when the loop itself is the sender it waits for ever); it is `idle`
because there is nothing to receive; or it panics. -/
inductive Outcome (σ : Type) where
  | running (s : σ)
  | blocked (s : σ)
  | idle
  | panic
deriving DecidableEq, Repr

/-- The loop `for c := range h.clients { select { case c.send <- ev: default: close(c.send);
delete(h.clients, c) } }` over the keys `cs`: the keys that are kept and the memory
afterwards, `none` for a panic.  Go visits the keys of a map in an unspecified order; a
visit reads and writes only the mailbox and the key of the connection it visits, so on
distinct keys the result does not depend on the order (`fanout_eq`). -/
def fanout (ev : Event) : List Ptr → Mem → Option (List Ptr × Mem)
  | [], mem => some ([], mem)
  | c :: cs, mem =>
    match (mem c).send.send ev with
    | .panic => none
    | .sent ch =>
      match fanout ev cs (mem.setSend c ch) with
      | none => none
      | some (kept, mem') => some (c :: kept, mem')
    | .full =>
      match (mem c).send.close with
      | none => none
      | some ch => fanout ev cs (mem.setSend c ch)

/-- The key set of `map[*Client]bool` after the assignment `clients[c] = true`. -/
def addKey (c : Ptr) (cs : List Ptr) : List Ptr :=
  if c ∈ cs then cs else c :: cs

/-- The method `Hub.Broadcast`: `h.broadcast <- ev`. -/
def Hub.Broadcast (h : Hub) (ev : Event) : SendResult :=
  h.broadcast.send ev

/-- The assignment `status[k] = v` on a Go map kept as a list of pairs with distinct keys. -/
def statusSet (m : List (Nat × Status)) (k : Nat) (v : Status) : List (Nat × Status) :=
  (k, v) :: m.filter (fun e => e.1 != k)

/-- The method `Hub.clientsStatus`: one entry per user id of a connection in the set, with
`online = true` and the clock reading taken while that connection is visited. -/
def Hub.clientsStatus (now : Ptr → Nat) (h : Hub) (mem : Mem) : List (Nat × Status) :=
  h.clients.foldl
    (fun status c => statusSet status (mem c).userID { online := true, lastSeen := now c }) []

/-- The method `Hub.broadcastPresenceUpdate`: the snapshot is taken first, then the
`presence_update` event is offered to every connection in the set. -/
def Hub.broadcastPresenceUpdate (now : Ptr → Nat) (h : Hub) (mem : Mem) :
    Outcome (Hub × Mem) :=
  let status := h.clientsStatus now mem
  let ev : Event := { type := "presence_update", payload := .status status }
  match fanout ev h.clients mem with
  | none => .panic
  | some (kept, mem') => .running ({ h with clients := kept }, mem')

/-- Which case of the `select` in `Hub.Run` fires, with the value received from the
unbuffered channels. -/
inductive Select where
  | register (c : Ptr)
  | unregister (c : Ptr)
  | broadcast
deriving DecidableEq, Repr

/-- One iteration of the loop of `Hub.Run`. -/
def Hub.Run (now : Ptr → Nat) (h : Hub) (mem : Mem) : Select → Outcome (Hub × Mem)
  | .register c =>
    let h1 : Hub := { h with clients := addKey c h.clients }
    match h1.Broadcast { type := "presence_join", payload := .userId (mem c).userID } with
    | .panic => .panic
    | .full => .blocked (h1, mem)
    | .sent b => Hub.broadcastPresenceUpdate now { h1 with broadcast := b } mem
  | .unregister c =>
    let removed : Option (Hub × Mem) :=
      if c ∈ h.clients then
        match (mem c).send.close with
        | none => none
        | some ch => some ({ h with clients := h.clients.erase c }, mem.setSend c ch)
      else some (h, mem)
    match removed with
    | none => .panic
    | some (h1, mem1) =>
      match h1.Broadcast { type := "presence_leave", payload := .userId (mem1 c).userID } with
      | .panic => .panic
      | .full => .blocked (h1, mem1)
      | .sent b => Hub.broadcastPresenceUpdate now { h1 with broadcast := b } mem1
  | .broadcast =>
    match h.broadcast.recv with
    | none => .idle
    | some (ev, b) =>
      match fanout ev h.clients mem with
      | none => .panic
      | some (kept, mem') => .running ({ h with broadcast := b, clients := kept }, mem')

/-- The iterations of `Hub.Run` for the `select` choices `sels`, one after the other; the
loop goes on only from a `running` outcome. -/
def Hub.runs (now : Ptr → Nat) : List Select → Hub × Mem → Outcome (Hub × Mem)
  | [], s => .running s
  | sel :: sels, s =>
    match Hub.Run now s.1 s.2 sel with
    | .running s' => Hub.runs now sels s'
    | o => o

/-! ## Predicates and functions used to state the properties -/

/-- The state of a broadcaster as the program builds it: the key set has no repeated key,
the broadcast channel is the open 64-slot channel of `NewHub`, and every connection in the
set has the open 32-slot mailbox of `addClient`. -/
def Hub.WF (h : Hub) (mem : Mem) : Prop :=
  h.clients.Nodup ∧ h.broadcast.closed = false ∧ h.broadcast.cap = 64 ∧
    ∀ c ∈ h.clients, (mem c).send.closed = false ∧ (mem c).send.cap = 32

instance (h : Hub) (mem : Mem) : Decidable (h.WF mem) := by
  unfold Hub.WF; infer_instance

/-- Whether the mailbox of the connection at `c` has a free slot. -/
def Mem.roomy (mem : Mem) (c : Ptr) : Bool :=
  decide ((mem c).send.buf.length < (mem c).send.cap)

/-- A connection offered `ev` once by a `select` with `default`: the event is buffered when
there is room, the mailbox is closed otherwise. -/
def Client.offer (ev : Event) (cl : Client) : Client :=
  if cl.send.buf.length < cl.send.cap then
    { cl with send := { cl.send with buf := cl.send.buf ++ [ev] } }
  else { cl with send := { cl.send with closed := true } }

/-- The memory after every connection of `cs` was offered `ev` once. -/
def Mem.offer (mem : Mem) (ev : Event) (cs : List Ptr) : Mem :=
  fun p => if p ∈ cs then (mem p).offer ev else mem p

/-- The lookup `status[k]` in a presence snapshot. -/
def statusGet (m : List (Nat × Status)) (k : Nat) : Option Status :=
  (m.find? (fun e => e.1 == k)).map (fun e => e.2)

/-- The key set after the mutation that a case of the `select` makes before it offers its
event: `clients[c] = true` for a register, `delete(clients, c)` for an unregister. -/
def Select.keys (cs : List Ptr) : Select → List Ptr
  | .register c => addKey c cs
  | .unregister c => cs.erase c
  | .broadcast => cs

/-- The presence snapshot built from the key set `cs`; `Hub.clientsStatus` is this function
at the key set of the broadcaster. -/
def snapshot (now : Ptr → Nat) (cs : List Ptr) (mem : Mem) : List (Nat × Status) :=
  Hub.clientsStatus now { roomID := 0, broadcast := Chan.make 64, clients := cs } mem

/-! ## The registry -/

/-- The registry `type RoomHubs struct { hubs map[uint]*Hub }`: the map as a list of pairs
with distinct room ids.  A `*Hub` is reached only through the registry, so the broadcaster
stored under a room id stands for the object behind the pointer. -/
structure RoomHubs where
  hubs : List (Nat × Hub)
deriving DecidableEq, Repr

/-- The constructor `NewRoomHubs()`. -/
def NewRoomHubs : RoomHubs := { hubs := [] }

/-- The map lookup `r.hubs[roomID]`. -/
def RoomHubs.get (r : RoomHubs) (roomID : Nat) : Option Hub :=
  (r.hubs.find? (fun e => e.1 == roomID)).map (fun e => e.2)

/-- A write through the pointer stored under `roomID`: the broadcaster behind it becomes
`h`. -/
def RoomHubs.store (r : RoomHubs) (roomID : Nat) (h : Hub) : RoomHubs :=
  { hubs := r.hubs.map (fun e => if e.1 == roomID then (e.1, h) else e) }

/-- The method `RoomHubs.hub`: the stored broadcaster, or a new one that is stored under
`roomID`.  The statement `go h.Run()` starts the loop whose iterations are `Hub.Run`; it
changes no data. -/
def RoomHubs.hub (r : RoomHubs) (roomID : Nat) : Hub × RoomHubs :=
  match r.get roomID with
  | some h => (h, r)
  | none => (NewHub roomID, { hubs := (roomID, NewHub roomID) :: r.hubs })

/-- The method `RoomHubs.Emit`: `r.hub(roomID).Broadcast(ev)`.  With a full broadcast
channel the caller waits in the send. -/
def RoomHubs.Emit (r : RoomHubs) (roomID : Nat) (ev : Event) : Outcome RoomHubs :=
  match (r.hub roomID).1.Broadcast ev with
  | .panic => .panic
  | .full => .blocked (r.hub roomID).2
  | .sent b => .running ((r.hub roomID).2.store roomID { (r.hub roomID).1 with broadcast := b })

/-- The `Client` object built by `Handler.addClient`: a new 32-slot mailbox, nothing written
to the transport, and a writer loop that is about to start. -/
def Client.fresh (userID : Nat) : Client :=
  { userID := userID, send := Chan.make 32, conn := { written := [], closed := false },
    writerDone := false }

/-- The method `Handler.addClient` up to its send on the `register` channel: the broadcaster
of the room is looked up (and created when missing) and the new `Client` object is placed
at the unused address `p`.  The send `cl.hub.register <- cl` is then received by the loop
as `Select.register p`. -/
def Handler.addClient (r : RoomHubs) (mem : Mem) (p : Ptr) (roomID userID : Nat) :
    RoomHubs × Mem :=
  ((r.hub roomID).2, fun q => if q = p then Client.fresh userID else mem q)

/-! ## The writer pump and the interleaving of goroutines -/

/-- One iteration of the loop of `Client.writePump`; `ok` says whether the network accepts
the write.  The loop waits (`idle`) on an empty open mailbox, returns when the mailbox is
closed and drained or when `WriteJSON` fails, and closes the transport on return. -/
def Client.writePump (ok : Bool) (cl : Client) : Outcome Client :=
  if cl.writerDone then .idle
  else
    match cl.send.buf with
    | ev :: rest =>
      if ok && !cl.conn.closed then
        .running { cl with send := { cl.send with buf := rest },
                           conn := { cl.conn with written := cl.conn.written ++ [ev] } }
      else
        .running { cl with send := { cl.send with buf := rest },
                           conn := { cl.conn with closed := true }, writerDone := true }
    | [] =>
      if cl.send.closed then
        .running { cl with conn := { cl.conn with closed := true }, writerDone := true }
      else .idle

/-- A step of one of the goroutines around a broadcaster: an iteration of its control loop,
a call of `Hub.Broadcast` by another goroutine (`RoomHubs.Emit`, the reader pump), or an
iteration of the writer pump of the connection at `c`. -/
inductive Action where
  | loop (sel : Select)
  | emit (ev : Event)
  | write (c : Ptr) (ok : Bool)
deriving DecidableEq, Repr

/-- The effect of one step on the broadcaster and the memory. -/
def System.step (now : Ptr → Nat) (h : Hub) (mem : Mem) : Action → Outcome (Hub × Mem)
  | .loop sel => h.Run now mem sel
  | .emit ev =>
    match h.Broadcast ev with
    | .panic => .panic
    | .full => .blocked (h, mem)
    | .sent b => .running ({ h with broadcast := b }, mem)
  | .write c ok =>
    match (mem c).writePump ok with
    | .running cl => .running (h, fun p => if p = c then cl else mem p)
    | .blocked cl => .blocked (h, fun p => if p = c then cl else mem p)
    | .idle => .idle
    | .panic => .panic

/-- The steps `acts` one after the other; a step is taken only from a `running` outcome. -/
def System.runs (now : Ptr → Nat) : List Action → Hub × Mem → Outcome (Hub × Mem)
  | [], s => .running s
  | act :: acts, s =>
    match System.step now s.1 s.2 act with
    | .running s' => System.runs now acts s'
    | o => o

/-- The events that the steps `acts` put on the broadcast channel, in the order of the
steps: the event of every `emit`, the `presence_join` of every `register` and the
`presence_leave` of every `unregister`. -/
def enqueued (mem : Mem) : List Action → List Event
  | [] => []
  | .emit ev :: acts => ev :: enqueued mem acts
  | .loop (.register c) :: acts =>
    { type := "presence_join", payload := .userId (mem c).userID } :: enqueued mem acts
  | .loop (.unregister c) :: acts =>
    { type := "presence_leave", payload := .userId (mem c).userID } :: enqueued mem acts
  | _ :: acts => enqueued mem acts

/-! ## Example states -/

/-- A clock that always reads 0. -/
def exNow : Ptr → Nat := fun _ => 0

/-- A memory of new clients: the client at address `p` belongs to user `100 + p`. -/
def exMem : Mem := fun p => Client.fresh (100 + p)

/-- The broadcaster of room 7 with the connections `cs` registered and the events `pending`
on its broadcast channel. -/
def exHubOf (cs : List Ptr) (pending : List Event) : Hub :=
  { roomID := 7, broadcast := { cap := 64, buf := pending, closed := false }, clients := cs }

/-- A registry that knows room 7 only, with the connection at address 0 registered there. -/
def exRooms : RoomHubs := { hubs := [(7, exHubOf [0] [])] }

/-- The event used to fill mailboxes in the examples. -/
def exEvent : Event := { type := "typing", payload := .userId 100 }

/-- The memory `exMem` in which the mailbox of the client at address 0 already holds `n`
events. -/
def exMemFilled (n : Nat) : Mem :=
  exMem.setSend 0 { cap := 32, buf := List.replicate n exEvent, closed := false }

/-! ## Bookkeeping over a run of the loop -/

/-- The connections received by the register cases of `sels`, in order. -/
def registers : List Select → List Ptr
  | [] => []
  | .register c :: sels => c :: registers sels
  | _ :: sels => registers sels

/-- The connections removed by backpressure, that is by the `default` branch of a fan-out,
during the iterations `sels` started in `s`: at every completed iteration, the keys of the
mutated set whose mailbox has no free slot when the event is offered. -/
def Hub.backpressured (now : Ptr → Nat) : List Select → Hub × Mem → List Ptr
  | [], _ => []
  | sel :: sels, s =>
    match s.1.Run now s.2 sel with
    | .running s' =>
      (sel.keys s.1.clients).filter (fun c => !s.2.roomy c) ++ Hub.backpressured now sels s'
    | _ => []

/-- The connection `c` is registered in `sels` and not unregistered afterwards. -/
def RegisteredStill (sels : List Select) (c : Ptr) : Prop :=
  ∃ pre post, sels = pre ++ Select.register c :: post ∧ Select.unregister c ∉ post

/-- The number of unregister steps of `sels` whose connection is registered, and not yet
unregistered, when the step is taken; `live` holds the connections registered before
`sels`. -/
def unregistersOfRegistered (live : List Ptr) : List Select → Nat
  | [] => 0
  | .register c :: sels => unregistersOfRegistered (addKey c live) sels
  | .unregister c :: sels =>
    (if c ∈ live then 1 else 0) + unregistersOfRegistered (live.erase c) sels
  | .broadcast :: sels => unregistersOfRegistered live sels

/-! ## The presence tracker -/

/-- The tracker `type Presence struct { mu sync.Mutex; online map[uint]time.Time }`: the map
as a list of pairs of a user id and a time.  Every method holds the mutex from its first to
its last statement, so a method is one step. -/
structure Presence where
  online : List (Nat × Nat)
deriving DecidableEq, Repr

/-- The constructor `NewPresence()`. -/
def NewPresence : Presence := { online := [] }

/-- The method `Presence.Online`: `p.online[uid] = time.Now()`, with `now` the reading of
the clock. -/
def Presence.Online (p : Presence) (uid : Nat) (now : Nat) : Presence :=
  { online := (uid, now) :: p.online.filter (fun e => e.1 != uid) }

/-- The method `Presence.Offline`: `delete(p.online, uid)`. -/
def Presence.Offline (p : Presence) (uid : Nat) : Presence :=
  { online := p.online.filter (fun e => e.1 != uid) }

/-- The method `Presence.LastSeen`: `t, ok := p.online[uid]`; the time is the zero time,
written 0, when the key is missing. -/
def Presence.LastSeen (p : Presence) (uid : Nat) : Nat × Bool :=
  match p.online.find? (fun e => e.1 == uid) with
  | some e => (e.2, true)
  | none => (0, false)

/-- The method `Presence.IsOnline`: `_, ok := p.online[uid]`. -/
def Presence.IsOnline (p : Presence) (uid : Nat) : Bool :=
  (p.LastSeen uid).2

/-- The method `Presence.AllStatuses`: for every pair of the map the entry
`status[uid] = {"online": true, "lastSeen": t}`. -/
def Presence.AllStatuses (p : Presence) : List (Nat × Status) :=
  p.online.foldl (fun status e => statusSet status e.1 { online := true, lastSeen := e.2 }) []

/-- A call of a method that changes the tracker. -/
inductive PresenceOp where
  | online (uid : Nat) (now : Nat)
  | offline (uid : Nat)
deriving DecidableEq, Repr

/-- The user id a call is about. -/
def PresenceOp.uid : PresenceOp → Nat
  | .online uid _ => uid
  | .offline uid => uid

/-- The tracker after the calls `ops`, made one after the other. -/
def Presence.run (p : Presence) : List PresenceOp → Presence
  | [] => p
  | .online uid now :: ops => (p.Online uid now).run ops
  | .offline uid :: ops => (p.Offline uid).run ops

/-- The keys of the map of a tracker are distinct, as the keys of a Go map are. -/
def Presence.Keyed (p : Presence) : Prop := (p.online.map (fun e => e.1)).Nodup

/-! ## Operations on the registry -/

/-- One iteration of the control loop of the broadcaster stored under `roomID`, started by
`go h.Run()` in `RoomHubs.hub`; `idle` when the registry has no broadcaster, hence no loop,
for that room.  What the loop writes goes through the stored pointer. -/
def RoomHubs.Run (now : Ptr → Nat) (r : RoomHubs) (mem : Mem) (roomID : Nat) (sel : Select) :
    Outcome (RoomHubs × Mem) :=
  match r.get roomID with
  | none => .idle
  | some h =>
    match h.Run now mem sel with
    | .running (h', mem') => .running (r.store roomID h', mem')
    | .blocked (h', mem') => .blocked (r.store roomID h', mem')
    | .idle => .idle
    | .panic => .panic

/-- What goroutines do with the registry: a lookup `hub(roomID)`, a call `Emit(roomID, ev)`,
a client registration `addClient(roomID, userID, conn)` that places the new client at
address `p`, and an iteration of the control loop of a stored broadcaster. -/
inductive RegistryOp where
  | hub (roomID : Nat)
  | emit (roomID : Nat) (ev : Event)
  | addClient (p : Ptr) (roomID userID : Nat)
  | loop (roomID : Nat) (sel : Select)
deriving DecidableEq, Repr

/-- The room ids that an operation passes to `RoomHubs.hub`. -/
def RegistryOp.referenced : RegistryOp → List Nat
  | .hub roomID => [roomID]
  | .emit roomID _ => [roomID]
  | .addClient _ roomID _ => [roomID]
  | .loop _ _ => []

/-- The effect of one registry operation on the registry and the memory. -/
def RoomHubs.step (now : Ptr → Nat) (s : RoomHubs × Mem) : RegistryOp → Outcome (RoomHubs × Mem)
  | .hub roomID => .running ((s.1.hub roomID).2, s.2)
  | .emit roomID ev =>
    match s.1.Emit roomID ev with
    | .running r => .running (r, s.2)
    | .blocked r => .blocked (r, s.2)
    | .idle => .idle
    | .panic => .panic
  | .addClient p roomID userID => .running (Handler.addClient s.1 s.2 p roomID userID)
  | .loop roomID sel => RoomHubs.Run now s.1 s.2 roomID sel

/-- The room ids that have an entry in the registry, newest first. -/
def RoomHubs.keys (r : RoomHubs) : List Nat := r.hubs.map (fun e => e.1)

/-! ## Registrations in an interleaving -/

/-- The connections received by the register cases among the steps `acts`, in order. -/
def sysRegisters : List Action → List Ptr
  | [] => []
  | .loop (.register c) :: acts => c :: sysRegisters acts
  | _ :: acts => sysRegisters acts

/-- A memory of new clients that all belong to user 100. -/
def exMemShared : Mem := fun _ => Client.fresh 100

/-! ## Frames, message records and the reader pump -/

/-- A JSON value as it is decoded into `interface{}`; the handlers never look into arrays
and objects. -/
inductive Json where
  | null
  | bool (b : Bool)
  | number (n : Int)
  | str (s : String)
  | compound
deriving DecidableEq, Repr

/-- The inbound frame `type wsIncoming struct { Type string; Payload map[string]interface{} }`,
the map as a list of pairs. -/
structure wsIncoming where
  type : String
  payload : List (String × Json)
deriving DecidableEq, Repr

/-- What a call of `c.conn.ReadJSON(&incoming)` returns: an error (decode or transport), or
a decoded frame. -/
inductive ReadJSON where
  | error
  | frame (incoming : wsIncoming)
deriving DecidableEq, Repr

/-- The map lookup `payload[key]`. -/
def jsonGet (payload : List (String × Json)) (key : String) : Option Json :=
  (payload.find? (fun e => e.1 == key)).map (fun e => e.2)

/-- The expression `s, _ := payload[key].(string)`: the string under the key, and the empty
string when the key is missing or its value is not a string. -/
def stringField (payload : List (String × Json)) (key : String) : String :=
  match jsonGet payload key with
  | some (.str s) => s
  | _ => ""

/-- The record `models.Message`, its fields under their JSON names. -/
structure Message where
  id : Nat
  createdAt : Nat
  updatedAt : Nat
  roomId : Nat
  userId : Nat
  type : String
  text : String
  imageUrl : String
deriving DecidableEq, Repr

/-- The statement `if msg.Type == "" { msg.Type = "text" }`. -/
def Message.defaultType (msg : Message) : Message :=
  if msg.type = "" then { msg with type := "text" } else msg

/-- The record the reader builds from the payload of a `message` frame, before it is
stored: room and user come from the connection, the three strings from the payload. -/
def Client.newMessage (roomID userID : Nat) (payload : List (String × Json)) : Message :=
  Message.defaultType
    { id := 0, createdAt := 0, updatedAt := 0, roomId := roomID, userId := userID,
      type := stringField payload "type", text := stringField payload "text",
      imageUrl := stringField payload "imageUrl" }

/-- The `gin.H` payload of the `message` event built from a stored record. -/
def Message.event (msg : Message) : Event :=
  { type := "message",
    payload := .message msg.id msg.roomId msg.userId msg.type msg.text msg.imageUrl
      msg.createdAt }

/-- Where the control loop of a broadcaster is: at its `select`, waiting for ever inside a
case, or ended by a panic. -/
inductive LoopState where
  | selecting
  | stuck
  | crashed
deriving DecidableEq, Repr

/-- What the reader pump of a connection works on: the broadcaster `c.hub` with its control
loop, the memory, the presence tracker `c.handler.presence`, and the records passed to
`c.handler.db.Create`, oldest first. -/
structure World where
  hub : Hub
  mem : Mem
  presence : Presence
  creates : List Message
  loop : LoopState

/-- The control loop of the broadcaster takes the case `sel` of its `select`; a loop that
is not at its `select` takes nothing. -/
def World.loopRun (now : Ptr → Nat) (w : World) (sel : Select) : World :=
  match w.loop with
  | .selecting =>
    match w.hub.Run now w.mem sel with
    | .running s => { w with hub := s.1, mem := s.2 }
    | .blocked s => { w with hub := s.1, mem := s.2, loop := .stuck }
    | .idle => w
    | .panic => { w with loop := .crashed }
  | _ => w

/-- The call `c.hub.Broadcast(ev)` made by the reader: with a full broadcast channel the
reader waits in the send. -/
def World.Broadcast (w : World) (ev : Event) : Outcome World :=
  match w.hub.Broadcast ev with
  | .sent b => .running { w with hub := { w.hub with broadcast := b } }
  | .full => .blocked w
  | .panic => .panic

/-- The memory after `c.conn.Close()`. -/
def Mem.closeConn (mem : Mem) (c : Ptr) : Mem :=
  fun p => if p = c then { mem c with conn := { (mem c).conn with closed := true } } else mem p

/-- The body of the `for` loop of `Client.readPump` for a decoded frame.  `create` is the
persistence collaborator `c.handler.db.Create(&msg)`: given the records passed to it before
and the new record, it fails (`none`) or assigns the id and the creation time. -/
def Client.readFrame (create : List Message → Message → Option (Nat × Nat)) (c : Ptr)
    (incoming : wsIncoming) (w : World) : Outcome World :=
  if incoming.type = "typing" then
    w.Broadcast { type := "typing", payload := .userId (w.mem c).userID }
  else if incoming.type = "message" then
    let msg := Client.newMessage w.hub.roomID (w.mem c).userID incoming.payload
    match create w.creates msg with
    | some (id, t) =>
      World.Broadcast { w with creates := w.creates ++ [msg] }
        (Message.event { msg with id := id, createdAt := t, updatedAt := t })
    | none => .running { w with creates := w.creates ++ [msg] }
  else .running w

/-- The deferred function of `Client.readPump`: the send `c.hub.unregister <- c` completes
when the control loop receives it at its `select`, and only then the reader goes on to
`c.conn.Close()` and `c.handler.presence.Offline(c.userID)`, while the loop works through
its unregister case. -/
def Client.readPumpExit (now : Ptr → Nat) (c : Ptr) (w : World) : Outcome World :=
  match w.loop with
  | .selecting =>
    match (w.loopRun now (.unregister c)).loop with
    | .crashed => .panic
    | _ =>
      .running { w.loopRun now (.unregister c) with
        mem := (w.loopRun now (.unregister c)).mem.closeConn c,
        presence := (w.loopRun now (.unregister c)).presence.Offline (w.mem c).userID }
  | .stuck => .blocked w
  | .crashed => .panic

/-- The method `Client.readPump` on the results `reads` of its successive calls of
`ReadJSON`: frames are handled one after the other, the first error leaves the loop and
runs the deferred function, and what would be read after it is never read. -/
def Client.readPump (now : Ptr → Nat) (create : List Message → Message → Option (Nat × Nat))
    (c : Ptr) : List ReadJSON → World → Outcome World
  | [], w => .running w
  | .error :: _, w => Client.readPumpExit now c w
  | .frame incoming :: reads, w =>
    match Client.readFrame create c incoming w with
    | .running w' => Client.readPump now create c reads w'
    | o => o

/-! ## The REST send-message handler -/

/-- The request body after `c.ShouldBindJSON(&req)`: the three string fields of `req`; a
field missing from the body is the empty string. -/
structure SendMessageRequest where
  type : String
  text : String
  imageUrl : String
deriving DecidableEq, Repr

/-- A response of a handler: the status code and the message of `respondErr`, or `ok`. -/
structure Response where
  status : Nat
  message : String
deriving DecidableEq, Repr

/-- What the REST handler works on: the registry, the records passed to `h.db.Create`, and
the response once it is written. -/
structure RestState where
  rooms : RoomHubs
  creates : List Message
  response : Option Response
deriving DecidableEq, Repr

/-- The record `Handler.SendMessageREST` builds from the bound request. -/
def Handler.newMessageREST (roomID userID : Nat) (req : SendMessageRequest) : Message :=
  Message.defaultType
    { id := 0, createdAt := 0, updatedAt := 0, roomId := roomID, userId := userID,
      type := req.type, text := req.text, imageUrl := req.imageUrl }

/-- The handler `Handler.SendMessageREST`.  `roomID` is the parsed path parameter, `userID`
is `uid(c)`, and `bound` is the result of `c.ShouldBindJSON(&req)`, `none` for its error. -/
def Handler.SendMessageREST (create : List Message → Message → Option (Nat × Nat))
    (roomID userID : Nat) (bound : Option SendMessageRequest) (s : RestState) :
    Outcome RestState :=
  match bound with
  | none => .running { s with response := some ⟨400, "invalid payload"⟩ }
  | some req =>
    let msg := Handler.newMessageREST roomID userID req
    match create s.creates msg with
    | none =>
      .running { s with creates := s.creates ++ [msg], response := some ⟨500, "db error"⟩ }
    | some (id, t) =>
      match s.rooms.Emit msg.roomId
        (Message.event { msg with id := id, createdAt := t, updatedAt := t }) with
      | .running r =>
        .running { rooms := r, creates := s.creates ++ [msg], response := some ⟨200, "ok"⟩ }
      | .blocked r => .blocked { rooms := r, creates := s.creates ++ [msg], response := none }
      | .idle => .idle
      | .panic => .panic

/-- A world in which connection 0 of user 100 is registered in room 7, user 100 is online
since time 3, the loop is at its `select`, and 64 events are waiting on the broadcast
channel. -/
def exWorldFull : World :=
  { hub := exHubOf [0] (List.replicate 64 exEvent), mem := exMem,
    presence := NewPresence.Online 100 3, creates := [], loop := .selecting }

/-! ## The upgrade endpoint -/

/-- The fields of `models.Room` that the upgrade endpoint reads. -/
structure Room where
  id : Nat
  isPrivate : Bool
deriving DecidableEq, Repr

/-- What the upgrade endpoint works on: the registry, the memory and the presence
tracker. -/
structure Server where
  rooms : RoomHubs
  mem : Mem
  presence : Presence

/-- What became of an upgrade request: it was answered by `respondErr`, or the connection
was upgraded and the new client at address `p` was sent on the `register` channel of its
room, to be received by the loop as `Select.register p`. -/
inductive Upgrade where
  | rejected (status : Nat) (message : String)
  | upgraded (p : Ptr)
deriving DecidableEq, Repr

/-- The method `Handler.initWS`.  `upgradeOk` says whether `upgrader.Upgrade` succeeds,
`now` is the clock reading of `Presence.Online`, and `p` is the unused address that the
new client gets.  The statements `go cl.writePump()` and `go cl.readPump()` start the
pumps; they change no data. -/
def Handler.initWS (upgradeOk : Bool) (now : Nat) (p : Ptr) (roomID userID : Nat)
    (s : Server) : Upgrade × Server :=
  if upgradeOk then
    (.upgraded p,
      { rooms := (Handler.addClient s.rooms s.mem p roomID userID).1,
        mem := (Handler.addClient s.rooms s.mem p roomID userID).2,
        presence := s.presence.Online userID now })
  else (.rejected 400 "upgrade failed", s)

/-- The handler `Handler.RoomWebSocket`.  `findRoom` is `h.db.First(&r, roomID)`, `none`
for its error; `isMember` says whether the membership query
`Where("room_id = ? AND user_id = ?", roomID, uid(c)).First(&m)` returns without error. -/
def Handler.RoomWebSocket (findRoom : Nat → Option Room) (isMember : Nat → Nat → Bool)
    (upgradeOk : Bool) (now : Nat) (p : Ptr) (roomID userID : Nat) (s : Server) :
    Upgrade × Server :=
  match findRoom roomID with
  | none => (.rejected 404 "room not found", s)
  | some r =>
    if r.isPrivate && !isMember roomID userID then
      (.rejected 403 "not a member of private room", s)
    else Handler.initWS upgradeOk now p roomID userID s

/-! ## Capacities and mailbox safety -/

/-- The capacities the constructors give: the broadcast channel of a broadcaster has 64
slots and holds at most 64 events, and the mailbox of every connection has 32 slots and
holds at most 32 events. -/
def Hub.Capped (h : Hub) (mem : Mem) : Prop :=
  h.broadcast.cap = 64 ∧ h.broadcast.buf.length ≤ 64 ∧
    ∀ p, (mem p).send.cap = 32 ∧ (mem p).send.buf.length ≤ 32

/-- Mailbox safety of a broadcaster: the keys of the set are distinct, the broadcast
channel is open, and every connection in the set has an open mailbox. -/
def Hub.Safe (h : Hub) (mem : Mem) : Prop :=
  h.clients.Nodup ∧ h.broadcast.closed = false ∧
    ∀ c ∈ h.clients, (mem c).send.closed = false

/-- The registry `r1` has the connection sets of `r`: a broadcaster of `r1` has the
connection set that the broadcaster of `r` for the same room has, and the empty set when
`r` has no broadcaster for that room. -/
def RoomHubs.keepsSets (r r1 : RoomHubs) : Prop :=
  ∀ k h1, r1.get k = some h1 →
    (∃ h, r.get k = some h ∧ h1.clients = h.clients) ∨ (r.get k = none ∧ h1.clients = [])

/-! ## The lookup of a broadcaster, statement by statement -/

/-- An address of a `Hub` object (`*Hub`). -/
abbrev HubPtr := Nat

/-- The registry with the identity of the broadcasters: the map `r.hubs` from room ids to
addresses, the `Hub` objects allocated by `NewHub` (the address is the position in the
list), and the addresses whose loop was started by `go h.Run()`, in order. -/
structure HubHeap where
  hubs : List (Nat × HubPtr)
  objects : List Hub
  started : List HubPtr
deriving DecidableEq, Repr

/-- Where a call of `RoomHubs.hub(roomID)` is: before the map lookup `r.hubs[roomID]`;
after a lookup that found no entry, before `NewHub(roomID)`, the map write
`r.hubs[roomID] = h` and `go h.Run()`; or returned with an address.  The method takes no
lock, so steps of other goroutines can come between the lookup and the write. -/
inductive HubCall where
  | lookup (roomID : Nat)
  | create (roomID : Nat)
  | returned (h : HubPtr)
deriving DecidableEq, Repr

/-- One step of a call of `RoomHubs.hub`.  The three statements after a failed lookup are
taken as one step, which is the coarsest interleaving the method allows. -/
def HubCall.step (r : HubHeap) : HubCall → HubCall × HubHeap
  | .lookup roomID =>
    match r.hubs.find? (fun e => e.1 == roomID) with
    | some e => (.returned e.2, r)
    | none => (.create roomID, r)
  | .create roomID =>
    (.returned r.objects.length,
      { hubs := (roomID, r.objects.length) :: r.hubs.filter (fun e => e.1 != roomID),
        objects := r.objects ++ [NewHub roomID],
        started := r.started ++ [r.objects.length] })
  | .returned h => (.returned h, r)

/-- Two goroutines, each in a call of `RoomHubs.hub`, on one registry. -/
structure HubRace where
  first : HubCall
  second : HubCall
  registry : HubHeap
deriving DecidableEq, Repr

/-- The steps of the two callers in the order `sched` of the scheduler: `false` lets the
first caller take a step, `true` the second. -/
def HubRace.run : List Bool → HubRace → HubRace
  | [], s => s
  | false :: sched, s =>
    HubRace.run sched
      { s with first := (s.first.step s.registry).1, registry := (s.first.step s.registry).2 }
  | true :: sched, s =>
    HubRace.run sched
      { s with second := (s.second.step s.registry).1,
               registry := (s.second.step s.registry).2 }

/-! ## Connections and the presence tracker -/

/-- What the presence tracker is told about connections: `Handler.initWS` upgraded a
request of user `userID` at clock reading `now` and placed the client at address `p`; or
the deferred function of the reader pump of the connection at `p` ran to its end. -/
inductive ConnEvent where
  | opened (p : Ptr) (userID : Nat) (now : Nat)
  | readerExit (p : Ptr)
deriving DecidableEq, Repr

/-- The client objects, the presence tracker, and the connections that were opened and
whose reader loop has not exited. -/
structure Sessions where
  mem : Mem
  presence : Presence
  live : List Ptr

/-- The effect of one event: `initWS` calls `h.presence.Online(userID)` and `addClient`
builds the client; the deferred function of `readPump` calls
`c.handler.presence.Offline(c.userID)`. -/
def Sessions.step (s : Sessions) : ConnEvent → Sessions
  | .opened p userID now =>
    { mem := fun q => if q = p then Client.fresh userID else s.mem q,
      presence := s.presence.Online userID now,
      live := p :: s.live }
  | .readerExit p =>
    { s with presence := s.presence.Offline (s.mem p).userID, live := s.live.erase p }

/-- The events `evs` one after the other. -/
def Sessions.run (s : Sessions) : List ConnEvent → Sessions
  | [] => s
  | e :: evs => (s.step e).run evs

/-- Whether user `u` has an opened connection whose reader loop has not exited. -/
def Sessions.connected (s : Sessions) (u : Nat) : Bool :=
  s.live.any (fun p => (s.mem p).userID == u)

/-- The events are those of a program run: a new client gets an address that no open
connection has, and only the reader of an open connection exits. -/
def Sessions.Valid (s : Sessions) : List ConnEvent → Prop
  | [] => True
  | .opened p userID now :: evs =>
    p ∉ s.live ∧ Sessions.Valid (s.step (.opened p userID now)) evs
  | .readerExit p :: evs => p ∈ s.live ∧ Sessions.Valid (s.step (.readerExit p)) evs

/-- No user opens a connection while they have one open. -/
def Sessions.OneEach (s : Sessions) : List ConnEvent → Prop
  | [] => True
  | .opened p userID now :: evs =>
    s.connected userID = false ∧ Sessions.OneEach (s.step (.opened p userID now)) evs
  | .readerExit p :: evs => Sessions.OneEach (s.step (.readerExit p)) evs

/-- No connection is open and nobody is online. -/
def Sessions.init (mem : Mem) : Sessions :=
  { mem := mem, presence := NewPresence, live := [] }

/-! ## The check of a one-time code -/

/-- The library function `strings.ContainsAny(s, chars)`: whether some character of `s` is
one of `chars`. -/
def strings.ContainsAny (s chars : String) : Bool :=
  s.toList.any (fun c => chars.toList.contains c)

/-- The function `verifyTOTPCode`: `len(code) == 6 && strings.ContainsAny(code,
"0123456789")`, where `len` is the length in bytes. -/
def verifyTOTPCode : (secret : String) → (code : String) → Bool :=
  fun _ code => code.utf8ByteSize == 6 && strings.ContainsAny code "0123456789"

/-! ## Accounting over an interleaving -/

/-- The cases of the `select` taken by the loop iterations among the steps `acts`, in
order. -/
def loopSels : List Action → List Select
  | [] => []
  | .loop sel :: acts => sel :: loopSels acts
  | _ :: acts => loopSels acts

/-- The connections removed by backpressure, that is by the `default` branch of a fan-out,
during the steps `acts` started in `s`: at every completed loop iteration, the keys of the
mutated set whose mailbox has no free slot when the event is offered.  Calls of
`Broadcast` and writer iterations remove nothing. -/
def System.backpressured (now : Ptr → Nat) : List Action → Hub × Mem → List Ptr
  | [], _ => []
  | act :: acts, s =>
    match System.step now s.1 s.2 act with
    | .running s' =>
      (match act with
        | .loop sel => (sel.keys s.1.clients).filter (fun c => !s.2.roomy c)
        | _ => []) ++ System.backpressured now acts s'
    | _ => []

/-! ## Any number of callers of the registry lookup -/

/-- The room ids that have an entry in the map of the registry. -/
def HubHeap.keys (r : HubHeap) : List Nat := r.hubs.map (fun e => e.1)

/-- Goroutines, numbered, on one registry, each in a call of `RoomHubs.hub` that it makes
directly, through `Emit` or through `addClient`; these reach the map only through that
call. -/
structure HubPool where
  calls : Nat → HubCall
  registry : HubHeap

/-- The goroutine `i` takes one step of its call. -/
def HubPool.step (s : HubPool) (i : Nat) : HubPool :=
  { calls := fun j => if j = i then ((s.calls i).step s.registry).1 else s.calls j,
    registry := ((s.calls i).step s.registry).2 }

/-- The steps of the goroutines in the order `sched` of the scheduler. -/
def HubPool.run : List Nat → HubPool → HubPool
  | [], s => s
  | i :: sched, s => HubPool.run sched (s.step i)

/-- Every goroutine `i` is about to call `hub(ids i)` on the registry `r`. -/
def HubPool.start (ids : Nat → Nat) (r : HubHeap) : HubPool :=
  { calls := fun i => .lookup (ids i), registry := r }

/-- The schedule in which the goroutines `is` make their calls one after the other: each
takes the two steps of its call before the next starts. -/
def oneByOne : List Nat → List Nat
  | [] => []
  | i :: is => i :: i :: oneByOne is

/-- What a call knows of the registry: a call for room `k` is before its lookup, or
between its lookup and its write, or it has returned and the room has an entry. -/
def callFor (r : HubHeap) (k : Nat) (c : HubCall) : Prop :=
  c = .lookup k ∨ c = .create k ∨ ∃ p, c = .returned p ∧ k ∈ r.keys

/-! ## The request body of the REST send-message handler -/

theorem setSend_of_ne (mem : Mem) (c p : Ptr) (ch : Chan) (h : p ≠ c) :
    mem.setSend c ch p = mem p := by
  simp [Mem.setSend, h]

theorem setSend_self (mem : Mem) (c : Ptr) (ch : Chan) :
    mem.setSend c ch c = { mem c with send := ch } := by
  simp [Mem.setSend]

/-- On distinct keys with open mailboxes the fan-out loop never panics: it keeps the
connections with a free slot and offers the event to every key once. -/
theorem fanout_eq (ev : Event) (cs : List Ptr) : ∀ (mem : Mem), cs.Nodup →
    (∀ c ∈ cs, (mem c).send.closed = false) →
    fanout ev cs mem = some (cs.filter mem.roomy, mem.offer ev cs) := by
  induction cs with
  | nil =>
    intro mem _ _
    have : mem.offer ev [] = mem := by funext p; simp [Mem.offer]
    simp [fanout, this]
  | cons c cs ih =>
    intro mem hnd hop
    have hc : c ∉ cs := (List.nodup_cons.mp hnd).1
    have hnd' : cs.Nodup := (List.nodup_cons.mp hnd).2
    have hcl : (mem c).send.closed = false := hop c (List.mem_cons_self _ _)
    have hne : ∀ p ∈ cs, p ≠ c := fun p hp h => hc (h ▸ hp)
    have key : ∀ ch : Chan,
        fanout ev cs (mem.setSend c ch) =
          some (cs.filter mem.roomy,
            fun p => if p ∈ cs then (mem p).offer ev else mem.setSend c ch p) := by
      intro ch
      have hop' : ∀ p ∈ cs, ((mem.setSend c ch) p).send.closed = false := by
        intro p hp
        rw [setSend_of_ne _ _ _ _ (hne p hp)]
        exact hop p (List.mem_cons_of_mem _ hp)
      rw [ih _ hnd' hop']
      have hfilt : cs.filter (mem.setSend c ch).roomy = cs.filter mem.roomy := by
        apply List.filter_congr
        intro p hp
        simp [Mem.roomy, setSend_of_ne _ _ _ _ (hne p hp)]
      rw [hfilt]
      congr 2
      funext p
      by_cases hp : p ∈ cs
      · simp [Mem.offer, hp, setSend_of_ne _ _ _ _ (hne p hp)]
      · simp [Mem.offer, hp]
    by_cases hroom : (mem c).send.buf.length < (mem c).send.cap
    · have hs : (mem c).send.send ev =
          .sent ⟨(mem c).send.cap, (mem c).send.buf ++ [ev], (mem c).send.closed⟩ := by
        simp [Chan.send, hcl, hroom]
      have hr : mem.roomy c = true := by simp [Mem.roomy, hroom]
      rw [fanout, hs]
      simp only []
      rw [key, List.filter_cons, hr]
      simp only [if_true]
      congr 2
      funext p
      by_cases hpc : p = c
      · subst hpc
        simp [hc, Mem.offer, Mem.setSend, Client.offer, hroom]
      · by_cases hp : p ∈ cs
        · simp [hp, hpc, Mem.offer]
        · simp [hp, hpc, Mem.offer, Mem.setSend]
    · have hs : (mem c).send.send ev = .full := by
        simp [Chan.send, hcl, hroom]
      have hcls : (mem c).send.close =
          some ⟨(mem c).send.cap, (mem c).send.buf, true⟩ := by
        simp [Chan.close, hcl]
      have hr : mem.roomy c = false := by simp [Mem.roomy, hroom]
      rw [fanout, hs]
      simp only []
      rw [hcls]
      simp only []
      rw [key, List.filter_cons, hr]
      simp only [Bool.false_eq_true, if_false]
      congr 2
      funext p
      by_cases hpc : p = c
      · subst hpc
        simp [hc, Mem.offer, Mem.setSend, Client.offer, hroom]
      · by_cases hp : p ∈ cs
        · simp [hp, hpc, Mem.offer]
        · simp [hp, hpc, Mem.offer, Mem.setSend]

theorem offer_not_mem (mem : Mem) (ev : Event) (cs : List Ptr) (p : Ptr) (hp : p ∉ cs) :
    mem.offer ev cs p = mem p := by
  simp [Mem.offer, hp]

theorem offer_room (mem : Mem) (ev : Event) (cs : List Ptr) (p : Ptr) (hp : p ∈ cs)
    (hroom : (mem p).send.buf.length < (mem p).send.cap) :
    mem.offer ev cs p = { mem p with send := { (mem p).send with buf := (mem p).send.buf ++ [ev] } } := by
  simp [Mem.offer, hp, Client.offer, hroom]

theorem offer_full (mem : Mem) (ev : Event) (cs : List Ptr) (p : Ptr) (hp : p ∈ cs)
    (hfull : ¬ (mem p).send.buf.length < (mem p).send.cap) :
    mem.offer ev cs p = { mem p with send := { (mem p).send with closed := true } } := by
  simp [Mem.offer, hp, Client.offer, hfull]

theorem offer_userID (mem : Mem) (ev : Event) (cs : List Ptr) (p : Ptr) :
    (mem.offer ev cs p).userID = (mem p).userID := by
  unfold Mem.offer Client.offer
  split_ifs <;> rfl

theorem offer_cap (mem : Mem) (ev : Event) (cs : List Ptr) (p : Ptr) :
    (mem.offer ev cs p).send.cap = (mem p).send.cap := by
  unfold Mem.offer Client.offer
  split_ifs <;> rfl

theorem mem_filter_roomy (mem : Mem) (cs : List Ptr) (p : Ptr) :
    p ∈ cs.filter mem.roomy ↔ p ∈ cs ∧ (mem p).send.buf.length < (mem p).send.cap := by
  simp [List.mem_filter, Mem.roomy]

/-- The presence update never panics on a well-formed state. -/
theorem broadcastPresenceUpdate_eq (now : Ptr → Nat) (h : Hub) (mem : Mem)
    (hnd : h.clients.Nodup) (hop : ∀ c ∈ h.clients, (mem c).send.closed = false) :
    h.broadcastPresenceUpdate now mem =
      .running ({ h with clients := h.clients.filter mem.roomy },
        mem.offer { type := "presence_update", payload := .status (h.clientsStatus now mem) }
          h.clients) := by
  simp only [Hub.broadcastPresenceUpdate, fanout_eq _ _ _ hnd hop]

/-- The broadcast case of the loop on a well-formed state with a pending event. -/
theorem Run_broadcast_eq (now : Ptr → Nat) (h : Hub) (mem : Mem) (ev : Event)
    (rest : List Event) (hnd : h.clients.Nodup)
    (hop : ∀ c ∈ h.clients, (mem c).send.closed = false)
    (hq : h.broadcast.buf = ev :: rest) :
    h.Run now mem .broadcast =
      .running ({ h with broadcast := { h.broadcast with buf := rest },
                         clients := h.clients.filter mem.roomy },
        mem.offer ev h.clients) := by
  simp only [Hub.Run, Chan.recv, hq, fanout_eq _ _ _ hnd hop]

/-- The state a fan-out leaves is well formed again. -/
theorem WF_fanout (h : Hub) (mem : Mem) (ev : Event) (b : Chan) (hwf : h.WF mem)
    (hb : b.closed = false ∧ b.cap = 64) :
    Hub.WF { h with broadcast := b, clients := h.clients.filter mem.roomy }
      (mem.offer ev h.clients) := by
  obtain ⟨hnd, _, _, hcl⟩ := hwf
  refine ⟨hnd.filter _, hb.1, hb.2, ?_⟩
  intro c hc
  obtain ⟨hc1, hc2⟩ := (mem_filter_roomy mem h.clients c).mp hc
  rw [offer_room mem ev _ c hc1 hc2]
  exact hcl c hc1

/-- A fan-out over distinct keys that does not panic found every mailbox open. -/
theorem fanout_open (ev : Event) (cs : List Ptr) : ∀ (mem : Mem) (r : List Ptr × Mem),
    cs.Nodup → fanout ev cs mem = some r → ∀ c ∈ cs, (mem c).send.closed = false := by
  induction cs with
  | nil => intro mem r _ _ c hc; simp at hc
  | cons c cs ih =>
    intro mem r hnd hf
    have hc : c ∉ cs := (List.nodup_cons.mp hnd).1
    have hnd' : cs.Nodup := (List.nodup_cons.mp hnd).2
    have hne : ∀ p ∈ cs, p ≠ c := fun p hp h => hc (h ▸ hp)
    have hcl : (mem c).send.closed = false := by
      by_contra hcon
      have : (mem c).send.closed = true := by simpa using hcon
      simp [fanout, Chan.send, this] at hf
    have tail : ∀ ch r', fanout ev cs (mem.setSend c ch) = some r' →
        ∀ p ∈ cs, (mem p).send.closed = false := by
      intro ch r' hr p hp
      have := ih _ r' hnd' hr p hp
      rwa [setSend_of_ne _ _ _ _ (hne p hp)] at this
    intro p hp
    rcases List.mem_cons.mp hp with rfl | hp
    · exact hcl
    · rw [fanout] at hf
      cases hs : (mem c).send.send ev with
      | panic => rw [hs] at hf; simp at hf
      | sent ch =>
        rw [hs] at hf
        simp only [] at hf
        cases hr : fanout ev cs (mem.setSend c ch) with
        | none => rw [hr] at hf; simp at hf
        | some r' => exact tail ch r' hr p hp
      | full =>
        rw [hs] at hf
        simp only [] at hf
        cases hcls : (mem c).send.close with
        | none => rw [hcls] at hf; simp at hf
        | some ch =>
          rw [hcls] at hf
          simp only [] at hf
          exact tail ch r hf p hp

/-- A fan-out over distinct keys that does not panic is the offer of the event to every key. -/
theorem fanout_some (ev : Event) (cs : List Ptr) (mem : Mem) (kept : List Ptr) (mem' : Mem)
    (hnd : cs.Nodup) (hf : fanout ev cs mem = some (kept, mem')) :
    kept = cs.filter mem.roomy ∧ mem' = mem.offer ev cs := by
  have hop := fanout_open ev cs mem _ hnd hf
  rw [fanout_eq ev cs mem hnd hop] at hf
  simp only [Option.some.injEq, Prod.mk.injEq] at hf
  exact ⟨hf.1.symm, hf.2.symm⟩

theorem clientsStatus_eq_snapshot (now : Ptr → Nat) (h : Hub) (mem : Mem) :
    h.clientsStatus now mem = snapshot now h.clients mem := rfl

theorem nodup_addKey (c : Ptr) (cs : List Ptr) (h : cs.Nodup) : (addKey c cs).Nodup := by
  unfold addKey
  split_ifs with hc
  · exact h
  · exact List.nodup_cons.mpr ⟨hc, h⟩

theorem mem_addKey (c x : Ptr) (cs : List Ptr) : x ∈ addKey c cs ↔ x = c ∨ x ∈ cs := by
  unfold addKey
  split_ifs with hc
  · constructor
    · exact fun h => Or.inr h
    · rintro (rfl | h)
      · exact hc
      · exact h
  · simp

theorem nodup_keys (sel : Select) (cs : List Ptr) (h : cs.Nodup) : (sel.keys cs).Nodup := by
  cases sel with
  | register c => exact nodup_addKey c cs h
  | unregister c => exact h.erase c
  | broadcast => exact h

/-! ## The three cases of the control loop -/

theorem send_room (ch : Chan) (ev : Event) (hc : ch.closed = false)
    (hr : ch.buf.length < ch.cap) :
    ch.send ev = .sent ⟨ch.cap, ch.buf ++ [ev], false⟩ := by
  simp [Chan.send, hc, hr]

theorem send_full (ch : Chan) (ev : Event) (hc : ch.closed = false)
    (hr : ¬ ch.buf.length < ch.cap) : ch.send ev = .full := by
  simp [Chan.send, hc, hr]

theorem send_sent_inv (ch b : Chan) (ev : Event) (h : ch.send ev = .sent b) :
    ch.closed = false ∧ ch.buf.length < ch.cap ∧ b = ⟨ch.cap, ch.buf ++ [ev], false⟩ := by
  unfold Chan.send at h
  split_ifs at h with h1 h2
  have hc : ch.closed = false := by simpa using h1
  refine ⟨hc, h2, ?_⟩
  simp only [SendResult.sent.injEq] at h
  rw [← h, hc]

theorem snapshot_setSend (now : Ptr → Nat) (cs : List Ptr) (mem : Mem) (c : Ptr) (ch : Chan) :
    snapshot now cs (mem.setSend c ch) = snapshot now cs mem := by
  have : ∀ p, ((mem.setSend c ch) p).userID = (mem p).userID := by
    intro p
    by_cases hp : p = c
    · subst hp; rw [setSend_self]
    · rw [setSend_of_ne _ _ _ _ hp]
  simp only [snapshot, Hub.clientsStatus, this]

theorem filter_roomy_setSend (mem : Mem) (c : Ptr) (ch : Chan) (cs : List Ptr) (hc : c ∉ cs) :
    cs.filter (mem.setSend c ch).roomy = cs.filter mem.roomy := by
  apply List.filter_congr
  intro p hp
  have : p ≠ c := fun h => hc (h ▸ hp)
  simp [Mem.roomy, setSend_of_ne _ _ _ _ this]

/-- The register case, when the broadcast channel has a free slot. -/
theorem Run_register_eq (now : Ptr → Nat) (h : Hub) (mem : Mem) (c : Ptr)
    (hnd : h.clients.Nodup) (hbo : h.broadcast.closed = false)
    (hroom : h.broadcast.buf.length < h.broadcast.cap)
    (hop : ∀ d ∈ addKey c h.clients, (mem d).send.closed = false) :
    h.Run now mem (.register c) =
      .running (⟨h.roomID,
          ⟨h.broadcast.cap,
            h.broadcast.buf ++ [⟨"presence_join", .userId (mem c).userID⟩], false⟩,
          (addKey c h.clients).filter mem.roomy⟩,
        mem.offer ⟨"presence_update", .status (snapshot now (addKey c h.clients) mem)⟩
          (addKey c h.clients)) := by
  simp only [Hub.Run, Hub.Broadcast, send_room _ _ hbo hroom, Hub.broadcastPresenceUpdate,
    fanout_eq _ _ _ (nodup_addKey c _ hnd) hop, clientsStatus_eq_snapshot]

/-- The register case, when the broadcast channel is full: the loop waits in its own send
with the connection already in the set. -/
theorem Run_register_blocked (now : Ptr → Nat) (h : Hub) (mem : Mem) (c : Ptr)
    (hbo : h.broadcast.closed = false)
    (hfull : ¬ h.broadcast.buf.length < h.broadcast.cap) :
    h.Run now mem (.register c) =
      .blocked ({ h with clients := addKey c h.clients }, mem) := by
  simp only [Hub.Run, Hub.Broadcast, send_full _ _ hbo hfull]

/-- The unregister case for a connection of the set, when the broadcast channel has a free
slot. -/
theorem Run_unregister_eq (now : Ptr → Nat) (h : Hub) (mem : Mem) (c : Ptr)
    (hnd : h.clients.Nodup) (hbo : h.broadcast.closed = false)
    (hroom : h.broadcast.buf.length < h.broadcast.cap)
    (hop : ∀ d ∈ h.clients, (mem d).send.closed = false) (hc : c ∈ h.clients) :
    h.Run now mem (.unregister c) =
      .running (⟨h.roomID,
          ⟨h.broadcast.cap,
            h.broadcast.buf ++ [⟨"presence_leave", .userId (mem c).userID⟩], false⟩,
          (h.clients.erase c).filter mem.roomy⟩,
        (mem.setSend c ⟨(mem c).send.cap, (mem c).send.buf, true⟩).offer
          ⟨"presence_update", .status (snapshot now (h.clients.erase c) mem)⟩
          (h.clients.erase c)) := by
  have hcl : (mem c).send.close = some ⟨(mem c).send.cap, (mem c).send.buf, true⟩ := by
    simp [Chan.close, hop c hc]
  have hce : c ∉ h.clients.erase c := fun hmem => (List.Nodup.mem_erase_iff hnd).mp hmem |>.1 rfl
  have hop' : ∀ d ∈ h.clients.erase c,
      ((mem.setSend c ⟨(mem c).send.cap, (mem c).send.buf, true⟩) d).send.closed = false := by
    intro d hd
    have hdc : d ≠ c := fun hh => hce (hh ▸ hd)
    rw [setSend_of_ne _ _ _ _ hdc]
    exact hop d (List.mem_of_mem_erase hd)
  simp only [Hub.Run, hc, if_true, hcl, Hub.Broadcast, send_room _ _ hbo hroom,
    Hub.broadcastPresenceUpdate, fanout_eq _ _ _ (hnd.erase c) hop',
    clientsStatus_eq_snapshot, snapshot_setSend, filter_roomy_setSend _ _ _ _ hce, setSend_self]

/-- The unregister case for a connection of the set, when the broadcast channel is full:
the loop waits in its own send after the removal. -/
theorem Run_unregister_blocked (now : Ptr → Nat) (h : Hub) (mem : Mem) (c : Ptr)
    (hbo : h.broadcast.closed = false)
    (hfull : ¬ h.broadcast.buf.length < h.broadcast.cap)
    (hco : (mem c).send.closed = false) (hc : c ∈ h.clients) :
    h.Run now mem (.unregister c) =
      .blocked ({ h with clients := h.clients.erase c },
        mem.setSend c ⟨(mem c).send.cap, (mem c).send.buf, true⟩) := by
  have hcl : (mem c).send.close = some ⟨(mem c).send.cap, (mem c).send.buf, true⟩ := by
    simp [Chan.close, hco]
  simp only [Hub.Run, hc, if_true, hcl, Hub.Broadcast, send_full _ _ hbo hfull]

/-- The unregister case for a connection that is not in the set, when the broadcast channel
has a free slot. -/
theorem Run_unregister_absent_eq (now : Ptr → Nat) (h : Hub) (mem : Mem) (c : Ptr)
    (hnd : h.clients.Nodup) (hbo : h.broadcast.closed = false)
    (hroom : h.broadcast.buf.length < h.broadcast.cap)
    (hop : ∀ d ∈ h.clients, (mem d).send.closed = false) (hc : c ∉ h.clients) :
    h.Run now mem (.unregister c) =
      .running (⟨h.roomID,
          ⟨h.broadcast.cap,
            h.broadcast.buf ++ [⟨"presence_leave", .userId (mem c).userID⟩], false⟩,
          h.clients.filter mem.roomy⟩,
        mem.offer ⟨"presence_update", .status (snapshot now h.clients mem)⟩ h.clients) := by
  simp only [Hub.Run, hc, if_false, Hub.Broadcast, send_room _ _ hbo hroom,
    Hub.broadcastPresenceUpdate, fanout_eq _ _ _ hnd hop, clientsStatus_eq_snapshot]

/-! ## Register and unregister followed by the delivery of their queued event -/

theorem addKey_of_not_mem (c : Ptr) (cs : List Ptr) (hc : c ∉ cs) : addKey c cs = c :: cs := by
  simp [addKey, hc]

theorem filter_roomy_all (mem : Mem) (cs : List Ptr)
    (h : ∀ d ∈ cs, (mem d).send.buf.length < (mem d).send.cap) : cs.filter mem.roomy = cs := by
  apply List.filter_eq_self.mpr
  intro d hd
  simp [Mem.roomy, h d hd]

theorem runs_nil (now : Ptr → Nat) (s : Hub × Mem) : Hub.runs now [] s = .running s := rfl

theorem runs_cons (now : Ptr → Nat) (sel : Select) (sels : List Select) (h : Hub) (mem : Mem)
    (s' : Hub × Mem) (hs : h.Run now mem sel = .running s') :
    Hub.runs now (sel :: sels) (h, mem) = Hub.runs now sels s' := by
  simp only [Hub.runs, hs]

/-- Two iterations, the second a broadcast: when a first iteration ends with exactly `ev`
on the broadcast channel, every key with two free slots holds the first event and then
`ev`. -/
theorem offer_then_broadcast (now : Ptr → Nat) (rid : Nat) (b : Chan) (ks : List Ptr)
    (mem : Mem) (ev1 ev2 : Event) (hnd : ks.Nodup)
    (hop : ∀ d ∈ ks, (mem d).send.closed = false)
    (hroom : ∀ d ∈ ks, (mem d).send.buf.length + 2 ≤ (mem d).send.cap) :
    ∃ h' mem', Hub.Run now ⟨rid, ⟨b.cap, [ev2], false⟩, ks.filter mem.roomy⟩
        (mem.offer ev1 ks) .broadcast = .running (h', mem') ∧
      h'.clients = ks ∧ h'.broadcast.buf = [] ∧
      (∀ d ∈ ks, (mem' d).send.buf = (mem d).send.buf ++ [ev1, ev2] ∧
        (mem' d).send.closed = false) ∧
      (∀ d, d ∉ ks → mem' d = mem d) := by
  have hroom1 : ∀ d ∈ ks, (mem d).send.buf.length < (mem d).send.cap := by
    intro d hd; have := hroom d hd; omega
  have hks : ks.filter mem.roomy = ks := filter_roomy_all mem ks hroom1
  have h1 : ∀ d ∈ ks, mem.offer ev1 ks d =
      { mem d with send := { (mem d).send with buf := (mem d).send.buf ++ [ev1] } } :=
    fun d hd => offer_room mem ev1 ks d hd (hroom1 d hd)
  have hop1 : ∀ d ∈ ks, ((mem.offer ev1 ks) d).send.closed = false := by
    intro d hd; rw [h1 d hd]; exact hop d hd
  have hroom2 : ∀ d ∈ ks, ((mem.offer ev1 ks) d).send.buf.length <
      ((mem.offer ev1 ks) d).send.cap := by
    intro d hd; rw [h1 d hd]; have := hroom d hd; simp only [List.length_append,
      List.length_singleton]; omega
  rw [hks]
  refine ⟨_, _, Run_broadcast_eq now _ _ ev2 [] hnd hop1 rfl, ?_, rfl, ?_, ?_⟩
  · exact filter_roomy_all _ ks hroom2
  · intro d hd
    rw [offer_room _ ev2 ks d hd (hroom2 d hd), h1 d hd]
    simp [hop d hd]
  · intro d hd
    rw [offer_not_mem _ _ _ _ hd, offer_not_mem _ _ _ _ hd]

/-! ## The presence snapshot -/

theorem find_filter_of_imp {α : Type} (p q : α → Bool) (l : List α)
    (hpq : ∀ x, p x = true → q x = true) : (l.filter q).find? p = l.find? p := by
  induction l with
  | nil => rfl
  | cons x xs ih =>
    by_cases hq : q x = true
    · rw [List.filter_cons_of_pos hq]
      by_cases hp : p x = true
      · rw [List.find?_cons_of_pos _ hp, List.find?_cons_of_pos _ hp]
      · rw [List.find?_cons_of_neg _ hp, List.find?_cons_of_neg _ hp, ih]
    · rw [List.filter_cons_of_neg hq]
      have hp : ¬ p x = true := fun hp => hq (hpq x hp)
      rw [List.find?_cons_of_neg _ hp, ih]

theorem statusGet_statusSet (m : List (Nat × Status)) (k u : Nat) (v : Status) :
    statusGet (statusSet m k v) u = if u = k then some v else statusGet m u := by
  unfold statusGet statusSet
  by_cases hu : u = k
  · subst hu
    simp
  · have hku : ¬ ((fun e : Nat × Status => e.1 == u) (k, v) = true) := by
      simpa using fun h => hu h.symm
    rw [List.find?_cons_of_neg (p := fun e : Nat × Status => e.1 == u) _ hku, if_neg hu]
    rw [find_filter_of_imp]
    intro x hx
    have : x.1 = u := by simpa using hx
    simp [this, hu]

theorem statusGet_foldl (now : Ptr → Nat) (mem : Mem) (u : Nat) (cs : List Ptr) :
    ∀ acc : List (Nat × Status),
    (statusGet (cs.foldl (fun status c =>
        statusSet status (mem c).userID { online := true, lastSeen := now c }) acc) u).map
        (fun st => st.online) =
      if u ∈ cs.map (fun c => (mem c).userID) then some true
      else (statusGet acc u).map (fun st => st.online) := by
  induction cs with
  | nil => intro acc; simp
  | cons c cs ih =>
    intro acc
    rw [List.foldl_cons, ih, statusGet_statusSet]
    by_cases h1 : u ∈ cs.map (fun c => (mem c).userID)
    · simp [h1]
    · by_cases h2 : u = (mem c).userID
      · simp [h2]
      · simp [h1, h2]

/-- The snapshot has an entry for a user id exactly when a connection of the key set has
that user id, and every entry is online. -/
theorem statusGet_snapshot (now : Ptr → Nat) (cs : List Ptr) (mem : Mem) (u : Nat) :
    (statusGet (snapshot now cs mem) u).map (fun st => st.online) =
      if u ∈ cs.map (fun c => (mem c).userID) then some true else none := by
  unfold snapshot Hub.clientsStatus
  rw [statusGet_foldl]
  simp [statusGet]

theorem snapshot_online (now : Ptr → Nat) (cs : List Ptr) (mem : Mem) (c : Ptr) (hc : c ∈ cs) :
    ∃ t, statusGet (snapshot now cs mem) (mem c).userID = some ⟨true, t⟩ := by
  have h := statusGet_snapshot now cs mem (mem c).userID
  have hm : (mem c).userID ∈ cs.map (fun c => (mem c).userID) := List.mem_map.mpr ⟨c, hc, rfl⟩
  rw [if_pos hm] at h
  cases hs : statusGet (snapshot now cs mem) (mem c).userID with
  | none => rw [hs] at h; simp at h
  | some st =>
    rw [hs] at h
    simp only [Option.map_some', Option.some.injEq] at h
    refine ⟨st.lastSeen, ?_⟩
    rw [← h]

/-! ## What a completed iteration tells about the state it started from -/

theorem Run_register_inv (now : Ptr → Nat) (h : Hub) (mem : Mem) (c : Ptr) (s' : Hub × Mem)
    (hnd : h.clients.Nodup) (hrun : h.Run now mem (.register c) = .running s') :
    h.broadcast.closed = false ∧ h.broadcast.buf.length < h.broadcast.cap ∧
      ∀ d ∈ addKey c h.clients, (mem d).send.closed = false := by
  simp only [Hub.Run, Hub.Broadcast] at hrun
  cases hs : h.broadcast.send ⟨"presence_join", .userId (mem c).userID⟩ with
  | panic => rw [hs] at hrun; simp at hrun
  | full => rw [hs] at hrun; simp at hrun
  | sent b =>
    rw [hs] at hrun
    simp only [Hub.broadcastPresenceUpdate] at hrun
    obtain ⟨h1, h2, _⟩ := send_sent_inv _ _ _ hs
    refine ⟨h1, h2, ?_⟩
    cases hf : fanout ⟨"presence_update", .status (Hub.clientsStatus now
        ⟨h.roomID, b, addKey c h.clients⟩ mem)⟩ (addKey c h.clients) mem with
    | none => rw [hf] at hrun; simp at hrun
    | some r => exact fanout_open _ _ _ r (nodup_addKey c _ hnd) hf

theorem Run_unregister_inv (now : Ptr → Nat) (h : Hub) (mem : Mem) (c : Ptr)
    (s' : Hub × Mem) (hnd : h.clients.Nodup)
    (hrun : h.Run now mem (.unregister c) = .running s') :
    h.broadcast.closed = false ∧ h.broadcast.buf.length < h.broadcast.cap ∧
      ∀ d ∈ h.clients, (mem d).send.closed = false := by
  by_cases hc : c ∈ h.clients
  · simp only [Hub.Run, Hub.Broadcast, hc, if_true] at hrun
    cases hcl : (mem c).send.close with
    | none => rw [hcl] at hrun; simp at hrun
    | some ch =>
      rw [hcl] at hrun
      simp only [] at hrun
      have hco : (mem c).send.closed = false := by
        unfold Chan.close at hcl
        split_ifs at hcl with hx
        simpa using hx
      cases hs : h.broadcast.send
          ⟨"presence_leave", .userId ((mem.setSend c ch) c).userID⟩ with
      | panic => rw [hs] at hrun; simp at hrun
      | full => rw [hs] at hrun; simp at hrun
      | sent b =>
        rw [hs] at hrun
        simp only [Hub.broadcastPresenceUpdate] at hrun
        obtain ⟨h1, h2, _⟩ := send_sent_inv _ _ _ hs
        refine ⟨h1, h2, ?_⟩
        cases hf : fanout ⟨"presence_update", .status (Hub.clientsStatus now
            ⟨h.roomID, b, h.clients.erase c⟩ (mem.setSend c ch))⟩ (h.clients.erase c)
            (mem.setSend c ch) with
        | none => rw [hf] at hrun; simp at hrun
        | some r =>
          have hop := fanout_open _ _ _ r (hnd.erase c) hf
          intro d hd
          by_cases hdc : d = c
          · rw [hdc]; exact hco
          · have := hop d ((List.Nodup.mem_erase_iff hnd).mpr ⟨hdc, hd⟩)
            rwa [setSend_of_ne _ _ _ _ hdc] at this
  · simp only [Hub.Run, Hub.Broadcast, hc, if_false] at hrun
    cases hs : h.broadcast.send ⟨"presence_leave", .userId (mem c).userID⟩ with
    | panic => rw [hs] at hrun; simp at hrun
    | full => rw [hs] at hrun; simp at hrun
    | sent b =>
      rw [hs] at hrun
      simp only [Hub.broadcastPresenceUpdate] at hrun
      obtain ⟨h1, h2, _⟩ := send_sent_inv _ _ _ hs
      refine ⟨h1, h2, ?_⟩
      cases hf : fanout ⟨"presence_update", .status (Hub.clientsStatus now
          ⟨h.roomID, b, h.clients⟩ mem)⟩ h.clients mem with
      | none => rw [hf] at hrun; simp at hrun
      | some r => exact fanout_open _ _ _ r hnd hf

theorem Run_broadcast_inv (now : Ptr → Nat) (h : Hub) (mem : Mem) (s' : Hub × Mem)
    (hnd : h.clients.Nodup) (hbo : h.broadcast.closed = false)
    (hrun : h.Run now mem .broadcast = .running s') :
    (∃ ev rest, h.broadcast.buf = ev :: rest) ∧
      ∀ d ∈ h.clients, (mem d).send.closed = false := by
  simp only [Hub.Run, Chan.recv] at hrun
  cases hb : h.broadcast.buf with
  | nil => rw [hb] at hrun; simp [hbo] at hrun
  | cons ev rest =>
    rw [hb] at hrun
    simp only [] at hrun
    refine ⟨⟨ev, rest, rfl⟩, ?_⟩
    cases hf : fanout ev h.clients mem with
    | none => rw [hf] at hrun; simp at hrun
    | some r => exact fanout_open _ _ _ r hnd hf

/-- Everything a completed iteration of the loop does, in one statement: the key set is
the mutated key set without the connections whose mailbox was full; one event `ev` is
offered to every key of the mutated set; a register or an unregister puts its
`presence_join` or `presence_leave` on the broadcast channel and offers a
`presence_update`, a broadcast takes `ev` from the channel; outside the mutated key set
only the mailbox of the unregistered connection changes, and it is only closed. -/
theorem Run_running_spec (now : Ptr → Nat) (h : Hub) (mem : Mem) (sel : Select) (h' : Hub)
    (mem' : Mem) (hnd : h.clients.Nodup) (hbo : h.broadcast.closed = false)
    (hrun : h.Run now mem sel = .running (h', mem')) :
    h'.clients = (sel.keys h.clients).filter mem.roomy ∧
    h'.broadcast.closed = false ∧ h'.broadcast.cap = h.broadcast.cap ∧
    (∀ d ∈ sel.keys h.clients, (mem d).send.closed = false) ∧
    ∃ ev deq,
      h.broadcast.buf ++ enqueued mem [.loop sel] = deq ++ h'.broadcast.buf ∧
      ((sel = .broadcast ∧ deq = [ev]) ∨
        (sel ≠ .broadcast ∧ deq = [] ∧ ev.type = "presence_update")) ∧
      (∀ d ∈ sel.keys h.clients, mem' d = (mem d).offer ev) ∧
      (∀ d, d ∉ sel.keys h.clients →
        mem' d = mem d ∨
        (sel = .unregister d ∧ d ∈ h.clients ∧
          mem' d = { mem d with send := { (mem d).send with closed := true } })) := by
  cases sel with
  | register c =>
    obtain ⟨_, hroom, hop⟩ := Run_register_inv now h mem c _ hnd hrun
    rw [Run_register_eq now h mem c hnd hbo hroom hop] at hrun
    simp only [Outcome.running.injEq, Prod.mk.injEq] at hrun
    obtain ⟨rfl, rfl⟩ := hrun
    refine ⟨rfl, rfl, rfl, hop,
      ⟨"presence_update", .status (snapshot now (addKey c h.clients) mem)⟩, [], ?_,
      Or.inr ⟨by simp, rfl, rfl⟩, ?_, ?_⟩
    · simp [enqueued]
    · intro d hd
      simp only [Select.keys] at hd
      simp [Mem.offer, hd]
    · intro d hd
      simp only [Select.keys] at hd
      exact Or.inl (offer_not_mem _ _ _ _ hd)
  | unregister c =>
    obtain ⟨_, hroom, hop⟩ := Run_unregister_inv now h mem c _ hnd hrun
    by_cases hc : c ∈ h.clients
    · rw [Run_unregister_eq now h mem c hnd hbo hroom hop hc] at hrun
      simp only [Outcome.running.injEq, Prod.mk.injEq] at hrun
      obtain ⟨rfl, rfl⟩ := hrun
      have hce : c ∉ h.clients.erase c :=
        fun hmem => ((List.Nodup.mem_erase_iff hnd).mp hmem).1 rfl
      refine ⟨rfl, rfl, rfl, fun d hd => hop d (List.mem_of_mem_erase hd),
        ⟨"presence_update", .status (snapshot now (h.clients.erase c) mem)⟩, [], ?_,
        Or.inr ⟨by simp, rfl, rfl⟩, ?_, ?_⟩
      · simp [enqueued]
      · intro d hd
        simp only [Select.keys] at hd
        have hdc : d ≠ c := fun hh => hce (hh ▸ hd)
        simp [Mem.offer, hd, setSend_of_ne _ _ _ _ hdc]
      · intro d hd
        simp only [Select.keys] at hd
        rw [offer_not_mem _ _ _ _ hd]
        by_cases hdc : d = c
        · subst hdc
          exact Or.inr ⟨rfl, hc, by rw [setSend_self]⟩
        · exact Or.inl (setSend_of_ne _ _ _ _ hdc)
    · rw [Run_unregister_absent_eq now h mem c hnd hbo hroom hop hc] at hrun
      simp only [Outcome.running.injEq, Prod.mk.injEq] at hrun
      obtain ⟨rfl, rfl⟩ := hrun
      have hke : h.clients.erase c = h.clients := List.erase_of_not_mem hc
      refine ⟨by simp [Select.keys, hke], rfl, rfl, by simpa [Select.keys, hke] using hop,
        ⟨"presence_update", .status (snapshot now h.clients mem)⟩, [], ?_,
        Or.inr ⟨by simp, rfl, rfl⟩, ?_, ?_⟩
      · simp [enqueued]
      · intro d hd
        simp only [Select.keys, hke] at hd
        simp [Mem.offer, hd]
      · intro d hd
        simp only [Select.keys, hke] at hd
        exact Or.inl (offer_not_mem _ _ _ _ hd)
  | broadcast =>
    obtain ⟨⟨ev, rest, hq⟩, hop⟩ := Run_broadcast_inv now h mem _ hnd hbo hrun
    rw [Run_broadcast_eq now h mem ev rest hnd hop hq] at hrun
    simp only [Outcome.running.injEq, Prod.mk.injEq] at hrun
    obtain ⟨rfl, rfl⟩ := hrun
    refine ⟨rfl, hbo, rfl, hop, ev, [ev], ?_, Or.inl ⟨rfl, rfl⟩, ?_, ?_⟩
    · simp [enqueued, hq]
    · intro d hd
      simp only [Select.keys] at hd
      simp [Mem.offer, hd]
    · intro d hd
      simp only [Select.keys] at hd
      exact Or.inl (offer_not_mem _ _ _ _ hd)

theorem Run_running_nodup (now : Ptr → Nat) (h : Hub) (mem : Mem) (sel : Select) (h' : Hub)
    (mem' : Mem) (hnd : h.clients.Nodup) (hbo : h.broadcast.closed = false)
    (hrun : h.Run now mem sel = .running (h', mem')) : h'.clients.Nodup := by
  rw [(Run_running_spec now h mem sel h' mem' hnd hbo hrun).1]
  exact (nodup_keys sel _ hnd).filter _

theorem runs_cons_inv (now : Ptr → Nat) (sel : Select) (sels : List Select) (h : Hub)
    (mem : Mem) (s'' : Hub × Mem)
    (hrun : Hub.runs now (sel :: sels) (h, mem) = .running s'') :
    ∃ h1 mem1, h.Run now mem sel = .running (h1, mem1) ∧
      Hub.runs now sels (h1, mem1) = .running s'' := by
  simp only [Hub.runs] at hrun
  cases hs : h.Run now mem sel with
  | running s1 => rw [hs] at hrun; exact ⟨s1.1, s1.2, rfl, hrun⟩
  | blocked s1 => rw [hs] at hrun; simp at hrun
  | idle => rw [hs] at hrun; simp at hrun
  | panic => rw [hs] at hrun; simp at hrun

/-- A connection outside the set whose mailbox is closed stays outside the set, and its
`Client` object is never written again, in every run of the loop that completes. -/
theorem runs_closed_outside (now : Ptr → Nat) (c : Ptr) (sels : List Select) :
    ∀ (h : Hub) (mem : Mem) (h'' : Hub) (mem'' : Mem), h.clients.Nodup →
      h.broadcast.closed = false → c ∉ h.clients → (mem c).send.closed = true →
      Hub.runs now sels (h, mem) = .running (h'', mem'') →
      c ∉ h''.clients ∧ mem'' c = mem c := by
  induction sels with
  | nil =>
    intro h mem h'' mem'' _ _ hc _ hrun
    simp only [Hub.runs, Outcome.running.injEq, Prod.mk.injEq] at hrun
    obtain ⟨rfl, rfl⟩ := hrun
    exact ⟨hc, rfl⟩
  | cons sel sels ih =>
    intro h mem h'' mem'' hnd hbo hc hclosed hrun
    obtain ⟨h1, mem1, hstep, hrest⟩ := runs_cons_inv now sel sels h mem _ hrun
    obtain ⟨hcs, hbo1, _, hop, _, _, _, _, _, hout⟩ :=
      Run_running_spec now h mem sel h1 mem1 hnd hbo hstep
    have hck : c ∉ sel.keys h.clients := by
      intro hmem
      have := hop c hmem
      rw [hclosed] at this
      exact Bool.noConfusion this
    have hm1 : mem1 c = mem c := by
      rcases hout c hck with hm | ⟨_, hin, _⟩
      · exact hm
      · exact absurd hin hc
    have hc1 : c ∉ h1.clients := by
      rw [hcs]
      exact fun hmem => hck (List.mem_of_mem_filter hmem)
    have := ih h1 mem1 h'' mem'' (Run_running_nodup now h mem sel h1 mem1 hnd hbo hstep)
      hbo1 hc1 (by rw [hm1]; exact hclosed) hrest
    exact ⟨this.1, by rw [this.2, hm1]⟩

/-! ## A run of broadcast iterations -/

/-- The loop takes `k` pending events from the broadcast channel one after the other: the
run completes, no connection is added, and a connection of the set receives the events in
order until its mailbox is full and is removed at the first event after that. -/
theorem runs_broadcast_client (now : Ptr → Nat) (k : Nat) :
    ∀ (evs : List Event) (h : Hub) (mem : Mem), h.WF mem → h.broadcast.buf = evs →
      k ≤ evs.length →
      ∃ h' mem', Hub.runs now (List.replicate k .broadcast) (h, mem) = .running (h', mem') ∧
        h'.WF mem' ∧ h'.broadcast.buf = evs.drop k ∧
        ∀ c : Ptr,
        (c ∈ h'.clients → c ∈ h.clients) ∧
        (c ∉ h.clients → c ∉ h'.clients ∧ mem' c = mem c) ∧
        (c ∈ h.clients → (mem c).send.buf.length + k ≤ 32 →
          c ∈ h'.clients ∧ (mem' c).send.closed = false ∧
            (mem' c).send.buf = (mem c).send.buf ++ evs.take k) ∧
        (c ∈ h.clients → (mem c).send.buf.length ≤ 32 →
          32 < (mem c).send.buf.length + k →
          c ∉ h'.clients ∧ (mem' c).send.closed = true ∧
            (mem' c).send.buf =
              (mem c).send.buf ++ evs.take (32 - (mem c).send.buf.length)) := by
  induction k with
  | zero =>
    intro evs h mem hwf hq _
    refine ⟨h, mem, rfl, hwf, by simpa using hq, fun c =>
      ⟨fun hc => hc, fun hc => ⟨hc, rfl⟩, ?_, ?_⟩⟩
    · intro hc _
      exact ⟨hc, (hwf.2.2.2 c hc).1, by simp⟩
    · intro _ h1 h2
      omega
  | succ k ih =>
    intro evs h mem hwf hq hk
    cases evs with
    | nil => simp at hk
    | cons e es =>
      have hk' : k ≤ es.length := by simpa using hk
      obtain ⟨hnd, hbo, hcap, hcl⟩ := hwf
      have hop : ∀ d ∈ h.clients, (mem d).send.closed = false := fun d hd => (hcl d hd).1
      have e1 := Run_broadcast_eq now h mem e es hnd hop hq
      have hwf1 := WF_fanout h mem e { h.broadcast with buf := es } ⟨hnd, hbo, hcap, hcl⟩
        ⟨hbo, hcap⟩
      obtain ⟨h', mem', hrun, hwf', hbuf, hall⟩ := ih es _ _ hwf1 rfl hk'
      refine ⟨h', mem', ?_, hwf', by simpa using hbuf, ?_⟩
      · rw [List.replicate_succ, runs_cons now _ _ h mem _ e1]
        exact hrun
      intro c
      obtain ⟨hsub, hout, hin, hdrop⟩ := hall c
      refine ⟨fun hc => List.mem_of_mem_filter (hsub hc), ?_, ?_, ?_⟩
      · intro hc
        have hc1 : c ∉ h.clients.filter mem.roomy := fun hm => hc (List.mem_of_mem_filter hm)
        have := hout hc1
        exact ⟨this.1, by rw [this.2, offer_not_mem _ _ _ _ hc]⟩
      · intro hc hlen
        have hr : (mem c).send.buf.length < (mem c).send.cap := by
          rw [(hcl c hc).2]; omega
        have hc1 : c ∈ h.clients.filter mem.roomy := (mem_filter_roomy mem _ c).mpr ⟨hc, hr⟩
        have hm1 := offer_room mem e h.clients c hc hr
        have := hin hc1 (by rw [hm1]; simp only [List.length_append, List.length_singleton];
                            omega)
        refine ⟨this.1, this.2.1, ?_⟩
        rw [this.2.2, hm1]
        simp
      · intro hc hle hgt
        by_cases hr : (mem c).send.buf.length < (mem c).send.cap
        · have hlt : (mem c).send.buf.length < 32 := by rw [(hcl c hc).2] at hr; exact hr
          have hc1 : c ∈ h.clients.filter mem.roomy :=
            (mem_filter_roomy mem _ c).mpr ⟨hc, hr⟩
          have hm1 := offer_room mem e h.clients c hc hr
          have := hdrop hc1
            (by rw [hm1]; simp only [List.length_append, List.length_singleton]; omega)
            (by rw [hm1]; simp only [List.length_append, List.length_singleton]; omega)
          refine ⟨this.1, this.2.1, ?_⟩
          rw [this.2.2, hm1]
          simp only [List.length_append, List.length_singleton, List.append_assoc,
            List.singleton_append]
          have hsub : 32 - (mem c).send.buf.length = (32 - ((mem c).send.buf.length + 1)) + 1 := by
            omega
          rw [hsub, List.take_succ_cons]
        · have hc1 : c ∉ h.clients.filter mem.roomy :=
            fun hm => hr ((mem_filter_roomy mem _ c).mp hm).2
          have hm1 := offer_full mem e h.clients c hc hr
          have := hout hc1
          have h32 : (mem c).send.buf.length = 32 := by
            rw [(hcl c hc).2] at hr; omega
          refine ⟨this.1, by rw [this.2, hm1], ?_⟩
          rw [this.2, hm1, h32]
          simp

/-! ## The connection set after a run -/

theorem registeredStill_cons_register (c x : Ptr) (rest : List Select) :
    RegisteredStill (.register c :: rest) x ↔
      (x = c ∧ Select.unregister c ∉ rest) ∨ RegisteredStill rest x := by
  constructor
  · rintro ⟨pre, post, heq, hpost⟩
    cases pre with
    | nil =>
      simp only [List.nil_append, List.cons.injEq, Select.register.injEq] at heq
      obtain ⟨hcx, rfl⟩ := heq
      exact Or.inl ⟨hcx.symm, hcx ▸ hpost⟩
    | cons p pre =>
      simp only [List.cons_append, List.cons.injEq] at heq
      exact Or.inr ⟨pre, post, heq.2, hpost⟩
  · rintro (⟨rfl, h⟩ | ⟨pre, post, heq, hpost⟩)
    · exact ⟨[], rest, rfl, h⟩
    · exact ⟨.register c :: pre, post, by rw [heq]; rfl, hpost⟩

theorem registeredStill_cons_other (sel : Select) (x : Ptr) (rest : List Select)
    (hsel : sel ≠ .register x) :
    RegisteredStill (sel :: rest) x ↔ RegisteredStill rest x := by
  constructor
  · rintro ⟨pre, post, heq, hpost⟩
    cases pre with
    | nil =>
      simp only [List.nil_append, List.cons.injEq] at heq
      exact absurd heq.1 hsel
    | cons p pre =>
      simp only [List.cons_append, List.cons.injEq] at heq
      exact ⟨pre, post, heq.2, hpost⟩
  · rintro ⟨pre, post, heq, hpost⟩
    exact ⟨sel :: pre, post, by rw [heq]; rfl, hpost⟩

theorem mem_registers (x : Ptr) (sels : List Select) :
    x ∈ registers sels ↔ Select.register x ∈ sels := by
  induction sels with
  | nil => simp [registers]
  | cons sel sels ih =>
    cases sel with
    | register c => simp [registers, ih]
    | unregister c => simp [registers, ih]
    | broadcast => simp [registers, ih]

theorem registeredStill_mem_registers (x : Ptr) (sels : List Select)
    (h : RegisteredStill sels x) : x ∈ registers sels := by
  obtain ⟨pre, post, heq, _⟩ := h
  rw [mem_registers, heq]
  simp

theorem backpressured_cons (now : Ptr → Nat) (sel : Select) (sels : List Select) (h : Hub)
    (mem : Mem) (s' : Hub × Mem) (hs : h.Run now mem sel = .running s') :
    Hub.backpressured now (sel :: sels) (h, mem) =
      (sel.keys h.clients).filter (fun c => !mem.roomy c) ++
        Hub.backpressured now sels s' := by
  simp only [Hub.backpressured, hs]

/-- The accounting of the connection set along a run, from any state. -/
theorem runs_accounting (now : Ptr → Nat) (sels : List Select) :
    ∀ (h : Hub) (mem : Mem) (h' : Hub) (mem' : Mem), h.clients.Nodup →
      h.broadcast.closed = false → (registers sels).Nodup →
      (∀ c ∈ registers sels, c ∉ h.clients) →
      Hub.runs now sels (h, mem) = .running (h', mem') →
      h'.clients.Nodup ∧
      (∀ x, x ∈ h'.clients ↔
        ((x ∈ h.clients ∧ Select.unregister x ∉ sels) ∨ RegisteredStill sels x) ∧
          x ∉ Hub.backpressured now sels (h, mem)) ∧
      (Hub.backpressured now sels (h, mem) = [] →
        h'.clients.length + unregistersOfRegistered h.clients sels =
          h.clients.length + (registers sels).length) := by
  induction sels with
  | nil =>
    intro h mem h' mem' hnd _ _ _ hrun
    simp only [Hub.runs, Outcome.running.injEq, Prod.mk.injEq] at hrun
    obtain ⟨rfl, rfl⟩ := hrun
    refine ⟨hnd, ?_, ?_⟩
    · intro x
      constructor
      · intro hx
        exact ⟨Or.inl ⟨hx, by simp⟩, by simp [Hub.backpressured]⟩
      · rintro ⟨(⟨hx, _⟩ | ⟨pre, post, heq, _⟩), _⟩
        · exact hx
        · simp at heq
    · intro _
      simp [unregistersOfRegistered, registers]
  | cons sel rest ih =>
    intro h mem h' mem' hnd hbo hreg hdis hrun
    obtain ⟨h1, mem1, hstep, hrest⟩ := runs_cons_inv now sel rest h mem _ hrun
    obtain ⟨hcs, hbo1, _, _, _⟩ := Run_running_spec now h mem sel h1 mem1 hnd hbo hstep
    have hnd1 : h1.clients.Nodup := Run_running_nodup now h mem sel h1 mem1 hnd hbo hstep
    have hbp := backpressured_cons now sel rest h mem _ hstep
    -- the registers of the rest are new with respect to the mutated key set
    have hregrest : (registers rest).Nodup ∧
        ∀ x ∈ registers rest, x ∉ sel.keys h.clients := by
      cases sel with
      | register c =>
        simp only [registers, List.nodup_cons] at hreg
        refine ⟨hreg.2, ?_⟩
        intro x hx hk
        rcases (mem_addKey c x _).mp hk with rfl | hk
        · exact hreg.1 hx
        · exact hdis x (by simp [registers, hx]) hk
      | unregister c =>
        simp only [registers] at hreg hdis
        exact ⟨hreg, fun x hx hk => hdis x hx (List.mem_of_mem_erase hk)⟩
      | broadcast =>
        simp only [registers] at hreg hdis
        exact ⟨hreg, fun x hx hk => hdis x hx hk⟩
    have hdis1 : ∀ x ∈ registers rest, x ∉ h1.clients := by
      intro x hx hm
      rw [hcs] at hm
      exact hregrest.2 x hx (List.mem_of_mem_filter hm)
    obtain ⟨hnd', hiff, hcount⟩ := ih h1 mem1 h' mem' hnd1 hbo1 hregrest.1 hdis1 hrest
    -- the connections alive after the mutation
    have hK : ∀ x, ((x ∈ h.clients ∧ Select.unregister x ∉ sel :: rest) ∨
          RegisteredStill (sel :: rest) x) ↔
        ((x ∈ sel.keys h.clients ∧ Select.unregister x ∉ rest) ∨
          RegisteredStill rest x) := by
      intro x
      cases sel with
      | register c =>
        rw [registeredStill_cons_register]
        simp only [Select.keys, mem_addKey, List.mem_cons, not_or]
        constructor
        · rintro (⟨hx, _, hu⟩ | ⟨rfl, hu⟩ | hrs)
          · exact Or.inl ⟨Or.inr hx, hu⟩
          · exact Or.inl ⟨Or.inl rfl, hu⟩
          · exact Or.inr hrs
        · rintro (⟨rfl | hx, hu⟩ | hrs)
          · exact Or.inr (Or.inl ⟨rfl, hu⟩)
          · exact Or.inl ⟨hx, by simp, hu⟩
          · exact Or.inr (Or.inr hrs)
      | unregister c =>
        rw [registeredStill_cons_other _ _ _ (by simp)]
        simp only [Select.keys, List.Nodup.mem_erase_iff hnd, List.mem_cons, not_or,
          Select.unregister.injEq]
        constructor
        · rintro (⟨hx, hxc, hu⟩ | hrs)
          · exact Or.inl ⟨⟨hxc, hx⟩, hu⟩
          · exact Or.inr hrs
        · rintro (⟨⟨hxc, hx⟩, hu⟩ | hrs)
          · exact Or.inl ⟨hx, hxc, hu⟩
          · exact Or.inr hrs
      | broadcast =>
        rw [registeredStill_cons_other _ _ _ (by simp)]
        simp only [Select.keys, List.mem_cons, not_or]
        constructor
        · rintro (⟨hx, _, hu⟩ | hrs)
          · exact Or.inl ⟨hx, hu⟩
          · exact Or.inr hrs
        · rintro (⟨hx, hu⟩ | hrs)
          · exact Or.inl ⟨hx, by simp, hu⟩
          · exact Or.inr hrs
    refine ⟨hnd', ?_, ?_⟩
    · intro x
      rw [hiff x, hK x, hbp, hcs]
      simp only [List.mem_append, List.mem_filter, not_or, Bool.not_eq_true',
        Bool.not_eq_eq_eq_not, Bool.not_true]
      constructor
      · rintro ⟨(⟨⟨hk, hr⟩, hu⟩ | hrs), hnb⟩
        · exact ⟨Or.inl ⟨hk, hu⟩, fun hh => by rw [hr] at hh; exact Bool.noConfusion hh.2, hnb⟩
        · exact ⟨Or.inr hrs,
            fun hh => hregrest.2 x (registeredStill_mem_registers x rest hrs) hh.1, hnb⟩
      · rintro ⟨(⟨hk, hu⟩ | hrs), hnd1, hnb⟩
        · refine ⟨Or.inl ⟨⟨hk, ?_⟩, hu⟩, hnb⟩
          cases hr : mem.roomy x with
          | true => rfl
          | false => exact absurd ⟨hk, hr⟩ hnd1
        · exact ⟨Or.inr hrs, hnb⟩
    · intro hempty
      rw [hbp] at hempty
      obtain ⟨hd0, hbp0⟩ := List.append_eq_nil.mp hempty
      have hall : (sel.keys h.clients).filter mem.roomy = sel.keys h.clients := by
        apply List.filter_eq_self.mpr
        intro x hx
        cases hr : mem.roomy x with
        | true => rfl
        | false =>
          have : x ∈ (sel.keys h.clients).filter (fun c => !mem.roomy c) := by
            simp [List.mem_filter, hx, hr]
          rw [hd0] at this
          simp at this
      have hc := hcount hbp0
      rw [hcs, hall] at hc
      cases sel with
      | register c =>
        have hcn : c ∉ h.clients := hdis c (by simp [registers])
        simp only [Select.keys, addKey_of_not_mem c _ hcn, List.length_cons] at hc
        simp only [unregistersOfRegistered, registers, List.length_cons,
          addKey_of_not_mem c _ hcn]
        omega
      | unregister c =>
        simp only [Select.keys] at hc
        simp only [unregistersOfRegistered, registers]
        by_cases hcm : c ∈ h.clients
        · have hl := List.length_erase_of_mem hcm
          have hpos : 0 < h.clients.length := List.length_pos_of_mem hcm
          rw [if_pos hcm]
          omega
        · rw [List.erase_of_not_mem hcm] at hc
          rw [if_neg hcm, List.erase_of_not_mem hcm]
          omega
      | broadcast =>
        simp only [Select.keys] at hc
        simp only [unregistersOfRegistered, registers]
        exact hc

/-! ## The order of delivery -/

theorem enqueued_cons (mem : Mem) (act : Action) (acts : List Action) :
    enqueued mem (act :: acts) = enqueued mem [act] ++ enqueued mem acts := by
  cases act with
  | loop sel => cases sel <;> simp [enqueued]
  | emit ev => simp [enqueued]
  | write c ok => simp [enqueued]

theorem enqueued_congr (mem mem1 : Mem) (hu : ∀ c, (mem1 c).userID = (mem c).userID)
    (acts : List Action) : enqueued mem1 acts = enqueued mem acts := by
  induction acts with
  | nil => rfl
  | cons act acts ih =>
    cases act with
    | loop sel => cases sel <;> simp [enqueued, ih, hu]
    | emit ev => simp [enqueued, ih]
    | write c ok => simp [enqueued, ih]

theorem offer_stream (cl : Client) (ev : Event) :
    (cl.offer ev).userID = cl.userID ∧
      List.Sublist ((cl.offer ev).conn.written ++ (cl.offer ev).send.buf)
        (cl.conn.written ++ cl.send.buf ++ [ev]) := by
  unfold Client.offer
  split_ifs
  · refine ⟨rfl, ?_⟩
    simp
  · refine ⟨rfl, ?_⟩
    simp

/-- One step of a goroutine: what leaves and enters the broadcast channel, and what every
connection has been given. -/
theorem step_order (now : Ptr → Nat) (h : Hub) (mem : Mem) (act : Action) (h1 : Hub)
    (mem1 : Mem) (hnd : h.clients.Nodup) (hbo : h.broadcast.closed = false)
    (hstep : System.step now h mem act = .running (h1, mem1)) :
    h1.clients.Nodup ∧ h1.broadcast.closed = false ∧
    (∀ c, (mem1 c).userID = (mem c).userID) ∧
    ∃ (deq : List Event) (log : List (Bool × Event)),
      h.broadcast.buf ++ enqueued mem [act] = deq ++ h1.broadcast.buf ∧
      (log.filter (fun x => x.1)).map (fun x => x.2) = deq ∧
      (∀ x ∈ log, x.1 = false → x.2.type = "presence_update") ∧
      ∀ c, List.Sublist ((mem1 c).conn.written ++ (mem1 c).send.buf)
        ((mem c).conn.written ++ (mem c).send.buf ++ log.map (fun x => x.2)) := by
  cases act with
  | loop sel =>
    simp only [System.step] at hstep
    obtain ⟨_, hbo1, _, _, ev, deq, hq, hkind, hin, hout⟩ :=
      Run_running_spec now h mem sel h1 mem1 hnd hbo hstep
    have hcl : ∀ c, (mem1 c).userID = (mem c).userID ∧
        List.Sublist ((mem1 c).conn.written ++ (mem1 c).send.buf)
          ((mem c).conn.written ++ (mem c).send.buf ++ [ev]) := by
      intro c
      by_cases hc : c ∈ sel.keys h.clients
      · rw [hin c hc]
        exact offer_stream (mem c) ev
      · rcases hout c hc with hm | ⟨_, _, hm⟩
        · rw [hm]; exact ⟨rfl, by simp⟩
        · rw [hm]; exact ⟨rfl, by simp⟩
    refine ⟨Run_running_nodup now h mem sel h1 mem1 hnd hbo hstep, hbo1,
      fun c => (hcl c).1, deq, ?_⟩
    rcases hkind with ⟨_, hdeq⟩ | ⟨_, hdeq, hty⟩
    · refine ⟨[(true, ev)], hq, by simp [hdeq], by simp, fun c => by simpa using (hcl c).2⟩
    · refine ⟨[(false, ev)], hq, by simp [hdeq], by simpa using hty,
        fun c => by simpa using (hcl c).2⟩
  | emit ev =>
    simp only [System.step, Hub.Broadcast] at hstep
    cases hs : h.broadcast.send ev with
    | panic => rw [hs] at hstep; simp at hstep
    | full => rw [hs] at hstep; simp at hstep
    | sent b =>
      rw [hs] at hstep
      simp only [Outcome.running.injEq, Prod.mk.injEq] at hstep
      obtain ⟨rfl, rfl⟩ := hstep
      obtain ⟨_, _, rfl⟩ := send_sent_inv _ _ _ hs
      exact ⟨hnd, rfl, fun _ => rfl, [], [], by simp [enqueued], rfl, by simp,
        fun c => by simp⟩
  | write c ok =>
    simp only [System.step] at hstep
    cases hw : (mem c).writePump ok with
    | panic => rw [hw] at hstep; simp at hstep
    | idle => rw [hw] at hstep; simp at hstep
    | blocked cl => rw [hw] at hstep; simp at hstep
    | running cl =>
      rw [hw] at hstep
      simp only [Outcome.running.injEq, Prod.mk.injEq] at hstep
      obtain ⟨rfl, rfl⟩ := hstep
      have hcl : cl.userID = (mem c).userID ∧
          List.Sublist (cl.conn.written ++ cl.send.buf)
            ((mem c).conn.written ++ (mem c).send.buf) := by
        cases hb : (mem c).send.buf with
        | nil =>
          simp only [Client.writePump, hb] at hw
          split_ifs at hw
          cases hw
          simp [hb]
        | cons e rest =>
          simp only [Client.writePump, hb] at hw
          split_ifs at hw <;> cases hw <;> simp
      refine ⟨hnd, hbo, ?_, [], [], by simp [enqueued], rfl, by simp, ?_⟩
      · intro p
        by_cases hp : p = c
        · simp [hp, hcl.1]
        · simp [hp]
      · intro p
        by_cases hp : p = c
        · subst hp
          simpa using hcl.2
        · simp [hp]

theorem system_runs_cons_inv (now : Ptr → Nat) (act : Action) (acts : List Action) (h : Hub)
    (mem : Mem) (s'' : Hub × Mem)
    (hrun : System.runs now (act :: acts) (h, mem) = .running s'') :
    ∃ h1 mem1, System.step now h mem act = .running (h1, mem1) ∧
      System.runs now acts (h1, mem1) = .running s'' := by
  simp only [System.runs] at hrun
  cases hs : System.step now h mem act with
  | running s1 => rw [hs] at hrun; exact ⟨s1.1, s1.2, rfl, hrun⟩
  | blocked s1 => rw [hs] at hrun; simp at hrun
  | idle => rw [hs] at hrun; simp at hrun
  | panic => rw [hs] at hrun; simp at hrun

/-! ## The registry -/

theorem find_store (l : List (Nat × Hub)) (k : Nat) (h : Hub) :
    ((l.map (fun e => if e.1 == k then (e.1, h) else e)).find? (fun e => e.1 == k)).map
        (fun e => e.2) =
      (l.find? (fun e => e.1 == k)).map (fun _ => h) := by
  induction l with
  | nil => rfl
  | cons x xs ih =>
    by_cases hx : (x.1 == k) = true
    · have h1 : (fun e : Nat × Hub => e.1 == k) (x.1, h) = true := hx
      rw [List.map_cons, if_pos hx,
        List.find?_cons_of_pos (p := fun e : Nat × Hub => e.1 == k) _ h1,
        List.find?_cons_of_pos (p := fun e : Nat × Hub => e.1 == k) _ hx]
      rfl
    · rw [List.map_cons, if_neg hx,
        List.find?_cons_of_neg (p := fun e : Nat × Hub => e.1 == k) _ hx,
        List.find?_cons_of_neg (p := fun e : Nat × Hub => e.1 == k) _ hx]
      exact ih

theorem get_store (r : RoomHubs) (k : Nat) (h0 h : Hub) (hget : r.get k = some h0) :
    (r.store k h).get k = some h := by
  unfold RoomHubs.get at hget
  unfold RoomHubs.get RoomHubs.store
  rw [find_store]
  cases hf : r.hubs.find? (fun e => e.1 == k) with
  | none => rw [hf] at hget; simp at hget
  | some e => simp

/-- With the broadcaster of the room in the registry and a free slot on its broadcast
channel, `Emit` puts the event behind the pending ones and changes nothing else of that
broadcaster. -/
theorem Emit_present (r : RoomHubs) (roomID : Nat) (ev : Event) (h : Hub)
    (hget : r.get roomID = some h) (hbo : h.broadcast.closed = false)
    (hroom : h.broadcast.buf.length < h.broadcast.cap) :
    ∃ r1, r.Emit roomID ev = .running r1 ∧
      r1.get roomID =
        some ⟨h.roomID, ⟨h.broadcast.cap, h.broadcast.buf ++ [ev], false⟩, h.clients⟩ := by
  have hhub : r.hub roomID = (h, r) := by simp [RoomHubs.hub, hget]
  refine ⟨_, ?_, get_store r roomID h _ hget⟩
  simp only [RoomHubs.Emit, hhub, Hub.Broadcast, send_room _ _ hbo hroom]

/-- For a room that the registry does not know, `Emit` creates the broadcaster and puts the
event on its broadcast channel. -/
theorem Emit_absent (r : RoomHubs) (roomID : Nat) (ev : Event)
    (hget : r.get roomID = none) :
    ∃ r1, r.Emit roomID ev = .running r1 ∧
      r1.get roomID = some ⟨roomID, ⟨64, [ev], false⟩, []⟩ := by
  have hhub : r.hub roomID =
      (NewHub roomID, { hubs := (roomID, NewHub roomID) :: r.hubs }) := by
    simp [RoomHubs.hub, hget]
  have hsend : (NewHub roomID).broadcast.send ev = .sent ⟨64, [ev], false⟩ := by
    simp [NewHub, Chan.make, Chan.send]
  have hget1 : RoomHubs.get { hubs := (roomID, NewHub roomID) :: r.hubs } roomID =
      some (NewHub roomID) := by
    simp [RoomHubs.get]
  refine ⟨_, ?_, get_store _ roomID _ _ hget1⟩
  simp only [RoomHubs.Emit, hhub, Hub.Broadcast, hsend]
  rfl

/-- The connection that `Handler.addClient` hands to the loop has an empty, open 32-slot
mailbox; no other `Client` object is touched. -/
theorem addClient_fresh (r : RoomHubs) (mem : Mem) (p : Ptr) (roomID userID : Nat) :
    ((Handler.addClient r mem p roomID userID).2 p).userID = userID ∧
      ((Handler.addClient r mem p roomID userID).2 p).send = Chan.make 32 ∧
      ∀ q, q ≠ p → (Handler.addClient r mem p roomID userID).2 q = mem q := by
  refine ⟨by simp [Handler.addClient, Client.fresh], by simp [Handler.addClient, Client.fresh],
    ?_⟩
  intro q hq
  simp [Handler.addClient, hq]

theorem eq_singleton_of_nodup (l : List Ptr) (a : Ptr) (hnd : l.Nodup) (ha : a ∈ l)
    (hall : ∀ d ∈ l, d = a) : l = [a] := by
  cases l with
  | nil => simp at ha
  | cons x xs =>
    have hx : x = a := hall x (List.mem_cons_self _ _)
    subst hx
    cases xs with
    | nil => rfl
    | cons y ys =>
      have hy : y = x := hall y (by simp)
      subst hy
      simp at hnd

/-! ## The presence tracker -/

theorem find_filter_ne (l : List (Nat × Nat)) (u k : Nat) :
    (l.filter (fun e => e.1 != k)).find? (fun e => e.1 == u) =
      if u = k then none else l.find? (fun e => e.1 == u) := by
  by_cases hu : u = k
  · subst hu
    rw [if_pos rfl, List.find?_eq_none]
    intro x hx
    have := (List.mem_filter.mp hx).2
    simpa using this
  · rw [if_neg hu]
    apply find_filter_of_imp
    intro x hx
    have : x.1 = u := by simpa using hx
    simp [this, hu]

theorem LastSeen_Online (p : Presence) (u v t : Nat) :
    (p.Online u t).LastSeen v = if v = u then (t, true) else p.LastSeen v := by
  unfold Presence.LastSeen Presence.Online
  by_cases hv : v = u
  · subst hv
    simp
  · have hk : ¬ ((fun e : Nat × Nat => e.1 == v) (u, t) = true) := by
      simpa using fun h => hv h.symm
    simp only []
    rw [List.find?_cons_of_neg (p := fun e : Nat × Nat => e.1 == v) _ hk, find_filter_ne,
      if_neg hv, if_neg hv]

theorem LastSeen_Offline (p : Presence) (u v : Nat) :
    (p.Offline u).LastSeen v = if v = u then (0, false) else p.LastSeen v := by
  unfold Presence.LastSeen Presence.Offline
  simp only []
  rw [find_filter_ne]
  by_cases hv : v = u
  · simp [hv]
  · simp [hv]

theorem IsOnline_eq_find (p : Presence) (u : Nat) :
    p.IsOnline u = (p.online.find? (fun e => e.1 == u)).isSome := by
  unfold Presence.IsOnline Presence.LastSeen
  cases p.online.find? (fun e => e.1 == u) <;> rfl

theorem allStatuses_foldl_isSome (u : Nat) (l : List (Nat × Nat)) :
    ∀ acc : List (Nat × Status),
    (statusGet (l.foldl (fun status e =>
        statusSet status e.1 { online := true, lastSeen := e.2 }) acc) u).isSome =
      ((l.find? (fun e => e.1 == u)).isSome || (statusGet acc u).isSome) := by
  induction l with
  | nil => intro acc; simp
  | cons x xs ih =>
    intro acc
    rw [List.foldl_cons, ih, statusGet_statusSet]
    by_cases hx : u = x.1
    · have hk : (fun e : Nat × Nat => e.1 == u) x = true := by simp [hx]
      rw [List.find?_cons_of_pos (p := fun e : Nat × Nat => e.1 == u) _ hk, if_pos hx]
      simp
    · have hk : ¬ ((fun e : Nat × Nat => e.1 == u) x = true) := by
        simpa using fun h => hx h.symm
      rw [List.find?_cons_of_neg (p := fun e : Nat × Nat => e.1 == u) _ hk, if_neg hx]

/-- The snapshot has an entry for a user exactly when the map has the key. -/
theorem allStatuses_isSome (p : Presence) (u : Nat) :
    (statusGet p.AllStatuses u).isSome = p.IsOnline u := by
  unfold Presence.AllStatuses
  rw [allStatuses_foldl_isSome, IsOnline_eq_find]
  simp [statusGet]

theorem find_none_of_not_mem_keys (l : List (Nat × Nat)) (u : Nat)
    (h : u ∉ l.map (fun e => e.1)) : l.find? (fun e => e.1 == u) = none := by
  rw [List.find?_eq_none]
  intro x hx hxu
  have : x.1 = u := by simpa using hxu
  exact h (List.mem_map.mpr ⟨x, hx, this⟩)

theorem allStatuses_foldl_keyed (u : Nat) (l : List (Nat × Nat)) :
    (l.map (fun e => e.1)).Nodup → ∀ acc : List (Nat × Status),
    statusGet (l.foldl (fun status e =>
        statusSet status e.1 { online := true, lastSeen := e.2 }) acc) u =
      match l.find? (fun e => e.1 == u) with
      | some e => some { online := true, lastSeen := e.2 }
      | none => statusGet acc u := by
  induction l with
  | nil => intro _ acc; rfl
  | cons x xs ih =>
    intro hnd acc
    simp only [List.map_cons, List.nodup_cons] at hnd
    rw [List.foldl_cons, ih hnd.2, statusGet_statusSet]
    by_cases hx : u = x.1
    · have hk : (fun e : Nat × Nat => e.1 == u) x = true := by simp [hx]
      rw [List.find?_cons_of_pos (p := fun e : Nat × Nat => e.1 == u) _ hk,
        find_none_of_not_mem_keys xs u (by rw [hx]; exact hnd.1), if_pos hx]
    · have hk : ¬ ((fun e : Nat × Nat => e.1 == u) x = true) := by
        simpa using fun h => hx h.symm
      rw [List.find?_cons_of_neg (p := fun e : Nat × Nat => e.1 == u) _ hk, if_neg hx]

/-- On a map with distinct keys the snapshot entry of a user carries the time stored under
the key. -/
theorem allStatuses_keyed (p : Presence) (u : Nat) (hk : p.Keyed) :
    statusGet p.AllStatuses u =
      match p.online.find? (fun e => e.1 == u) with
      | some e => some { online := true, lastSeen := e.2 }
      | none => none := by
  unfold Presence.AllStatuses
  rw [allStatuses_foldl_keyed u p.online hk]
  cases p.online.find? (fun e => e.1 == u) <;> rfl

theorem keys_filter_sublist (l : List (Nat × Nat)) (k : Nat) :
    ((l.filter (fun e => e.1 != k)).map (fun e => e.1)).Sublist (l.map (fun e => e.1)) :=
  List.Sublist.map _ (List.filter_sublist l)

theorem keyed_Online (p : Presence) (u t : Nat) (hk : p.Keyed) : (p.Online u t).Keyed := by
  unfold Presence.Keyed Presence.Online
  simp only [List.map_cons, List.nodup_cons]
  refine ⟨?_, (keys_filter_sublist p.online u).nodup hk⟩
  intro hmem
  obtain ⟨x, hx, hxu⟩ := List.mem_map.mp hmem
  have := (List.mem_filter.mp hx).2
  simp at this
  exact this hxu

theorem keyed_Offline (p : Presence) (u : Nat) (hk : p.Keyed) : (p.Offline u).Keyed :=
  (keys_filter_sublist p.online u).nodup hk

theorem keyed_run (ops : List PresenceOp) : ∀ p : Presence, p.Keyed → (p.run ops).Keyed := by
  induction ops with
  | nil => intro p hk; exact hk
  | cons op ops ih =>
    intro p hk
    cases op with
    | online uid now => exact ih _ (keyed_Online p uid now hk)
    | offline uid => exact ih _ (keyed_Offline p uid hk)

theorem run_append (ops1 ops2 : List PresenceOp) :
    ∀ p : Presence, p.run (ops1 ++ ops2) = (p.run ops1).run ops2 := by
  induction ops1 with
  | nil => intro p; rfl
  | cons op ops ih =>
    intro p
    cases op with
    | online uid now => exact ih _
    | offline uid => exact ih _

theorem LastSeen_run_other (u : Nat) (ops : List PresenceOp) :
    ∀ p : Presence, (∀ op ∈ ops, op.uid ≠ u) → (p.run ops).LastSeen u = p.LastSeen u := by
  induction ops with
  | nil => intro p _; rfl
  | cons op ops ih =>
    intro p h
    have hop := h op (List.mem_cons_self _ _)
    have hrest : ∀ o ∈ ops, o.uid ≠ u := fun o ho => h o (List.mem_cons_of_mem _ ho)
    cases op with
    | online uid now =>
      have hne : u ≠ uid := fun hh => hop hh.symm
      show ((p.Online uid now).run ops).LastSeen u = p.LastSeen u
      rw [ih _ hrest, LastSeen_Online, if_neg hne]
    | offline uid =>
      have hne : u ≠ uid := fun hh => hop hh.symm
      show ((p.Offline uid).run ops).LastSeen u = p.LastSeen u
      rw [ih _ hrest, LastSeen_Offline, if_neg hne]

theorem allStatuses_of_LastSeen (p : Presence) (u t : Nat) (hk : p.Keyed)
    (h : p.LastSeen u = (t, true)) :
    statusGet p.AllStatuses u = some { online := true, lastSeen := t } := by
  rw [allStatuses_keyed p u hk]
  unfold Presence.LastSeen at h
  cases hf : p.online.find? (fun e => e.1 == u) with
  | none => rw [hf] at h; simp at h
  | some e =>
    rw [hf] at h
    simp only [Prod.mk.injEq, and_true] at h
    simp [h]

/-! ## Operations on the registry -/

theorem get_isSome_iff (r : RoomHubs) (k : Nat) : (r.get k).isSome = true ↔ k ∈ r.keys := by
  unfold RoomHubs.get RoomHubs.keys
  have hm : ∀ o : Option (Nat × Hub), (o.map (fun e => e.2)).isSome = o.isSome := by
    intro o; cases o <;> rfl
  rw [hm, List.find?_isSome]
  constructor
  · rintro ⟨x, hx, hxk⟩
    have : x.1 = k := by simpa using hxk
    exact List.mem_map.mpr ⟨x, hx, this⟩
  · intro h
    obtain ⟨x, hx, hxk⟩ := List.mem_map.mp h
    exact ⟨x, hx, by simp [hxk]⟩

theorem get_none_iff (r : RoomHubs) (k : Nat) : r.get k = none ↔ k ∉ r.keys := by
  rw [← get_isSome_iff]
  cases r.get k <;> simp

theorem keys_store (r : RoomHubs) (k : Nat) (h : Hub) : (r.store k h).keys = r.keys := by
  unfold RoomHubs.store RoomHubs.keys
  simp only [List.map_map]
  apply List.map_congr_left
  intro x _
  simp only [Function.comp]
  split_ifs <;> rfl

theorem get_store_ne (r : RoomHubs) (k j : Nat) (h : Hub) (hj : j ≠ k) :
    (r.store k h).get j = r.get j := by
  unfold RoomHubs.get RoomHubs.store
  simp only []
  induction r.hubs with
  | nil => rfl
  | cons x xs ih =>
    by_cases hx : (x.1 == k) = true
    · have hxk : x.1 = k := by simpa using hx
      have h1 : ¬ ((fun e : Nat × Hub => e.1 == j) (x.1, h) = true) := by
        simpa [hxk] using fun hh : k = j => hj hh.symm
      have h2 : ¬ ((fun e : Nat × Hub => e.1 == j) x = true) := by
        simpa [hxk] using fun hh : k = j => hj hh.symm
      rw [List.map_cons, if_pos hx,
        List.find?_cons_of_neg (p := fun e : Nat × Hub => e.1 == j) _ h1,
        List.find?_cons_of_neg (p := fun e : Nat × Hub => e.1 == j) _ h2]
      exact ih
    · rw [List.map_cons, if_neg hx]
      by_cases hxj : (fun e : Nat × Hub => e.1 == j) x = true
      · rw [List.find?_cons_of_pos (p := fun e : Nat × Hub => e.1 == j) _ hxj,
          List.find?_cons_of_pos (p := fun e : Nat × Hub => e.1 == j) _ hxj]
      · rw [List.find?_cons_of_neg (p := fun e : Nat × Hub => e.1 == j) _ hxj,
          List.find?_cons_of_neg (p := fun e : Nat × Hub => e.1 == j) _ hxj]
        exact ih

theorem hub_present (r : RoomHubs) (k : Nat) (h : Hub) (hget : r.get k = some h) :
    r.hub k = (h, r) := by
  simp [RoomHubs.hub, hget]

theorem hub_absent (r : RoomHubs) (k : Nat) (hget : r.get k = none) :
    r.hub k = (NewHub k, { hubs := (k, NewHub k) :: r.hubs }) := by
  simp [RoomHubs.hub, hget]

theorem keys_hub (r : RoomHubs) (k : Nat) : (r.hub k).2.keys = addKey k r.keys := by
  cases hget : r.get k with
  | some h =>
    have hk : k ∈ r.keys := (get_isSome_iff r k).mp (by rw [hget]; rfl)
    rw [hub_present r k h hget]
    simp [addKey, hk]
  | none =>
    have hk : k ∉ r.keys := (get_none_iff r k).mp hget
    rw [hub_absent r k hget]
    unfold addKey
    rw [if_neg hk]
    rfl

theorem get_hub_self (r : RoomHubs) (k : Nat) : (r.hub k).2.get k = some (r.hub k).1 := by
  cases hget : r.get k with
  | some h => rw [hub_present r k h hget]; exact hget
  | none => rw [hub_absent r k hget]; simp [RoomHubs.get]

theorem get_hub_ne (r : RoomHubs) (k j : Nat) (hj : j ≠ k) : (r.hub k).2.get j = r.get j := by
  cases hget : r.get k with
  | some h => rw [hub_present r k h hget]
  | none =>
    rw [hub_absent r k hget]
    have h1 : ¬ ((fun e : Nat × Hub => e.1 == j) (k, NewHub k) = true) := by
      simpa using fun hh : k = j => hj hh.symm
    unfold RoomHubs.get
    simp only []
    rw [List.find?_cons_of_neg (p := fun e : Nat × Hub => e.1 == j) _ h1]

theorem fanout_roomless (ev : Event) (cs : List Ptr) (mem : Mem) (h : Hub) (b : Chan)
    (s' : Hub × Mem)
    (hr : (match fanout ev cs mem with
      | none => (Outcome.panic : Outcome (Hub × Mem))
      | some (kept, mem') => .running ({ h with broadcast := b, clients := kept }, mem')) =
        .running s' ∨
      (match fanout ev cs mem with
      | none => (Outcome.panic : Outcome (Hub × Mem))
      | some (kept, mem') => .running ({ h with broadcast := b, clients := kept }, mem')) =
        .blocked s') :
    s'.1.roomID = h.roomID := by
  cases hf : fanout ev cs mem with
  | none => rw [hf] at hr; simp at hr
  | some r =>
    rw [hf] at hr
    rcases hr with hr | hr
    · simp only [Outcome.running.injEq] at hr
      rw [← hr]
    · simp at hr

/-- An iteration of the loop never changes the room id of its broadcaster. -/
theorem Run_roomID (now : Ptr → Nat) (h : Hub) (mem : Mem) (sel : Select) (s' : Hub × Mem)
    (hr : h.Run now mem sel = .running s' ∨ h.Run now mem sel = .blocked s') :
    s'.1.roomID = h.roomID := by
  cases sel with
  | register c =>
    simp only [Hub.Run, Hub.Broadcast, Hub.broadcastPresenceUpdate] at hr
    cases hs : h.broadcast.send ⟨"presence_join", .userId (mem c).userID⟩ with
    | panic => rw [hs] at hr; simp at hr
    | full =>
      rw [hs] at hr
      rcases hr with hr | hr
      · simp at hr
      · simp only [Outcome.blocked.injEq] at hr
        rw [← hr]
    | sent b =>
      rw [hs] at hr
      exact fanout_roomless _ _ _ ⟨h.roomID, b, addKey c h.clients⟩ b s' hr
  | unregister c =>
    simp only [Hub.Run, Hub.Broadcast, Hub.broadcastPresenceUpdate] at hr
    by_cases hc : c ∈ h.clients
    · simp only [hc, if_true] at hr
      cases hcl : (mem c).send.close with
      | none => rw [hcl] at hr; simp at hr
      | some ch =>
        rw [hcl] at hr
        simp only [] at hr
        cases hs : h.broadcast.send
            ⟨"presence_leave", .userId ((mem.setSend c ch) c).userID⟩ with
        | panic => rw [hs] at hr; simp at hr
        | full =>
          rw [hs] at hr
          rcases hr with hr | hr
          · simp at hr
          · simp only [Outcome.blocked.injEq] at hr
            rw [← hr]
        | sent b =>
          rw [hs] at hr
          exact fanout_roomless _ _ _ ⟨h.roomID, b, h.clients.erase c⟩ b s' hr
    · simp only [hc, if_false] at hr
      cases hs : h.broadcast.send ⟨"presence_leave", .userId (mem c).userID⟩ with
      | panic => rw [hs] at hr; simp at hr
      | full =>
        rw [hs] at hr
        rcases hr with hr | hr
        · simp at hr
        · simp only [Outcome.blocked.injEq] at hr
          rw [← hr]
      | sent b =>
        rw [hs] at hr
        exact fanout_roomless _ _ _ ⟨h.roomID, b, h.clients⟩ b s' hr
  | broadcast =>
    simp only [Hub.Run] at hr
    cases hrecv : h.broadcast.recv with
    | none => rw [hrecv] at hr; simp at hr
    | some eb =>
      rw [hrecv] at hr
      exact fanout_roomless _ _ _ h eb.2 s' hr

theorem addKeys_spec (l : List Nat) : ∀ ks : List Nat,
    ks <:+ l.foldl (fun acc k => addKey k acc) ks ∧
    (∀ x, x ∈ l.foldl (fun acc k => addKey k acc) ks ↔ x ∈ ks ∨ x ∈ l) ∧
    (ks.Nodup → (l.foldl (fun acc k => addKey k acc) ks).Nodup) := by
  induction l with
  | nil => intro ks; exact ⟨List.suffix_refl _, by simp, fun h => h⟩
  | cons k l ih =>
    intro ks
    obtain ⟨h1, h2, h3⟩ := ih (addKey k ks)
    have hs : ks <:+ addKey k ks := by
      unfold addKey
      split_ifs
      · exact List.suffix_refl _
      · exact List.suffix_cons _ _
    refine ⟨hs.trans h1, ?_, fun hnd => h3 (nodup_addKey k ks hnd)⟩
    intro x
    rw [List.foldl_cons, h2, mem_addKey]
    simp only [List.mem_cons]
    tauto

theorem length_addKeys_nil (l : List Nat) :
    (l.foldl (fun acc k => addKey k acc) []).length = l.dedup.length := by
  obtain ⟨_, hmem, hnd⟩ := addKeys_spec l []
  apply List.Perm.length_eq
  rw [List.perm_ext_iff_of_nodup (hnd List.nodup_nil) (List.nodup_dedup l)]
  intro x
  rw [hmem, List.mem_dedup]
  simp

theorem foldl_addKey_append (l1 l2 ks : List Nat) :
    (l1 ++ l2).foldl (fun acc k => addKey k acc) ks =
      l2.foldl (fun acc k => addKey k acc) (l1.foldl (fun acc k => addKey k acc) ks) :=
  List.foldl_append _ _ _ _

/-- One registry operation, whether it completes or is left waiting: the room ids of the
registry are the former ones with the referenced room id added in front when it is new. -/
theorem step_keys (now : Ptr → Nat) (s : RoomHubs × Mem) (op : RegistryOp)
    (s' : RoomHubs × Mem)
    (hs : RoomHubs.step now s op = .running s' ∨ RoomHubs.step now s op = .blocked s') :
    s'.1.keys = op.referenced.foldl (fun acc k => addKey k acc) s.1.keys := by
  cases op with
  | hub k =>
    simp only [RoomHubs.step] at hs
    rcases hs with hs | hs
    · simp only [Outcome.running.injEq] at hs
      rw [← hs]
      exact keys_hub s.1 k
    · simp at hs
  | emit k ev =>
    simp only [RoomHubs.step, RoomHubs.Emit] at hs
    cases hb : (s.1.hub k).1.Broadcast ev with
    | panic => rw [hb] at hs; simp at hs
    | full =>
      rw [hb] at hs
      rcases hs with hs | hs
      · simp at hs
      · simp only [Outcome.blocked.injEq] at hs
        rw [← hs]
        exact keys_hub s.1 k
    | sent b =>
      rw [hb] at hs
      rcases hs with hs | hs
      · simp only [Outcome.running.injEq] at hs
        rw [← hs]
        simp only [keys_store]
        exact keys_hub s.1 k
      · simp at hs
  | addClient p k uid =>
    simp only [RoomHubs.step] at hs
    rcases hs with hs | hs
    · simp only [Outcome.running.injEq] at hs
      rw [← hs]
      exact keys_hub s.1 k
    · simp at hs
  | loop k sel =>
    simp only [RoomHubs.step, RoomHubs.Run] at hs
    cases hget : s.1.get k with
    | none => rw [hget] at hs; simp at hs
    | some h =>
      rw [hget] at hs
      simp only [] at hs
      cases hr : h.Run now s.2 sel with
      | panic => rw [hr] at hs; simp at hs
      | idle => rw [hr] at hs; simp at hs
      | running x =>
        rw [hr] at hs
        rcases hs with hs | hs
        · simp only [Outcome.running.injEq] at hs
          rw [← hs]
          simp [keys_store, RegistryOp.referenced]
        · simp at hs
      | blocked x =>
        rw [hr] at hs
        rcases hs with hs | hs
        · simp at hs
        · simp only [Outcome.blocked.injEq] at hs
          rw [← hs]
          simp [keys_store, RegistryOp.referenced]

/-- One registry operation, whether it completes or is left waiting: the broadcaster stored
under a room id is afterwards the same object, written only by `Broadcast` in an `Emit` for
that room or by an iteration of its own control loop. -/
theorem step_entry (now : Ptr → Nat) (s : RoomHubs × Mem) (op : RegistryOp)
    (s' : RoomHubs × Mem) (k : Nat) (h : Hub)
    (hs : RoomHubs.step now s op = .running s' ∨ RoomHubs.step now s op = .blocked s')
    (hget : s.1.get k = some h) :
    s'.1.get k = some h ∨
    (∃ ev b, op = .emit k ev ∧ h.Broadcast ev = .sent b ∧
      s'.1.get k = some { h with broadcast := b }) ∨
    (∃ sel h' mem', op = .loop k sel ∧
      (h.Run now s.2 sel = .running (h', mem') ∨ h.Run now s.2 sel = .blocked (h', mem')) ∧
      s'.1.get k = some h') := by
  have hubk : ∀ j, (s.1.hub j).2.get k = some h := by
    intro j
    by_cases hj : k = j
    · subst hj
      rw [hub_present s.1 k h hget]
      exact hget
    · rw [get_hub_ne s.1 j k hj]
      exact hget
  cases op with
  | hub j =>
    simp only [RoomHubs.step] at hs
    rcases hs with hs | hs
    · simp only [Outcome.running.injEq] at hs
      rw [← hs]
      exact Or.inl (hubk j)
    · simp at hs
  | emit j ev =>
    simp only [RoomHubs.step, RoomHubs.Emit] at hs
    cases hb : (s.1.hub j).1.Broadcast ev with
    | panic => rw [hb] at hs; simp at hs
    | full =>
      rw [hb] at hs
      rcases hs with hs | hs
      · simp at hs
      · simp only [Outcome.blocked.injEq] at hs
        rw [← hs]
        exact Or.inl (hubk j)
    | sent b =>
      rw [hb] at hs
      rcases hs with hs | hs
      · simp only [Outcome.running.injEq] at hs
        rw [← hs]
        by_cases hj : k = j
        · subst hj
          rw [hub_present s.1 k h hget] at hb ⊢
          exact Or.inr (Or.inl ⟨ev, b, rfl, hb, get_store s.1 k h _ hget⟩)
        · left
          show ((s.1.hub j).2.store j _).get k = some h
          rw [get_store_ne _ j k _ hj]
          exact hubk j
      · simp at hs
  | addClient p j uid =>
    simp only [RoomHubs.step] at hs
    rcases hs with hs | hs
    · simp only [Outcome.running.injEq] at hs
      rw [← hs]
      exact Or.inl (hubk j)
    · simp at hs
  | loop j sel =>
    simp only [RoomHubs.step, RoomHubs.Run] at hs
    cases hgetj : s.1.get j with
    | none => rw [hgetj] at hs; simp at hs
    | some hj' =>
      rw [hgetj] at hs
      simp only [] at hs
      have key : ∀ x : Hub × Mem, s'.1 = s.1.store j x.1 →
          (hj'.Run now s.2 sel = .running x ∨ hj'.Run now s.2 sel = .blocked x) →
          s'.1.get k = some h ∨
          (∃ ev b, RegistryOp.loop j sel = .emit k ev ∧ h.Broadcast ev = .sent b ∧
            s'.1.get k = some { h with broadcast := b }) ∨
          (∃ sel' h' mem', RegistryOp.loop j sel = .loop k sel' ∧
            (h.Run now s.2 sel' = .running (h', mem') ∨
              h.Run now s.2 sel' = .blocked (h', mem')) ∧
            s'.1.get k = some h') := by
        intro x hs' hrun
        by_cases hjk : k = j
        · subst hjk
          have hh : hj' = h := by rw [hget] at hgetj; exact (Option.some.inj hgetj).symm
          subst hh
          refine Or.inr (Or.inr ⟨sel, x.1, x.2, rfl, hrun, ?_⟩)
          rw [hs']
          exact get_store s.1 k hj' _ hget
        · left
          rw [hs', get_store_ne _ j k _ hjk]
          exact hget
      cases hr : hj'.Run now s.2 sel with
      | panic => rw [hr] at hs; simp at hs
      | idle => rw [hr] at hs; simp at hs
      | running x =>
        rw [hr] at hs
        rcases hs with hs | hs
        · simp only [Outcome.running.injEq] at hs
          exact key x (by rw [← hs]) (Or.inl hr)
        · simp at hs
      | blocked x =>
        rw [hr] at hs
        rcases hs with hs | hs
        · simp at hs
        · simp only [Outcome.blocked.injEq] at hs
          exact key x (by rw [← hs]) (Or.inr hr)

theorem step_entry_roomID (now : Ptr → Nat) (s : RoomHubs × Mem) (op : RegistryOp)
    (s' : RoomHubs × Mem) (k : Nat) (h : Hub)
    (hs : RoomHubs.step now s op = .running s' ∨ RoomHubs.step now s op = .blocked s')
    (hget : s.1.get k = some h) :
    ∃ h', s'.1.get k = some h' ∧ h'.roomID = h.roomID := by
  rcases step_entry now s op s' k h hs hget with h1 | ⟨_, b, _, _, h2⟩ | ⟨sel, h', mem', _, hr, h3⟩
  · exact ⟨h, h1, rfl⟩
  · exact ⟨_, h2, rfl⟩
  · exact ⟨h', h3, Run_roomID now h s.2 sel (h', mem') hr⟩

/-! ## The last presence update after registrations -/

theorem system_runs_append_inv (now : Ptr → Nat) (a : List Action) :
    ∀ (b : List Action) (s s' : Hub × Mem),
      System.runs now (a ++ b) s = .running s' →
      ∃ s1, System.runs now a s = .running s1 ∧ System.runs now b s1 = .running s' := by
  induction a with
  | nil => intro b s s' h; exact ⟨s, rfl, h⟩
  | cons act a ih =>
    intro b s s' h
    obtain ⟨h1, mem1, hstep, hrest⟩ := system_runs_cons_inv now act (a ++ b) s.1 s.2 s' h
    obtain ⟨s1, ha, hb⟩ := ih b _ s' hrest
    refine ⟨s1, ?_, hb⟩
    show System.runs now (act :: a) (s.1, s.2) = _
    simp only [System.runs, hstep]
    exact ha

theorem mem_sysRegisters (x : Ptr) (acts : List Action) :
    x ∈ sysRegisters acts ↔ Action.loop (.register x) ∈ acts := by
  induction acts with
  | nil => simp [sysRegisters]
  | cons act acts ih =>
    cases act with
    | loop sel => cases sel <;> simp [sysRegisters, ih]
    | emit ev => simp [sysRegisters, ih]
    | write c ok => simp [sysRegisters, ih]

/-- One step of a goroutine: a connection in the set afterwards was in the set or is the
one the step registers. -/
theorem step_members (now : Ptr → Nat) (h : Hub) (mem : Mem) (act : Action) (h1 : Hub)
    (mem1 : Mem) (hnd : h.clients.Nodup) (hbo : h.broadcast.closed = false)
    (hstep : System.step now h mem act = .running (h1, mem1)) :
    ∀ d ∈ h1.clients, d ∈ h.clients ∨ act = .loop (.register d) := by
  cases act with
  | loop sel =>
    simp only [System.step] at hstep
    obtain ⟨hcs, _⟩ := Run_running_spec now h mem sel h1 mem1 hnd hbo hstep
    intro d hd
    rw [hcs] at hd
    have hk := List.mem_of_mem_filter hd
    cases sel with
    | register c =>
      rcases (mem_addKey c d _).mp hk with rfl | hk
      · exact Or.inr rfl
      · exact Or.inl hk
    | unregister c => exact Or.inl (List.mem_of_mem_erase hk)
    | broadcast => exact Or.inl hk
  | emit ev =>
    simp only [System.step, Hub.Broadcast] at hstep
    cases hs : h.broadcast.send ev with
    | panic => rw [hs] at hstep; simp at hstep
    | full => rw [hs] at hstep; simp at hstep
    | sent b =>
      rw [hs] at hstep
      simp only [Outcome.running.injEq, Prod.mk.injEq] at hstep
      obtain ⟨rfl, _⟩ := hstep
      exact fun d hd => Or.inl hd
  | write c ok =>
    simp only [System.step] at hstep
    cases hw : (mem c).writePump ok with
    | panic => rw [hw] at hstep; simp at hstep
    | idle => rw [hw] at hstep; simp at hstep
    | blocked cl => rw [hw] at hstep; simp at hstep
    | running cl =>
      rw [hw] at hstep
      simp only [Outcome.running.injEq, Prod.mk.injEq] at hstep
      obtain ⟨rfl, _⟩ := hstep
      exact fun d hd => Or.inl hd

/-- Along an interleaving that completes: the key set stays free of repetitions, the
broadcast channel stays open, user ids do not change, and every connection of the set
was in the set at the start or was registered on the way. -/
theorem system_runs_members (now : Ptr → Nat) (acts : List Action) :
    ∀ (h : Hub) (mem : Mem) (h' : Hub) (mem' : Mem), h.clients.Nodup →
      h.broadcast.closed = false →
      System.runs now acts (h, mem) = .running (h', mem') →
      h'.clients.Nodup ∧ h'.broadcast.closed = false ∧
      (∀ d, (mem' d).userID = (mem d).userID) ∧
      ∀ d ∈ h'.clients, d ∈ h.clients ∨ d ∈ sysRegisters acts := by
  induction acts with
  | nil =>
    intro h mem h' mem' hnd hbo hrun
    simp only [System.runs, Outcome.running.injEq, Prod.mk.injEq] at hrun
    obtain ⟨rfl, rfl⟩ := hrun
    exact ⟨hnd, hbo, fun _ => rfl, fun d hd => Or.inl hd⟩
  | cons act acts ih =>
    intro h mem h' mem' hnd hbo hrun
    obtain ⟨h1, mem1, hstep, hrest⟩ := system_runs_cons_inv now act acts h mem _ hrun
    obtain ⟨hnd1, hbo1, hu1, _⟩ := step_order now h mem act h1 mem1 hnd hbo hstep
    have hm1 := step_members now h mem act h1 mem1 hnd hbo hstep
    obtain ⟨hnd', hbo', hu', hm'⟩ := ih h1 mem1 h' mem' hnd1 hbo1 hrest
    refine ⟨hnd', hbo', fun d => by rw [hu' d, hu1 d], ?_⟩
    intro d hd
    rcases hm' d hd with hd1 | hd1
    · rcases hm1 d hd1 with hd0 | hact
      · exact Or.inl hd0
      · right
        rw [mem_sysRegisters, hact]
        exact List.mem_cons_self _ _
    · right
      rw [mem_sysRegisters] at hd1 ⊢
      exact List.mem_cons_of_mem _ hd1

theorem statusSet_keys (m : List (Nat × Status)) (k : Nat) (v : Status) :
    (statusSet m k v).map (fun e => e.1) = k :: (m.map (fun e => e.1)).filter (fun x => x != k) := by
  unfold statusSet
  rw [List.map_cons, List.filter_map]
  rfl

theorem snapshot_keys_nodup (now : Ptr → Nat) (cs : List Ptr) (mem : Mem) :
    ((snapshot now cs mem).map (fun e => e.1)).Nodup := by
  unfold snapshot Hub.clientsStatus
  simp only []
  have key : ∀ (l : List Ptr) (acc : List (Nat × Status)), (acc.map (fun e => e.1)).Nodup →
      ((l.foldl (fun status c =>
        statusSet status (mem c).userID { online := true, lastSeen := now c }) acc).map
          (fun e => e.1)).Nodup := by
    intro l
    induction l with
    | nil => intro acc h; exact h
    | cons c l ih =>
      intro acc h
      rw [List.foldl_cons]
      apply ih
      rw [statusSet_keys]
      refine List.nodup_cons.mpr ⟨?_, h.filter _⟩
      intro hm
      have := (List.mem_filter.mp hm).2
      simp at this
  exact key cs [] List.nodup_nil

theorem statusGet_isSome_iff (m : List (Nat × Status)) (u : Nat) :
    (statusGet m u).isSome = true ↔ u ∈ m.map (fun e => e.1) := by
  unfold statusGet
  have hm : ∀ o : Option (Nat × Status), (o.map (fun e => e.2)).isSome = o.isSome := by
    intro o; cases o <;> rfl
  rw [hm, List.find?_isSome]
  constructor
  · rintro ⟨x, hx, hxk⟩
    have : x.1 = u := by simpa using hxk
    exact List.mem_map.mpr ⟨x, hx, this⟩
  · intro h
    obtain ⟨x, hx, hxk⟩ := List.mem_map.mp h
    exact ⟨x, hx, by simp [hxk]⟩

/-- The snapshot has exactly one entry for every user id of a connection of the key set. -/
theorem snapshot_length (now : Ptr → Nat) (cs : List Ptr) (mem : Mem) :
    (snapshot now cs mem).length = (cs.map (fun c => (mem c).userID)).dedup.length := by
  have h1 : (snapshot now cs mem).length = ((snapshot now cs mem).map (fun e => e.1)).length := by
    simp
  rw [h1]
  apply List.Perm.length_eq
  rw [List.perm_ext_iff_of_nodup (snapshot_keys_nodup now cs mem) (List.nodup_dedup _)]
  intro u
  rw [List.mem_dedup, ← statusGet_isSome_iff]
  have := statusGet_snapshot now cs mem u
  by_cases hu : u ∈ cs.map (fun c => (mem c).userID)
  · rw [if_pos hu] at this
    simp only [hu, iff_true]
    cases hs : statusGet (snapshot now cs mem) u with
    | none => rw [hs] at this; simp at this
    | some st => rfl
  · rw [if_neg hu] at this
    simp only [hu, iff_false]
    cases hs : statusGet (snapshot now cs mem) u with
    | none => simp
    | some st => rw [hs] at this; simp at this

theorem snapshot_congr (now : Ptr → Nat) (cs : List Ptr) (mem mem1 : Mem)
    (hu : ∀ c, (mem1 c).userID = (mem c).userID) :
    snapshot now cs mem1 = snapshot now cs mem := by
  simp only [snapshot, Hub.clientsStatus, hu]

/-! ## The reader pump, the REST handler and the upgrade endpoint -/

theorem defaultType_fields (msg : Message) :
    msg.defaultType.type = (if msg.type = "" then "text" else msg.type) ∧
    msg.defaultType.text = msg.text ∧ msg.defaultType.imageUrl = msg.imageUrl ∧
    msg.defaultType.roomId = msg.roomId ∧ msg.defaultType.userId = msg.userId ∧
    msg.defaultType.id = msg.id ∧ msg.defaultType.createdAt = msg.createdAt := by
  unfold Message.defaultType
  split_ifs <;> simp

theorem World_Broadcast_room (w : World) (ev : Event) (hbo : w.hub.broadcast.closed = false)
    (hroom : w.hub.broadcast.buf.length < w.hub.broadcast.cap) :
    w.Broadcast ev = .running { w with hub := { w.hub with
      broadcast := ⟨w.hub.broadcast.cap, w.hub.broadcast.buf ++ [ev], false⟩ } } := by
  simp only [World.Broadcast, Hub.Broadcast, send_room _ _ hbo hroom]

theorem World_Broadcast_full (w : World) (ev : Event) (hbo : w.hub.broadcast.closed = false)
    (hfull : ¬ w.hub.broadcast.buf.length < w.hub.broadcast.cap) :
    w.Broadcast ev = .blocked w := by
  simp only [World.Broadcast, Hub.Broadcast, send_full _ _ hbo hfull]

theorem readFrame_message (create : List Message → Message → Option (Nat × Nat)) (c : Ptr)
    (payload : List (String × Json)) (w : World) :
    Client.readFrame create c ⟨"message", payload⟩ w =
      match create w.creates (Client.newMessage w.hub.roomID (w.mem c).userID payload) with
      | some (id, t) =>
        World.Broadcast { w with creates := w.creates ++
            [Client.newMessage w.hub.roomID (w.mem c).userID payload] }
          (Message.event { Client.newMessage w.hub.roomID (w.mem c).userID payload with
            id := id, createdAt := t, updatedAt := t })
      | none => .running { w with creates := w.creates ++
          [Client.newMessage w.hub.roomID (w.mem c).userID payload] } := by
  have h1 : ¬ ("message" = "typing") := by decide
  simp only [Client.readFrame, h1, if_false, if_true]

theorem readPump_frame (now : Ptr → Nat)
    (create : List Message → Message → Option (Nat × Nat)) (c : Ptr) (incoming : wsIncoming)
    (reads : List ReadJSON) (w w' : World)
    (h : Client.readFrame create c incoming w = .running w') :
    Client.readPump now create c (.frame incoming :: reads) w =
      Client.readPump now create c reads w' := by
  simp only [Client.readPump, h]

/-- On a state the program builds the unregister case never panics and is never idle. -/
theorem Run_unregister_total (now : Ptr → Nat) (h : Hub) (mem : Mem) (c : Ptr)
    (hwf : h.WF mem) :
    ∃ s, (h.Run now mem (.unregister c) = .running s ∨
        h.Run now mem (.unregister c) = .blocked s) ∧
      c ∉ s.1.clients ∧ (s.2 c).conn = (mem c).conn ∧ (s.2 c).userID = (mem c).userID := by
  obtain ⟨hnd, hbo, _, hcl⟩ := hwf
  have hop : ∀ d ∈ h.clients, (mem d).send.closed = false := fun d hd => (hcl d hd).1
  have hce : c ∉ h.clients.erase c := by
    intro hmem
    by_cases hc : c ∈ h.clients
    · exact ((List.Nodup.mem_erase_iff hnd).mp hmem).1 rfl
    · exact hc (List.mem_of_mem_erase hmem)
  by_cases hroom : h.broadcast.buf.length < h.broadcast.cap
  · by_cases hc : c ∈ h.clients
    · refine ⟨_, Or.inl (Run_unregister_eq now h mem c hnd hbo hroom hop hc), ?_, ?_, ?_⟩
      · exact fun hmem => hce (List.mem_of_mem_filter hmem)
      · simp only []
        rw [offer_not_mem _ _ _ _ hce, setSend_self]
      · simp only []
        rw [offer_not_mem _ _ _ _ hce, setSend_self]
    · refine ⟨_, Or.inl (Run_unregister_absent_eq now h mem c hnd hbo hroom hop hc), ?_, ?_, ?_⟩
      · exact fun hmem => hc (List.mem_of_mem_filter hmem)
      · simp only []
        rw [offer_not_mem _ _ _ _ hc]
      · simp only []
        rw [offer_not_mem _ _ _ _ hc]
  · by_cases hc : c ∈ h.clients
    · refine ⟨_, Or.inr (Run_unregister_blocked now h mem c hbo hroom (hop c hc) hc), hce,
        ?_, ?_⟩
      · simp only []
        rw [setSend_self]
      · simp only []
        rw [setSend_self]
    · have e2 : h.Run now mem (.unregister c) = .blocked (h, mem) := by
        simp only [Hub.Run, hc, if_false, Hub.Broadcast, send_full _ _ hbo hroom]
      exact ⟨_, Or.inr e2, hc, rfl, rfl⟩

theorem newMessage_fields (roomID userID : Nat) (payload : List (String × Json)) :
    (Client.newMessage roomID userID payload).type =
      (if stringField payload "type" = "" then "text" else stringField payload "type") ∧
    (Client.newMessage roomID userID payload).text = stringField payload "text" ∧
    (Client.newMessage roomID userID payload).imageUrl = stringField payload "imageUrl" ∧
    (Client.newMessage roomID userID payload).roomId = roomID ∧
    (Client.newMessage roomID userID payload).userId = userID := by
  unfold Client.newMessage
  have h := defaultType_fields ⟨0, 0, 0, roomID, userID, stringField payload "type",
    stringField payload "text", stringField payload "imageUrl"⟩
  exact ⟨h.1, h.2.1, h.2.2.1, h.2.2.2.1, h.2.2.2.2.1⟩

/-- A `message` frame whose record is stored, on a channel with a free slot. -/
theorem readFrame_message_stored (create : List Message → Message → Option (Nat × Nat))
    (c : Ptr) (payload : List (String × Json)) (w : World) (id t : Nat)
    (hc : create w.creates (Client.newMessage w.hub.roomID (w.mem c).userID payload) =
      some (id, t))
    (hbo : w.hub.broadcast.closed = false)
    (hroom : w.hub.broadcast.buf.length < w.hub.broadcast.cap) :
    ∃ w', Client.readFrame create c ⟨"message", payload⟩ w = .running w' ∧
      w'.hub.broadcast.buf = w.hub.broadcast.buf ++
        [⟨"message", .message id w.hub.roomID (w.mem c).userID
          (Client.newMessage w.hub.roomID (w.mem c).userID payload).type
          (Client.newMessage w.hub.roomID (w.mem c).userID payload).text
          (Client.newMessage w.hub.roomID (w.mem c).userID payload).imageUrl t⟩] ∧
      w'.hub.broadcast.cap = w.hub.broadcast.cap ∧ w'.hub.broadcast.closed = false ∧
      w'.hub.clients = w.hub.clients ∧ w'.hub.roomID = w.hub.roomID ∧
      w'.mem = w.mem ∧ w'.presence = w.presence ∧ w'.loop = w.loop ∧
      w'.creates = w.creates ++
        [Client.newMessage w.hub.roomID (w.mem c).userID payload] := by
  obtain ⟨_, _, _, hr, hu⟩ := newMessage_fields w.hub.roomID (w.mem c).userID payload
  rw [readFrame_message, hc]
  simp only [World.Broadcast, Hub.Broadcast]
  rw [send_room _ _ hbo hroom]
  refine ⟨_, rfl, ?_, rfl, rfl, rfl, rfl, rfl, rfl, rfl, rfl⟩
  simp only [Message.event, hr, hu]

/-- A `message` frame whose record is not stored. -/
theorem readFrame_message_failed (create : List Message → Message → Option (Nat × Nat))
    (c : Ptr) (payload : List (String × Json)) (w : World)
    (hc : create w.creates (Client.newMessage w.hub.roomID (w.mem c).userID payload) = none) :
    Client.readFrame create c ⟨"message", payload⟩ w =
      .running { w with creates := w.creates ++
        [Client.newMessage w.hub.roomID (w.mem c).userID payload] } := by
  rw [readFrame_message, hc]

/-- Whatever a `message` frame does, the record built from the payload is the one handed to
the persistence call. -/
theorem readFrame_message_creates (create : List Message → Message → Option (Nat × Nat))
    (c : Ptr) (payload : List (String × Json)) (w w' : World)
    (hr : Client.readFrame create c ⟨"message", payload⟩ w = .running w' ∨
      Client.readFrame create c ⟨"message", payload⟩ w = .blocked w') :
    w'.creates = w.creates ++ [Client.newMessage w.hub.roomID (w.mem c).userID payload] := by
  rw [readFrame_message] at hr
  cases hc : create w.creates (Client.newMessage w.hub.roomID (w.mem c).userID payload) with
  | none =>
    rw [hc] at hr
    rcases hr with hr | hr
    · simp only [Outcome.running.injEq] at hr
      rw [← hr]
    · simp at hr
  | some it =>
    rw [hc] at hr
    simp only [World.Broadcast] at hr
    split at hr
    · rcases hr with hr | hr
      · simp only [Outcome.running.injEq] at hr
        rw [← hr]
      · simp at hr
    all_goals
      rcases hr with hr | hr
      · simp at hr
      · first
        | (simp only [Outcome.blocked.injEq] at hr; rw [← hr])
        | simp at hr

/-- Whatever the REST handler does with a bound request, the record built from the request
is the one handed to the persistence call. -/
theorem SendMessageREST_creates (create : List Message → Message → Option (Nat × Nat))
    (roomID userID : Nat) (req : SendMessageRequest) (s s' : RestState)
    (hr : Handler.SendMessageREST create roomID userID (some req) s = .running s' ∨
      Handler.SendMessageREST create roomID userID (some req) s = .blocked s') :
    s'.creates = s.creates ++ [Handler.newMessageREST roomID userID req] := by
  simp only [Handler.SendMessageREST] at hr
  cases hc : create s.creates (Handler.newMessageREST roomID userID req) with
  | none =>
    rw [hc] at hr
    rcases hr with hr | hr
    · simp only [Outcome.running.injEq] at hr
      rw [← hr]
    · simp at hr
  | some it =>
    rw [hc] at hr
    simp only [] at hr
    split at hr
    all_goals
      rcases hr with hr | hr
      · first
        | (simp only [Outcome.running.injEq] at hr; rw [← hr])
        | simp at hr
      · first
        | (simp only [Outcome.blocked.injEq] at hr; rw [← hr])
        | simp at hr

/-- The deferred function of the reader when the loop is at its `select`, on a state the
program builds: the loop receives the connection and removes it, then the transport is
closed, then the user is marked offline. -/
theorem readPumpExit_selecting (now : Ptr → Nat) (c : Ptr) (w : World)
    (hsel : w.loop = .selecting) (hwf : w.hub.WF w.mem) :
    ∃ w', Client.readPumpExit now c w = .running w' ∧
      w'.hub = (w.loopRun now (.unregister c)).hub ∧
      w'.mem = (w.loopRun now (.unregister c)).mem.closeConn c ∧
      w'.presence = w.presence.Offline (w.mem c).userID ∧
      c ∉ w'.hub.clients ∧ (w'.mem c).conn.closed = true ∧
      (w'.mem c).conn.written = (w.mem c).conn.written := by
  obtain ⟨s, hs, hnot, hconn, _⟩ := Run_unregister_total now w.hub w.mem c hwf
  rcases hs with hs | hs
  · have hl : w.loopRun now (.unregister c) = { w with hub := s.1, mem := s.2 } := by
      simp only [World.loopRun, hsel, hs]
    refine ⟨⟨s.1, s.2.closeConn c, w.presence.Offline (w.mem c).userID, w.creates,
      .selecting⟩, ?_, ?_, ?_, rfl, hnot, ?_, ?_⟩
    · simp only [Client.readPumpExit, hsel, hl]
    · rw [hl]
    · rw [hl]
    · simp [Mem.closeConn]
    · simp [Mem.closeConn, hconn]
  · have hl : w.loopRun now (.unregister c) =
        { w with hub := s.1, mem := s.2, loop := .stuck } := by
      simp only [World.loopRun, hsel, hs]
    refine ⟨⟨s.1, s.2.closeConn c, w.presence.Offline (w.mem c).userID, w.creates,
      .stuck⟩, ?_, ?_, ?_, rfl, hnot, ?_, ?_⟩
    · simp only [Client.readPumpExit, hsel, hl]
    · rw [hl]
    · rw [hl]
    · simp [Mem.closeConn]
    · simp [Mem.closeConn, hconn]

theorem IsOnline_Offline (p : Presence) (u : Nat) : (p.Offline u).IsOnline u = false := by
  unfold Presence.IsOnline
  rw [LastSeen_Offline, if_pos rfl]

theorem IsOnline_Online (p : Presence) (u t : Nat) : (p.Online u t).IsOnline u = true := by
  unfold Presence.IsOnline
  rw [LastSeen_Online, if_pos rfl]

/-! ## Who writes the connection set -/

theorem World_Broadcast_running (w w' : World) (ev : Event)
    (h : w.Broadcast ev = .running w') :
    w'.hub.broadcast.buf = w.hub.broadcast.buf ++ [ev] ∧ w'.creates = w.creates ∧
      w'.hub.roomID = w.hub.roomID ∧ w'.hub.clients = w.hub.clients ∧ w'.mem = w.mem ∧
      w'.presence = w.presence ∧ w'.loop = w.loop := by
  unfold World.Broadcast at h
  cases hb : w.hub.Broadcast ev with
  | panic => rw [hb] at h; simp at h
  | full => rw [hb] at h; simp at h
  | sent b =>
    rw [hb] at h
    simp only [Outcome.running.injEq] at h
    obtain ⟨_, _, hbeq⟩ := send_sent_inv _ _ _ hb
    subst h
    simp [hbeq]

theorem World_Broadcast_blocked (w w' : World) (ev : Event)
    (h : w.Broadcast ev = .blocked w') : w' = w := by
  unfold World.Broadcast at h
  cases hb : w.hub.Broadcast ev with
  | panic => rw [hb] at h; simp at h
  | full => rw [hb] at h; simp only [Outcome.blocked.injEq] at h; exact h.symm
  | sent b => rw [hb] at h; simp at h

theorem keepsSets_refl (r : RoomHubs) : r.keepsSets r :=
  fun _ h1 hg => Or.inl ⟨h1, hg, rfl⟩

theorem hub_get_cases (r : RoomHubs) (k j : Nat) (h1 : Hub)
    (hg : (r.hub k).2.get j = some h1) :
    r.get j = some h1 ∨ (r.get j = none ∧ h1 = NewHub j) := by
  by_cases hj : j = k
  · subst hj
    cases hget : r.get j with
    | some h =>
      rw [hub_present r j h hget] at hg
      left
      rw [← hget]
      exact hg
    | none =>
      right
      have hs := get_hub_self r j
      rw [hg, hub_absent r j hget] at hs
      simp only [Option.some.injEq] at hs
      exact ⟨rfl, hs⟩
  · rw [get_hub_ne r k j hj] at hg
    exact Or.inl hg

theorem keepsSets_hub (r : RoomHubs) (k : Nat) : r.keepsSets (r.hub k).2 := by
  intro j h1 hg
  rcases hub_get_cases r k j h1 hg with h | ⟨h, he⟩
  · exact Or.inl ⟨h1, h, rfl⟩
  · exact Or.inr ⟨h, by rw [he]; rfl⟩

theorem keepsSets_Emit (r : RoomHubs) (k : Nat) (ev : Event) (r1 : RoomHubs)
    (he : r.Emit k ev = .running r1 ∨ r.Emit k ev = .blocked r1) : r.keepsSets r1 := by
  unfold RoomHubs.Emit at he
  cases hb : (r.hub k).1.Broadcast ev with
  | panic => rw [hb] at he; simp at he
  | full =>
    rw [hb] at he
    rcases he with he | he
    · simp at he
    · simp only [Outcome.blocked.injEq] at he
      subst he
      exact keepsSets_hub r k
  | sent b =>
    rw [hb] at he
    rcases he with he | he
    · simp only [Outcome.running.injEq] at he
      subst he
      intro j h1 hg
      by_cases hj : j = k
      · subst hj
        rw [get_store _ j _ _ (get_hub_self r j)] at hg
        simp only [Option.some.injEq] at hg
        have hc : h1.clients = (r.hub j).1.clients := by rw [← hg]
        rw [hc]
        exact keepsSets_hub r j j (r.hub j).1 (get_hub_self r j)
      · rw [get_store_ne _ k j _ hj] at hg
        exact keepsSets_hub r k j h1 hg
    · simp at he

theorem step_keepsSets (now : Ptr → Nat) (s : RoomHubs × Mem) (op : RegistryOp)
    (s' : RoomHubs × Mem) (hop : ∀ roomID sel, op ≠ .loop roomID sel)
    (hs : RoomHubs.step now s op = .running s' ∨ RoomHubs.step now s op = .blocked s') :
    s.1.keepsSets s'.1 := by
  cases op with
  | loop roomID sel => exact absurd rfl (hop roomID sel)
  | hub roomID =>
    simp only [RoomHubs.step] at hs
    rcases hs with hs | hs
    · simp only [Outcome.running.injEq] at hs
      subst hs
      exact keepsSets_hub s.1 roomID
    · simp at hs
  | addClient p roomID userID =>
    simp only [RoomHubs.step, Handler.addClient] at hs
    rcases hs with hs | hs
    · simp only [Outcome.running.injEq] at hs
      subst hs
      exact keepsSets_hub s.1 roomID
    · simp at hs
  | emit roomID ev =>
    simp only [RoomHubs.step] at hs
    cases he : s.1.Emit roomID ev with
    | panic => rw [he] at hs; simp at hs
    | idle => rw [he] at hs; simp at hs
    | running r1 =>
      rw [he] at hs
      rcases hs with hs | hs
      · simp only [Outcome.running.injEq] at hs
        subst hs
        exact keepsSets_Emit s.1 roomID ev r1 (Or.inl he)
      · simp at hs
    | blocked r1 =>
      rw [he] at hs
      rcases hs with hs | hs
      · simp at hs
      · simp only [Outcome.blocked.injEq] at hs
        subst hs
        exact keepsSets_Emit s.1 roomID ev r1 (Or.inr he)

theorem step_foreign_clients (now : Ptr → Nat) (h : Hub) (mem : Mem) (act : Action)
    (s' : Hub × Mem) (hact : ∀ sel, act ≠ .loop sel)
    (hs : System.step now h mem act = .running s' ∨ System.step now h mem act = .blocked s') :
    s'.1.clients = h.clients := by
  cases act with
  | loop sel => exact absurd rfl (hact sel)
  | emit ev =>
    simp only [System.step] at hs
    cases hb : h.Broadcast ev with
    | panic => rw [hb] at hs; simp at hs
    | full =>
      rw [hb] at hs
      rcases hs with hs | hs
      · simp at hs
      · simp only [Outcome.blocked.injEq] at hs
        rw [← hs]
    | sent b =>
      rw [hb] at hs
      rcases hs with hs | hs
      · simp only [Outcome.running.injEq] at hs
        rw [← hs]
      · simp at hs
  | write c ok =>
    simp only [System.step] at hs
    cases hw : (mem c).writePump ok with
    | panic => rw [hw] at hs; simp at hs
    | idle => rw [hw] at hs; simp at hs
    | running cl =>
      rw [hw] at hs
      rcases hs with hs | hs
      · simp only [Outcome.running.injEq] at hs
        rw [← hs]
      · simp at hs
    | blocked cl =>
      rw [hw] at hs
      rcases hs with hs | hs
      · simp at hs
      · simp only [Outcome.blocked.injEq] at hs
        rw [← hs]

theorem readFrame_clients (create : List Message → Message → Option (Nat × Nat)) (c : Ptr)
    (incoming : wsIncoming) (w w' : World)
    (hs : Client.readFrame create c incoming w = .running w' ∨
      Client.readFrame create c incoming w = .blocked w') :
    w'.hub.clients = w.hub.clients := by
  unfold Client.readFrame at hs
  split_ifs at hs
  · rcases hs with hs | hs
    · exact (World_Broadcast_running _ _ _ hs).2.2.2.1
    · rw [World_Broadcast_blocked _ _ _ hs]
  · simp only [] at hs
    split at hs
    · rcases hs with hs | hs
      · exact (World_Broadcast_running _ _ _ hs).2.2.2.1
      · rw [World_Broadcast_blocked _ _ _ hs]
    · rcases hs with hs | hs
      · simp only [Outcome.running.injEq] at hs
        rw [← hs]
      · simp at hs
  · rcases hs with hs | hs
    · simp only [Outcome.running.injEq] at hs
      rw [← hs]
    · simp at hs

theorem readPumpExit_hub (now : Ptr → Nat) (c : Ptr) (w w' : World)
    (hs : Client.readPumpExit now c w = .running w' ∨
      Client.readPumpExit now c w = .blocked w') :
    w'.hub = (w.loopRun now (.unregister c)).hub := by
  unfold Client.readPumpExit at hs
  cases hl : w.loop with
  | selecting =>
    rw [hl] at hs
    simp only [] at hs
    split at hs
    · simp at hs
    · rcases hs with hs | hs
      · simp only [Outcome.running.injEq] at hs
        rw [← hs]
      · simp at hs
  | stuck =>
    rw [hl] at hs
    rcases hs with hs | hs
    · simp at hs
    · simp only [Outcome.blocked.injEq] at hs
      rw [← hs]
      simp only [World.loopRun, hl]
  | crashed =>
    rw [hl] at hs
    simp at hs

theorem SendMessageREST_keepsSets (create : List Message → Message → Option (Nat × Nat))
    (roomID userID : Nat) (bound : Option SendMessageRequest) (s s' : RestState)
    (hs : Handler.SendMessageREST create roomID userID bound s = .running s' ∨
      Handler.SendMessageREST create roomID userID bound s = .blocked s') :
    s.rooms.keepsSets s'.rooms := by
  unfold Handler.SendMessageREST at hs
  cases bound with
  | none =>
    rcases hs with hs | hs
    · simp only [Outcome.running.injEq] at hs
      rw [← hs]
      exact keepsSets_refl _
    · simp at hs
  | some req =>
    simp only [] at hs
    cases hc : create s.creates (Handler.newMessageREST roomID userID req) with
    | none =>
      rw [hc] at hs
      rcases hs with hs | hs
      · simp only [Outcome.running.injEq] at hs
        rw [← hs]
        exact keepsSets_refl _
      · simp at hs
    | some it =>
      rw [hc] at hs
      simp only [] at hs
      cases he : s.rooms.Emit (Handler.newMessageREST roomID userID req).roomId
          (Message.event { Handler.newMessageREST roomID userID req with
            id := it.1, createdAt := it.2, updatedAt := it.2 }) with
      | panic => rw [he] at hs; simp at hs
      | idle => rw [he] at hs; simp at hs
      | running r1 =>
        rw [he] at hs
        rcases hs with hs | hs
        · simp only [Outcome.running.injEq] at hs
          rw [← hs]
          exact keepsSets_Emit _ _ _ r1 (Or.inl he)
        · simp at hs
      | blocked r1 =>
        rw [he] at hs
        rcases hs with hs | hs
        · simp at hs
        · simp only [Outcome.blocked.injEq] at hs
          rw [← hs]
          exact keepsSets_Emit _ _ _ r1 (Or.inr he)

theorem RoomWebSocket_keepsSets (findRoom : Nat → Option Room) (isMember : Nat → Nat → Bool)
    (upgradeOk : Bool) (now : Nat) (p : Ptr) (roomID userID : Nat) (s : Server) :
    s.rooms.keepsSets
      (Handler.RoomWebSocket findRoom isMember upgradeOk now p roomID userID s).2.rooms := by
  unfold Handler.RoomWebSocket
  cases findRoom roomID with
  | none => exact keepsSets_refl _
  | some r =>
    simp only []
    split_ifs
    · exact keepsSets_refl _
    · unfold Handler.initWS
      split_ifs
      · exact keepsSets_hub s.rooms roomID
      · exact keepsSets_refl _

/-! ## Two callers of the registry lookup -/

theorem HubCall_step_lookup_none (r : HubHeap) (k : Nat)
    (hno : r.hubs.find? (fun e => e.1 == k) = none) :
    HubCall.step r (.lookup k) = (.create k, r) := by
  simp only [HubCall.step, hno]

theorem HubCall_step_lookup_created (r : HubHeap) (k : Nat) :
    HubCall.step (HubCall.step r (.create k)).2 (.lookup k) =
      (.returned r.objects.length, (HubCall.step r (.create k)).2) := by
  simp [HubCall.step]

/-! ## Connections and the presence tracker -/

theorem loopRun_presence (now : Ptr → Nat) (w : World) (sel : Select) :
    (w.loopRun now sel).presence = w.presence := by
  unfold World.loopRun
  cases w.loop with
  | selecting =>
    simp only []
    cases w.hub.Run now w.mem sel <;> rfl
  | stuck => rfl
  | crashed => rfl

theorem readPumpExit_presence (now : Ptr → Nat) (c : Ptr) (w w' : World)
    (hs : Client.readPumpExit now c w = .running w') :
    w'.presence = w.presence.Offline (w.mem c).userID := by
  unfold Client.readPumpExit at hs
  cases hl : w.loop with
  | selecting =>
    rw [hl] at hs
    simp only [] at hs
    split at hs
    · simp at hs
    · simp only [Outcome.running.injEq] at hs
      rw [← hs]
      simp only [loopRun_presence]
  | stuck => rw [hl] at hs; simp at hs
  | crashed => rw [hl] at hs; simp at hs

theorem initWS_presence (now : Nat) (p : Ptr) (roomID userID : Nat) (s : Server) :
    (Handler.initWS true now p roomID userID s).2.presence = s.presence.Online userID now := by
  simp [Handler.initWS]

theorem IsOnline_Online_eq (p : Presence) (u v t : Nat) :
    (p.Online u t).IsOnline v = if v = u then true else p.IsOnline v := by
  unfold Presence.IsOnline
  rw [LastSeen_Online]
  split_ifs <;> rfl

theorem IsOnline_Offline_eq (p : Presence) (u v : Nat) :
    (p.Offline u).IsOnline v = if v = u then false else p.IsOnline v := by
  unfold Presence.IsOnline
  rw [LastSeen_Offline]
  split_ifs <;> rfl

theorem any_erase_of_false (f : Ptr → Bool) (l : List Ptr) (p : Ptr) (hp : f p = false) :
    (l.erase p).any f = l.any f := by
  rw [Bool.eq_iff_iff, List.any_eq_true, List.any_eq_true]
  constructor
  · rintro ⟨q, hq, hf⟩
    exact ⟨q, List.mem_of_mem_erase hq, hf⟩
  · rintro ⟨q, hq, hf⟩
    have hne : q ≠ p := by
      intro e
      rw [e, hp] at hf
      exact Bool.noConfusion hf
    exact ⟨q, (List.mem_erase_of_ne hne).mpr hq, hf⟩

/-- What holds of the sessions when no user has two open connections: the tracker says
online exactly for the users with an open connection. -/
theorem sessions_step_inv (s : Sessions) (e : ConnEvent)
    (hnd : s.live.Nodup)
    (huniq : ∀ q1 ∈ s.live, ∀ q2 ∈ s.live, (s.mem q1).userID = (s.mem q2).userID → q1 = q2)
    (hinv : ∀ u, s.presence.IsOnline u = s.connected u)
    (hv : s.Valid [e]) (ho : s.OneEach [e]) :
    (s.step e).live.Nodup ∧
    (∀ q1 ∈ (s.step e).live, ∀ q2 ∈ (s.step e).live,
      ((s.step e).mem q1).userID = ((s.step e).mem q2).userID → q1 = q2) ∧
    ∀ u, (s.step e).presence.IsOnline u = (s.step e).connected u := by
  cases e with
  | opened p userID now =>
    obtain ⟨hp, _⟩ := hv
    obtain ⟨hnc, _⟩ := ho
    have hlive : ∀ q ∈ s.live, q ≠ p := fun q hq e => hp (e ▸ hq)
    have hnone : ∀ q ∈ s.live, (s.mem q).userID ≠ userID := by
      intro q hq e
      have : s.connected userID = true := by
        unfold Sessions.connected
        rw [List.any_eq_true]
        exact ⟨q, hq, by simp [e]⟩
      rw [hnc] at this
      exact Bool.noConfusion this
    refine ⟨List.nodup_cons.mpr ⟨hp, hnd⟩, ?_, ?_⟩
    · intro q1 h1 q2 h2 he
      simp only [Sessions.step, List.mem_cons] at h1 h2 he
      rcases h1 with h1 | h1 <;> rcases h2 with h2 | h2
      · rw [h1, h2]
      · subst h1
        simp only [if_true, hlive q2 h2, if_false, Client.fresh] at he
        exact absurd he.symm (hnone q2 h2)
      · subst h2
        simp only [if_true, hlive q1 h1, if_false, Client.fresh] at he
        exact absurd he (hnone q1 h1)
      · simp only [hlive q1 h1, hlive q2 h2, if_false] at he
        exact huniq q1 h1 q2 h2 he
    · intro u
      simp only [Sessions.step, Sessions.connected, List.any_cons, if_true]
      rw [IsOnline_Online_eq]
      have hany : s.live.any
          (fun q => ((if q = p then Client.fresh userID else s.mem q)).userID == u) =
          s.connected u := by
        unfold Sessions.connected
        rw [Bool.eq_iff_iff, List.any_eq_true, List.any_eq_true]
        constructor
        · rintro ⟨q, hq, hf⟩
          refine ⟨q, hq, ?_⟩
          simpa only [hlive q hq, if_false] using hf
        · rintro ⟨q, hq, hf⟩
          refine ⟨q, hq, ?_⟩
          simpa only [hlive q hq, if_false] using hf
      rw [hany]
      by_cases hu : u = userID
      · subst hu
        simp [Client.fresh]
      · have hu2 : ¬ userID = u := fun e => hu e.symm
        simp [hu, hu2, Client.fresh, hinv u]
  | readerExit p =>
    obtain ⟨hp, _⟩ := hv
    refine ⟨hnd.erase p, ?_, ?_⟩
    · intro q1 h1 q2 h2 he
      exact huniq q1 (List.mem_of_mem_erase h1) q2 (List.mem_of_mem_erase h2) he
    · intro u
      simp only [Sessions.step, Sessions.connected]
      rw [IsOnline_Offline_eq]
      by_cases hu : u = (s.mem p).userID
      · rw [if_pos hu]
        symm
        rw [Bool.eq_false_iff]
        intro hany
        rw [List.any_eq_true] at hany
        obtain ⟨q, hq, hf⟩ := hany
        have hqp := (List.Nodup.mem_erase_iff hnd).mp hq
        have hqu : (s.mem q).userID = (s.mem p).userID := by
          rw [← hu]
          simpa using hf
        exact hqp.1 (huniq q hqp.2 p hp hqu)
      · rw [if_neg hu, hinv u]
        unfold Sessions.connected
        symm
        apply any_erase_of_false
        simp only [beq_eq_false_iff_ne, ne_eq]
        exact fun e => hu e.symm

theorem sessions_run_inv : ∀ (evs : List ConnEvent) (s : Sessions),
    s.live.Nodup →
    (∀ q1 ∈ s.live, ∀ q2 ∈ s.live, (s.mem q1).userID = (s.mem q2).userID → q1 = q2) →
    (∀ u, s.presence.IsOnline u = s.connected u) →
    s.Valid evs → s.OneEach evs →
    ∀ u, (s.run evs).presence.IsOnline u = (s.run evs).connected u
  | [], _, _, _, hinv, _, _ => hinv
  | e :: evs, s, hnd, huniq, hinv, hv, ho => by
    have hv1 : s.Valid [e] ∧ (s.step e).Valid evs := by
      cases e with
      | opened p userID now => exact ⟨⟨hv.1, trivial⟩, hv.2⟩
      | readerExit p => exact ⟨⟨hv.1, trivial⟩, hv.2⟩
    have ho1 : s.OneEach [e] ∧ (s.step e).OneEach evs := by
      cases e with
      | opened p userID now => exact ⟨⟨ho.1, trivial⟩, ho.2⟩
      | readerExit p => exact ⟨trivial, ho⟩
    obtain ⟨h1, h2, h3⟩ := sessions_step_inv s e hnd huniq hinv hv1.1 ho1.1
    exact sessions_run_inv evs (s.step e) h1 h2 h3 hv1.2 ho1.2

/-! ## Capacities -/

theorem setSend_capped (mem : Mem) (c : Ptr) (ch : Chan)
    (hm : ∀ p, (mem p).send.cap = 32 ∧ (mem p).send.buf.length ≤ 32)
    (hch : ch.cap = 32 ∧ ch.buf.length ≤ 32) :
    ∀ p, ((mem.setSend c ch) p).send.cap = 32 ∧
      ((mem.setSend c ch) p).send.buf.length ≤ 32 := by
  intro p
  by_cases hp : p = c
  · subst hp
    rw [setSend_self]
    exact hch
  · rw [setSend_of_ne _ _ _ _ hp]
    exact hm p

theorem send_capped (ch b : Chan) (ev : Event) (n : Nat) (h : ch.send ev = .sent b)
    (hc : ch.cap = n ∧ ch.buf.length ≤ n) : b.cap = n ∧ b.buf.length ≤ n := by
  obtain ⟨_, hlt, hb⟩ := send_sent_inv _ _ _ h
  subst hb
  simp only [List.length_append, List.length_singleton]
  exact ⟨hc.1, by omega⟩

theorem close_capped (ch b : Chan) (n : Nat) (h : ch.close = some b)
    (hc : ch.cap = n ∧ ch.buf.length ≤ n) : b.cap = n ∧ b.buf.length ≤ n := by
  unfold Chan.close at h
  split_ifs at h
  simp only [Option.some.injEq] at h
  subst h
  exact hc

theorem recv_capped (ch b : Chan) (ev : Event) (n : Nat) (h : ch.recv = some (ev, b))
    (hc : ch.cap = n ∧ ch.buf.length ≤ n) : b.cap = n ∧ b.buf.length ≤ n := by
  unfold Chan.recv at h
  cases hb : ch.buf with
  | nil =>
    rw [hb] at h
    simp only [] at h
    split_ifs at h
    simp only [Option.some.injEq, Prod.mk.injEq] at h
    rw [← h.2]
    exact hc
  | cons e rest =>
    rw [hb] at h
    simp only [Option.some.injEq, Prod.mk.injEq] at h
    rw [← h.2]
    rw [hb] at hc
    simp only [List.length_cons] at hc
    exact ⟨hc.1, by simp only []; omega⟩

theorem fanout_capped (ev : Event) : ∀ (cs : List Ptr) (mem : Mem) (r : List Ptr × Mem),
    fanout ev cs mem = some r →
    (∀ p, (mem p).send.cap = 32 ∧ (mem p).send.buf.length ≤ 32) →
    ∀ p, (r.2 p).send.cap = 32 ∧ (r.2 p).send.buf.length ≤ 32
  | [], mem, r, h, hm => by
    simp only [fanout, Option.some.injEq] at h
    subst h
    exact hm
  | c :: cs, mem, r, h, hm => by
    rw [fanout] at h
    cases hs : (mem c).send.send ev with
    | panic => rw [hs] at h; simp at h
    | sent ch =>
      rw [hs] at h
      simp only [] at h
      have hm1 := setSend_capped mem c ch hm (send_capped _ _ _ 32 hs (hm c))
      cases hf : fanout ev cs (mem.setSend c ch) with
      | none => rw [hf] at h; simp at h
      | some r1 =>
        rw [hf] at h
        simp only [Option.some.injEq] at h
        subst h
        exact fanout_capped ev cs _ r1 hf hm1
    | full =>
      rw [hs] at h
      simp only [] at h
      cases hcl : (mem c).send.close with
      | none => rw [hcl] at h; simp at h
      | some ch =>
        rw [hcl] at h
        simp only [] at h
        exact fanout_capped ev cs _ r h
          (setSend_capped mem c ch hm (close_capped _ _ 32 hcl (hm c)))

theorem broadcastPresenceUpdate_capped (now : Ptr → Nat) (h : Hub) (mem : Mem)
    (s' : Hub × Mem) (hc : h.Capped mem)
    (hs : h.broadcastPresenceUpdate now mem = .running s' ∨
      h.broadcastPresenceUpdate now mem = .blocked s') : s'.1.Capped s'.2 := by
  unfold Hub.broadcastPresenceUpdate at hs
  simp only [] at hs
  cases hf : fanout ⟨"presence_update", .status (h.clientsStatus now mem)⟩ h.clients mem with
  | none => rw [hf] at hs; simp at hs
  | some r =>
    rw [hf] at hs
    rcases hs with hs | hs
    · simp only [Outcome.running.injEq] at hs
      subst hs
      exact ⟨hc.1, hc.2.1, fanout_capped _ _ _ r hf hc.2.2⟩
    · simp at hs

/-- The part that the register and the unregister case share: the event is put on the
broadcast channel and the presence update is offered. -/
theorem announce_capped (now : Ptr → Nat) (h : Hub) (mem : Mem) (ev : Event)
    (s' : Hub × Mem) (hc : h.Capped mem)
    (hs : (match h.Broadcast ev with
        | .panic => Outcome.panic
        | .full => .blocked (h, mem)
        | .sent b => Hub.broadcastPresenceUpdate now { h with broadcast := b } mem) =
          .running s' ∨
      (match h.Broadcast ev with
        | .panic => Outcome.panic
        | .full => .blocked (h, mem)
        | .sent b => Hub.broadcastPresenceUpdate now { h with broadcast := b } mem) =
          .blocked s') : s'.1.Capped s'.2 := by
  cases hb : h.Broadcast ev with
  | panic => rw [hb] at hs; simp at hs
  | full =>
    rw [hb] at hs
    rcases hs with hs | hs
    · simp at hs
    · simp only [Outcome.blocked.injEq] at hs
      subst hs
      exact hc
  | sent b =>
    rw [hb] at hs
    simp only [] at hs
    have hbc := send_capped _ _ _ 64 hb ⟨hc.1, hc.2.1⟩
    exact broadcastPresenceUpdate_capped now _ mem s' ⟨hbc.1, hbc.2, hc.2.2⟩ hs

theorem Run_capped (now : Ptr → Nat) (h : Hub) (mem : Mem) (sel : Select) (s' : Hub × Mem)
    (hc : h.Capped mem)
    (hs : h.Run now mem sel = .running s' ∨ h.Run now mem sel = .blocked s') :
    s'.1.Capped s'.2 := by
  cases sel with
  | register c =>
    simp only [Hub.Run] at hs
    exact announce_capped now { h with clients := addKey c h.clients } mem _ s' hc hs
  | unregister c =>
    simp only [Hub.Run] at hs
    by_cases hmem : c ∈ h.clients
    · simp only [hmem, if_true] at hs
      cases hcl : (mem c).send.close with
      | none => rw [hcl] at hs; simp at hs
      | some ch =>
        rw [hcl] at hs
        simp only [] at hs
        exact announce_capped now { h with clients := h.clients.erase c } (mem.setSend c ch)
          _ s' ⟨hc.1, hc.2.1, setSend_capped mem c ch hc.2.2 (close_capped _ _ 32 hcl (hc.2.2 c))⟩
          hs
    · simp only [hmem, if_false] at hs
      exact announce_capped now h mem _ s' hc hs
  | broadcast =>
    simp only [Hub.Run] at hs
    cases hr : h.broadcast.recv with
    | none => rw [hr] at hs; simp at hs
    | some eb =>
      rw [hr] at hs
      simp only [] at hs
      have hbc := recv_capped _ _ _ 64 hr ⟨hc.1, hc.2.1⟩
      cases hf : fanout eb.1 h.clients mem with
      | none => rw [hf] at hs; simp at hs
      | some r =>
        rw [hf] at hs
        rcases hs with hs | hs
        · simp only [Outcome.running.injEq] at hs
          subst hs
          exact ⟨hbc.1, hbc.2, fanout_capped _ _ _ r hf hc.2.2⟩
        · simp at hs

theorem writePump_capped (ok : Bool) (cl cl' : Client)
    (hc : cl.send.cap = 32 ∧ cl.send.buf.length ≤ 32)
    (hs : cl.writePump ok = .running cl' ∨ cl.writePump ok = .blocked cl') :
    cl'.send.cap = 32 ∧ cl'.send.buf.length ≤ 32 := by
  cases hb : cl.send.buf with
  | nil =>
    simp only [Client.writePump, hb] at hs
    split_ifs at hs
    all_goals
      rcases hs with hs | hs
      · first
        | (simp only [Outcome.running.injEq] at hs; subst hs; exact hc)
        | simp at hs
      · simp at hs
  | cons e rest =>
    simp only [Client.writePump, hb] at hs
    rw [hb] at hc
    simp only [List.length_cons] at hc
    split_ifs at hs
    all_goals
      rcases hs with hs | hs
      · first
        | (simp only [Outcome.running.injEq] at hs; subst hs; exact ⟨hc.1, by simp only []; omega⟩)
        | simp at hs
      · simp at hs

theorem step_capped (now : Ptr → Nat) (h : Hub) (mem : Mem) (act : Action) (s' : Hub × Mem)
    (hc : h.Capped mem)
    (hs : System.step now h mem act = .running s' ∨ System.step now h mem act = .blocked s') :
    s'.1.Capped s'.2 := by
  cases act with
  | loop sel => exact Run_capped now h mem sel s' hc hs
  | emit ev =>
    simp only [System.step] at hs
    cases hb : h.Broadcast ev with
    | panic => rw [hb] at hs; simp at hs
    | full =>
      rw [hb] at hs
      rcases hs with hs | hs
      · simp at hs
      · simp only [Outcome.blocked.injEq] at hs
        subst hs
        exact hc
    | sent b =>
      rw [hb] at hs
      have hbc := send_capped _ _ _ 64 hb ⟨hc.1, hc.2.1⟩
      rcases hs with hs | hs
      · simp only [Outcome.running.injEq] at hs
        subst hs
        exact ⟨hbc.1, hbc.2, hc.2.2⟩
      · simp at hs
  | write c ok =>
    simp only [System.step] at hs
    cases hw : (mem c).writePump ok with
    | idle => rw [hw] at hs; simp at hs
    | panic => rw [hw] at hs; simp at hs
    | running cl =>
      rw [hw] at hs
      have hcl := writePump_capped ok (mem c) cl (hc.2.2 c) (Or.inl hw)
      rcases hs with hs | hs
      · simp only [Outcome.running.injEq] at hs
        subst hs
        refine ⟨hc.1, hc.2.1, fun p => ?_⟩
        by_cases hp : p = c
        · simp only [hp, if_true]; exact hcl
        · simp only [hp, if_false]; exact hc.2.2 p
      · simp at hs
    | blocked cl =>
      rw [hw] at hs
      have hcl := writePump_capped ok (mem c) cl (hc.2.2 c) (Or.inr hw)
      rcases hs with hs | hs
      · simp at hs
      · simp only [Outcome.blocked.injEq] at hs
        subst hs
        refine ⟨hc.1, hc.2.1, fun p => ?_⟩
        by_cases hp : p = c
        · simp only [hp, if_true]; exact hcl
        · simp only [hp, if_false]; exact hc.2.2 p

theorem system_runs_capped (now : Ptr → Nat) : ∀ (acts : List Action) (s s' : Hub × Mem),
    s.1.Capped s.2 →
    System.runs now acts s = .running s' ∨ System.runs now acts s = .blocked s' →
    s'.1.Capped s'.2
  | [], s, s', hc, hs => by
    simp only [System.runs] at hs
    rcases hs with hs | hs
    · simp only [Outcome.running.injEq] at hs
      subst hs
      exact hc
    · simp at hs
  | act :: acts, s, s', hc, hs => by
    simp only [System.runs] at hs
    cases hstep : System.step now s.1 s.2 act with
    | running s1 =>
      rw [hstep] at hs
      exact system_runs_capped now acts s1 s' (step_capped now s.1 s.2 act s1 hc (Or.inl hstep)) hs
    | blocked s1 =>
      rw [hstep] at hs
      rcases hs with hs | hs
      · simp at hs
      · simp only [Outcome.blocked.injEq] at hs
        subst hs
        exact step_capped now s.1 s.2 act s1 hc (Or.inr hstep)
    | idle => rw [hstep] at hs; simp at hs
    | panic => rw [hstep] at hs; simp at hs

/-! ## Mailbox safety -/

theorem offer_safe (mem : Mem) (ev : Event) (cs : List Ptr) (hnd : cs.Nodup)
    (hop : ∀ c ∈ cs, (mem c).send.closed = false) :
    (cs.filter mem.roomy).Nodup ∧
    (∀ c ∈ cs.filter mem.roomy, ((mem.offer ev cs) c).send.closed = false) ∧
    ∀ p, p ∉ cs → p ∉ cs.filter mem.roomy ∧ mem.offer ev cs p = mem p := by
  refine ⟨hnd.filter _, ?_, ?_⟩
  · intro c hc
    obtain ⟨hcs, hroom⟩ := (mem_filter_roomy mem cs c).mp hc
    rw [offer_room _ _ _ _ hcs hroom]
    exact hop c hcs
  · intro p hp
    exact ⟨fun hf => hp ((mem_filter_roomy mem cs p).mp hf).1, offer_not_mem _ _ _ _ hp⟩

theorem Run_unregister_absent_blocked (now : Ptr → Nat) (h : Hub) (mem : Mem) (c : Ptr)
    (hbo : h.broadcast.closed = false)
    (hfull : ¬ h.broadcast.buf.length < h.broadcast.cap) (hc : c ∉ h.clients) :
    h.Run now mem (.unregister c) = .blocked (h, mem) := by
  simp only [Hub.Run, hc, if_false, Hub.Broadcast, send_full _ _ hbo hfull]

theorem Run_broadcast_idle (now : Ptr → Nat) (h : Hub) (mem : Mem)
    (hbo : h.broadcast.closed = false) (hq : h.broadcast.buf = []) :
    h.Run now mem .broadcast = .idle := by
  simp [Hub.Run, Chan.recv, hq, hbo]

/-- One iteration of the control loop from a safe state, where a connection that registers
is not in the set and has an open mailbox: the iteration does not panic, the state it
leaves is safe, and a connection outside the set that does not register stays outside with
its mailbox as it was. -/
theorem Run_safe (now : Ptr → Nat) (h : Hub) (mem : Mem) (sel : Select) (hs : h.Safe mem)
    (hreg : ∀ c, sel = .register c → c ∉ h.clients ∧ (mem c).send.closed = false) :
    h.Run now mem sel ≠ .panic ∧
    ∀ s', h.Run now mem sel = .running s' ∨ h.Run now mem sel = .blocked s' →
      s'.1.Safe s'.2 ∧
      ∀ p, p ∉ h.clients → sel ≠ .register p →
        p ∉ s'.1.clients ∧ (s'.2 p).send.closed = (mem p).send.closed := by
  obtain ⟨hnd, hbo, hop⟩ := hs
  cases sel with
  | register c =>
    obtain ⟨hc, hco⟩ := hreg c rfl
    have hk : addKey c h.clients = c :: h.clients := addKey_of_not_mem c h.clients hc
    have hndk : (addKey c h.clients).Nodup := nodup_addKey c h.clients hnd
    have hopk : ∀ d ∈ addKey c h.clients, (mem d).send.closed = false := by
      intro d hd
      rcases (mem_addKey c d h.clients).mp hd with hd | hd
      · rw [hd]; exact hco
      · exact hop d hd
    by_cases hroom : h.broadcast.buf.length < h.broadcast.cap
    · have e := Run_register_eq now h mem c hnd hbo hroom hopk
      obtain ⟨h1, h2, h3⟩ := offer_safe mem
        ⟨"presence_update", .status (snapshot now (addKey c h.clients) mem)⟩
        (addKey c h.clients) hndk hopk
      refine ⟨by rw [e]; simp, ?_⟩
      intro s' hs'
      rw [e] at hs'
      rcases hs' with hs' | hs'
      · simp only [Outcome.running.injEq] at hs'
        subst hs'
        refine ⟨⟨h1, rfl, h2⟩, ?_⟩
        intro p hp hne
        have hpk : p ∉ addKey c h.clients := by
          intro hpk
          rcases (mem_addKey c p h.clients).mp hpk with hpk | hpk
          · exact hne (by rw [hpk])
          · exact hp hpk
        exact ⟨(h3 p hpk).1, congrArg (fun cl : Client => cl.send.closed) (h3 p hpk).2⟩
      · simp at hs'
    · have e := Run_register_blocked now h mem c hbo hroom
      refine ⟨by rw [e]; simp, ?_⟩
      intro s' hs'
      rw [e] at hs'
      rcases hs' with hs' | hs'
      · simp at hs'
      · simp only [Outcome.blocked.injEq] at hs'
        subst hs'
        refine ⟨⟨hndk, hbo, hopk⟩, ?_⟩
        intro p hp hne
        refine ⟨?_, rfl⟩
        intro hpk
        rcases (mem_addKey c p h.clients).mp hpk with hpk | hpk
        · exact hne (by rw [hpk])
        · exact hp hpk
  | unregister c =>
    by_cases hc : c ∈ h.clients
    · have hnde : (h.clients.erase c).Nodup := hnd.erase c
      have hce : c ∉ h.clients.erase c := fun hm => ((List.Nodup.mem_erase_iff hnd).mp hm).1 rfl
      have hope : ∀ d ∈ h.clients.erase c,
          ((mem.setSend c ⟨(mem c).send.cap, (mem c).send.buf, true⟩) d).send.closed = false := by
        intro d hd
        have hdc : d ≠ c := fun e => hce (e ▸ hd)
        rw [setSend_of_ne _ _ _ _ hdc]
        exact hop d (List.mem_of_mem_erase hd)
      have hout : ∀ p, p ∉ h.clients →
          ((mem.setSend c ⟨(mem c).send.cap, (mem c).send.buf, true⟩) p).send.closed =
            (mem p).send.closed := by
        intro p hp
        have hpc : p ≠ c := fun e => hp (e ▸ hc)
        rw [setSend_of_ne _ _ _ _ hpc]
      by_cases hroom : h.broadcast.buf.length < h.broadcast.cap
      · have e := Run_unregister_eq now h mem c hnd hbo hroom hop hc
        rw [← filter_roomy_setSend mem c ⟨(mem c).send.cap, (mem c).send.buf, true⟩
          (h.clients.erase c) hce] at e
        obtain ⟨h1, h2, h3⟩ := offer_safe
          (mem.setSend c ⟨(mem c).send.cap, (mem c).send.buf, true⟩)
          ⟨"presence_update", .status (snapshot now (h.clients.erase c) mem)⟩
          (h.clients.erase c) hnde hope
        refine ⟨by rw [e]; simp, ?_⟩
        intro s' hs'
        rw [e] at hs'
        rcases hs' with hs' | hs'
        · simp only [Outcome.running.injEq] at hs'
          subst hs'
          refine ⟨⟨h1, rfl, h2⟩, ?_⟩
          intro p hp _
          have hpe : p ∉ h.clients.erase c := fun hm => hp (List.mem_of_mem_erase hm)
          exact ⟨(h3 p hpe).1,
            (congrArg (fun cl : Client => cl.send.closed) (h3 p hpe).2).trans (hout p hp)⟩
        · simp at hs'
      · have e := Run_unregister_blocked now h mem c hbo hroom (hop c hc) hc
        refine ⟨by rw [e]; simp, ?_⟩
        intro s' hs'
        rw [e] at hs'
        rcases hs' with hs' | hs'
        · simp at hs'
        · simp only [Outcome.blocked.injEq] at hs'
          subst hs'
          refine ⟨⟨hnde, hbo, hope⟩, ?_⟩
          intro p hp _
          exact ⟨fun hm => hp (List.mem_of_mem_erase hm), hout p hp⟩
    · by_cases hroom : h.broadcast.buf.length < h.broadcast.cap
      · have e := Run_unregister_absent_eq now h mem c hnd hbo hroom hop hc
        obtain ⟨h1, h2, h3⟩ := offer_safe mem
          ⟨"presence_update", .status (snapshot now h.clients mem)⟩ h.clients hnd hop
        refine ⟨by rw [e]; simp, ?_⟩
        intro s' hs'
        rw [e] at hs'
        rcases hs' with hs' | hs'
        · simp only [Outcome.running.injEq] at hs'
          subst hs'
          refine ⟨⟨h1, rfl, h2⟩, ?_⟩
          intro p hp _
          exact ⟨(h3 p hp).1, congrArg (fun cl : Client => cl.send.closed) (h3 p hp).2⟩
        · simp at hs'
      · have e := Run_unregister_absent_blocked now h mem c hbo hroom hc
        refine ⟨by rw [e]; simp, ?_⟩
        intro s' hs'
        rw [e] at hs'
        rcases hs' with hs' | hs'
        · simp at hs'
        · simp only [Outcome.blocked.injEq] at hs'
          subst hs'
          exact ⟨⟨hnd, hbo, hop⟩, fun p hp _ => ⟨hp, rfl⟩⟩
  | broadcast =>
    cases hq : h.broadcast.buf with
    | nil =>
      have e := Run_broadcast_idle now h mem hbo hq
      refine ⟨by rw [e]; simp, ?_⟩
      intro s' hs'
      rw [e] at hs'
      simp at hs'
    | cons ev rest =>
      have e := Run_broadcast_eq now h mem ev rest hnd hop hq
      obtain ⟨h1, h2, h3⟩ := offer_safe mem ev h.clients hnd hop
      refine ⟨by rw [e]; simp, ?_⟩
      intro s' hs'
      rw [e] at hs'
      rcases hs' with hs' | hs'
      · simp only [Outcome.running.injEq] at hs'
        subst hs'
        refine ⟨⟨h1, hbo, h2⟩, ?_⟩
        intro p hp _
        exact ⟨(h3 p hp).1, congrArg (fun cl : Client => cl.send.closed) (h3 p hp).2⟩
      · simp at hs'

theorem writePump_closed (ok : Bool) (cl cl' : Client)
    (hs : cl.writePump ok = .running cl' ∨ cl.writePump ok = .blocked cl') :
    cl'.send.closed = cl.send.closed := by
  cases hb : cl.send.buf with
  | nil =>
    simp only [Client.writePump, hb] at hs
    split_ifs at hs
    all_goals
      rcases hs with hs | hs
      · first
        | (simp only [Outcome.running.injEq] at hs; subst hs; rfl)
        | simp at hs
      · simp at hs
  | cons e rest =>
    simp only [Client.writePump, hb] at hs
    split_ifs at hs
    all_goals
      rcases hs with hs | hs
      · first
        | (simp only [Outcome.running.injEq] at hs; subst hs; rfl)
        | simp at hs
      · simp at hs

theorem writePump_ne_panic (ok : Bool) (cl : Client) : cl.writePump ok ≠ .panic := by
  cases hb : cl.send.buf with
  | nil =>
    simp only [Client.writePump, hb]
    split_ifs <;> simp
  | cons e rest =>
    simp only [Client.writePump, hb]
    split_ifs <;> simp

theorem sysRegisters_cons (act : Action) (acts : List Action) :
    sysRegisters (act :: acts) =
      (match act with
        | .loop (.register c) => [c]
        | _ => []) ++ sysRegisters acts := by
  cases act with
  | loop sel => cases sel <;> rfl
  | emit ev => rfl
  | write c ok => rfl

/-- One step of a goroutine from a safe state in which the connections that are still to
register are outside the set with open mailboxes. -/
theorem step_safe (now : Ptr → Nat) (h : Hub) (mem : Mem) (act : Action)
    (acts : List Action) (hs : h.Safe mem) (hnd : (sysRegisters (act :: acts)).Nodup)
    (hfut : ∀ c ∈ sysRegisters (act :: acts), c ∉ h.clients ∧ (mem c).send.closed = false) :
    System.step now h mem act ≠ .panic ∧
    ∀ s', System.step now h mem act = .running s' ∨ System.step now h mem act = .blocked s' →
      s'.1.Safe s'.2 ∧
      ∀ c ∈ sysRegisters acts, c ∉ s'.1.clients ∧ (s'.2 c).send.closed = false := by
  cases act with
  | loop sel =>
    have hreg : ∀ c, sel = .register c → c ∉ h.clients ∧ (mem c).send.closed = false := by
      intro c hc
      subst hc
      exact hfut c (List.mem_cons_self _ _)
    obtain ⟨hnp, hall⟩ := Run_safe now h mem sel hs hreg
    refine ⟨hnp, ?_⟩
    intro s' hs'
    obtain ⟨hsafe, hout⟩ := hall s' hs'
    refine ⟨hsafe, ?_⟩
    intro c hc
    have hcf : c ∈ sysRegisters (.loop sel :: acts) := by
      rw [sysRegisters_cons]
      exact List.mem_append_right _ hc
    have hne : sel ≠ .register c := by
      intro e
      subst e
      exact (List.nodup_cons.mp hnd).1 hc
    obtain ⟨h1, h2⟩ := hout c (hfut c hcf).1 hne
    exact ⟨h1, by rw [h2]; exact (hfut c hcf).2⟩
  | emit ev =>
    simp only [System.step, Hub.Broadcast]
    by_cases hroom : h.broadcast.buf.length < h.broadcast.cap
    · rw [send_room _ _ hs.2.1 hroom]
      refine ⟨by simp, ?_⟩
      intro s' hs'
      rcases hs' with hs' | hs'
      · simp only [Outcome.running.injEq] at hs'
        subst hs'
        exact ⟨⟨hs.1, rfl, hs.2.2⟩, fun c hc => hfut c hc⟩
      · simp at hs'
    · rw [send_full _ _ hs.2.1 hroom]
      refine ⟨by simp, ?_⟩
      intro s' hs'
      rcases hs' with hs' | hs'
      · simp at hs'
      · simp only [Outcome.blocked.injEq] at hs'
        subst hs'
        exact ⟨hs, fun c hc => hfut c hc⟩
  | write c ok =>
    have hnp := writePump_ne_panic ok (mem c)
    simp only [System.step]
    cases hw : (mem c).writePump ok with
    | panic => exact absurd hw hnp
    | idle => exact ⟨by simp, fun s' hs' => by simp at hs'⟩
    | running cl =>
      have hcl := writePump_closed ok (mem c) cl (Or.inl hw)
      have hflag : ∀ p, ((fun p => if p = c then cl else mem p) p).send.closed =
          (mem p).send.closed := by
        intro p
        by_cases hp : p = c
        · simp only [hp, if_true]; exact hcl
        · simp only [hp, if_false]
      refine ⟨by simp, ?_⟩
      intro s' hs'
      rcases hs' with hs' | hs'
      · simp only [Outcome.running.injEq] at hs'
        subst hs'
        exact ⟨⟨hs.1, hs.2.1, fun d hd => (hflag d).trans (hs.2.2 d hd)⟩,
          fun d hd => ⟨(hfut d hd).1, (hflag d).trans (hfut d hd).2⟩⟩
      · simp at hs'
    | blocked cl =>
      have hcl := writePump_closed ok (mem c) cl (Or.inr hw)
      have hflag : ∀ p, ((fun p => if p = c then cl else mem p) p).send.closed =
          (mem p).send.closed := by
        intro p
        by_cases hp : p = c
        · simp only [hp, if_true]; exact hcl
        · simp only [hp, if_false]
      refine ⟨by simp, ?_⟩
      intro s' hs'
      rcases hs' with hs' | hs'
      · simp at hs'
      · simp only [Outcome.blocked.injEq] at hs'
        subst hs'
        exact ⟨⟨hs.1, hs.2.1, fun d hd => (hflag d).trans (hs.2.2 d hd)⟩,
          fun d hd => ⟨(hfut d hd).1, (hflag d).trans (hfut d hd).2⟩⟩

theorem sysRegisters_tail_nodup (act : Action) (acts : List Action)
    (h : (sysRegisters (act :: acts)).Nodup) : (sysRegisters acts).Nodup := by
  rw [sysRegisters_cons] at h
  exact (List.nodup_append.mp h).2.1

/-- No interleaving in which every connection registers at most once panics, and every
state it reaches is safe. -/
theorem system_runs_safe (now : Ptr → Nat) : ∀ (acts : List Action) (s : Hub × Mem),
    s.1.Safe s.2 → (sysRegisters acts).Nodup →
    (∀ c ∈ sysRegisters acts, c ∉ s.1.clients ∧ (s.2 c).send.closed = false) →
    System.runs now acts s ≠ .panic ∧
    ∀ s', System.runs now acts s = .running s' ∨ System.runs now acts s = .blocked s' →
      s'.1.Safe s'.2
  | [], s, hs, _, _ => by
    refine ⟨by simp [System.runs], ?_⟩
    intro s' hs'
    simp only [System.runs] at hs'
    rcases hs' with hs' | hs'
    · simp only [Outcome.running.injEq] at hs'
      subst hs'
      exact hs
    · simp at hs'
  | act :: acts, s, hs, hnd, hfut => by
    obtain ⟨hnp, hall⟩ := step_safe now s.1 s.2 act acts hs hnd hfut
    simp only [System.runs]
    cases hstep : System.step now s.1 s.2 act with
    | panic => exact absurd hstep hnp
    | idle => exact ⟨by simp, fun s' hs' => by simp at hs'⟩
    | blocked s1 =>
      refine ⟨by simp, ?_⟩
      intro s' hs'
      rcases hs' with hs' | hs'
      · simp at hs'
      · simp only [Outcome.blocked.injEq] at hs'
        subst hs'
        exact (hall s1 (Or.inr hstep)).1
    | running s1 =>
      obtain ⟨hsafe, hfut1⟩ := hall s1 (Or.inl hstep)
      exact system_runs_safe now acts s1 hsafe (sysRegisters_tail_nodup act acts hnd) hfut1

/-! ## The presence update of a register or unregister iteration -/

/-- The event that a completed register or unregister iteration offers to every connection
of the mutated set: the `presence_update` whose payload is the snapshot of that set. -/
theorem Run_update_event (now : Ptr → Nat) (h : Hub) (mem : Mem) (sel : Select) (h' : Hub)
    (mem' : Mem) (hnd : h.clients.Nodup) (hsel : sel ≠ .broadcast)
    (hrun : h.Run now mem sel = .running (h', mem')) :
    ∀ d ∈ sel.keys h.clients,
      mem' d = (mem d).offer
        ⟨"presence_update", .status (snapshot now (sel.keys h.clients) mem)⟩ := by
  cases sel with
  | broadcast => exact absurd rfl hsel
  | register c =>
    obtain ⟨hbo, hroom, hop⟩ := Run_register_inv now h mem c _ hnd hrun
    rw [Run_register_eq now h mem c hnd hbo hroom hop] at hrun
    simp only [Outcome.running.injEq, Prod.mk.injEq] at hrun
    intro d hd
    rw [← hrun.2]
    simp only [Select.keys] at hd ⊢
    simp [Mem.offer, hd]
  | unregister c =>
    obtain ⟨hbo, hroom, hop⟩ := Run_unregister_inv now h mem c _ hnd hrun
    by_cases hc : c ∈ h.clients
    · rw [Run_unregister_eq now h mem c hnd hbo hroom hop hc] at hrun
      simp only [Outcome.running.injEq, Prod.mk.injEq] at hrun
      intro d hd
      rw [← hrun.2]
      simp only [Select.keys] at hd ⊢
      have hdc : d ≠ c := fun e => ((List.Nodup.mem_erase_iff hnd).mp (e ▸ hd)).1 rfl
      simp [Mem.offer, hd, setSend_of_ne _ _ _ _ hdc]
    · rw [Run_unregister_absent_eq now h mem c hnd hbo hroom hop hc] at hrun
      simp only [Outcome.running.injEq, Prod.mk.injEq] at hrun
      intro d hd
      rw [← hrun.2]
      simp only [Select.keys, List.erase_of_not_mem hc] at hd ⊢
      simp [Mem.offer, hd]

/-- What the control loop does to the broadcaster and the memory does not depend on the
presence tracker. -/
theorem loopRun_presence_free (now : Ptr → Nat) (w : World) (p : Presence) (sel : Select) :
    (World.loopRun now { w with presence := p } sel).hub = (w.loopRun now sel).hub ∧
    (World.loopRun now { w with presence := p } sel).mem = (w.loopRun now sel).mem := by
  unfold World.loopRun
  cases w.loop with
  | selecting =>
    simp only []
    cases w.hub.Run now w.mem sel <;> exact ⟨rfl, rfl⟩
  | stuck => exact ⟨rfl, rfl⟩
  | crashed => exact ⟨rfl, rfl⟩

/-! ## The reader pump: where the ids of an event come from -/

theorem readFrame_typing (create : List Message → Message → Option (Nat × Nat)) (c : Ptr)
    (payload : List (String × Json)) (w : World) :
    Client.readFrame create c ⟨"typing", payload⟩ w =
      w.Broadcast ⟨"typing", .userId (w.mem c).userID⟩ := by
  simp only [Client.readFrame, if_true]

theorem readFrame_other (create : List Message → Message → Option (Nat × Nat)) (c : Ptr)
    (typ : String) (payload : List (String × Json)) (w : World)
    (h1 : typ ≠ "typing") (h2 : typ ≠ "message") :
    Client.readFrame create c ⟨typ, payload⟩ w = .running w := by
  simp only [Client.readFrame, h1, h2, if_false]

/-- The events a `message` frame can leave on the broadcast channel. -/
theorem readFrame_message_events (create : List Message → Message → Option (Nat × Nat))
    (c : Ptr) (payload : List (String × Json)) (w w' : World)
    (h : Client.readFrame create c ⟨"message", payload⟩ w = .running w' ∨
      Client.readFrame create c ⟨"message", payload⟩ w = .blocked w') :
    w'.hub.broadcast.buf = w.hub.broadcast.buf ∨
    ∃ id typ text imageUrl t,
      w'.hub.broadcast.buf = w.hub.broadcast.buf ++
        [⟨"message", .message id w.hub.roomID (w.mem c).userID typ text imageUrl t⟩] := by
  obtain ⟨_, _, _, hr, hu⟩ := newMessage_fields w.hub.roomID (w.mem c).userID payload
  rw [readFrame_message] at h
  cases hc : create w.creates (Client.newMessage w.hub.roomID (w.mem c).userID payload) with
  | none =>
    rw [hc] at h
    rcases h with h | h
    · simp only [Outcome.running.injEq] at h
      left; rw [← h]
    · simp at h
  | some it =>
    rw [hc] at h
    simp only [] at h
    rcases h with h | h
    · right
      obtain ⟨hbuf, _⟩ := World_Broadcast_running _ _ _ h
      refine ⟨it.1, (Client.newMessage w.hub.roomID (w.mem c).userID payload).type,
        (Client.newMessage w.hub.roomID (w.mem c).userID payload).text,
        (Client.newMessage w.hub.roomID (w.mem c).userID payload).imageUrl, it.2, ?_⟩
      rw [hbuf]
      simp only [Message.event, hr, hu]
    · left
      rw [World_Broadcast_blocked _ _ _ h]

/-! ## The presence tracker: what a call leaves alone -/

theorem filter_ne_eq_self_of_find_none (l : List (Nat × Nat)) (u : Nat)
    (h : l.find? (fun e => e.1 == u) = none) : l.filter (fun e => e.1 != u) = l := by
  rw [List.filter_eq_self]
  intro e he
  have := List.find?_eq_none.mp h e he
  simpa [bne_iff_ne] using this

theorem Offline_of_not_online (p : Presence) (u : Nat) (h : p.IsOnline u = false) :
    p.Offline u = p := by
  rw [IsOnline_eq_find] at h
  have hn : p.online.find? (fun e => e.1 == u) = none := by
    cases hf : p.online.find? (fun e => e.1 == u) with
    | none => rfl
    | some e => rw [hf] at h; simp at h
  unfold Presence.Offline
  rw [filter_ne_eq_self_of_find_none _ _ hn]

theorem Offline_Offline (p : Presence) (u : Nat) : (p.Offline u).Offline u = p.Offline u :=
  Offline_of_not_online _ _ (IsOnline_Offline p u)

/-! ## The check of a one-time code -/

theorem digit_utf8Size (c : Char) (h : c ∈ "0123456789".toList) : c.utf8Size = 1 := by
  have h' : c ∈ ['0', '1', '2', '3', '4', '5', '6', '7', '8', '9'] := h
  simp only [List.mem_cons, List.mem_singleton, List.not_mem_nil, or_false] at h'
  rcases h' with h' | h' | h' | h' | h' | h' | h' | h' | h' | h' <;> subst h' <;> rfl

theorem utf8ByteSize_go_digits : ∀ l : List Char, (∀ c ∈ l, c ∈ "0123456789".toList) →
    String.utf8ByteSize.go l = l.length
  | [], _ => rfl
  | c :: cs, h => by
    rw [String.utf8ByteSize.go,
      utf8ByteSize_go_digits cs (fun d hd => h d (List.mem_cons_of_mem _ hd)),
      digit_utf8Size c (h c (List.mem_cons_self _ _))]
    rfl

theorem utf8ByteSize_digits (code : String) (h : ∀ c ∈ code.toList, c ∈ "0123456789".toList) :
    code.utf8ByteSize = code.length := by
  cases code with
  | mk l => exact utf8ByteSize_go_digits l h

theorem ContainsAny_iff (s chars : String) :
    strings.ContainsAny s chars = true ↔ ∃ c ∈ s.toList, c ∈ chars.toList := by
  simp [strings.ContainsAny, List.any_eq_true]

theorem verifyTOTPCode_iff (secret code : String) :
    verifyTOTPCode secret code = true ↔
      code.utf8ByteSize = 6 ∧ ∃ c ∈ code.toList, c ∈ "0123456789".toList := by
  unfold verifyTOTPCode
  rw [Bool.and_eq_true, ContainsAny_iff, beq_iff_eq]

/-! ## The connection set after an interleaving -/

theorem sysRegisters_eq (acts : List Action) : sysRegisters acts = registers (loopSels acts) := by
  induction acts with
  | nil => rfl
  | cons act acts ih =>
    cases act with
    | loop sel => cases sel <;> simp [sysRegisters, loopSels, registers, ih]
    | emit ev => simp [sysRegisters, loopSels, ih]
    | write c ok => simp [sysRegisters, loopSels, ih]

/-- What one completed loop iteration adds to the accounting of the iterations after
it. -/
theorem accounting_step (now : Ptr → Nat) (h : Hub) (mem : Mem) (sel : Select)
    (rest : List Select) (h1 : Hub) (mem1 : Mem) (hnd : h.clients.Nodup)
    (hbo : h.broadcast.closed = false) (hreg : (registers (sel :: rest)).Nodup)
    (hdis : ∀ c ∈ registers (sel :: rest), c ∉ h.clients)
    (hstep : h.Run now mem sel = .running (h1, mem1)) :
    h1.clients.Nodup ∧ h1.broadcast.closed = false ∧ (registers rest).Nodup ∧
    (∀ x ∈ registers rest, x ∉ h1.clients) ∧
    ∀ (h' : Hub) (B : List Ptr),
      (∀ x, x ∈ h'.clients ↔
        ((x ∈ h1.clients ∧ Select.unregister x ∉ rest) ∨ RegisteredStill rest x) ∧ x ∉ B) →
      (B = [] →
        h'.clients.length + unregistersOfRegistered h1.clients rest =
          h1.clients.length + (registers rest).length) →
      (∀ x, x ∈ h'.clients ↔
        ((x ∈ h.clients ∧ Select.unregister x ∉ sel :: rest) ∨
          RegisteredStill (sel :: rest) x) ∧
        x ∉ (sel.keys h.clients).filter (fun c => !mem.roomy c) ++ B) ∧
      ((sel.keys h.clients).filter (fun c => !mem.roomy c) ++ B = [] →
        h'.clients.length + unregistersOfRegistered h.clients (sel :: rest) =
          h.clients.length + (registers (sel :: rest)).length) := by
  obtain ⟨hcs, hbo1, _, _, _⟩ := Run_running_spec now h mem sel h1 mem1 hnd hbo hstep
  have hnd1 : h1.clients.Nodup := Run_running_nodup now h mem sel h1 mem1 hnd hbo hstep
  have hregrest : (registers rest).Nodup ∧
      ∀ x ∈ registers rest, x ∉ sel.keys h.clients := by
    cases sel with
    | register c =>
      simp only [registers, List.nodup_cons] at hreg
      refine ⟨hreg.2, ?_⟩
      intro x hx hk
      rcases (mem_addKey c x _).mp hk with rfl | hk
      · exact hreg.1 hx
      · exact hdis x (by simp [registers, hx]) hk
    | unregister c =>
      simp only [registers] at hreg hdis
      exact ⟨hreg, fun x hx hk => hdis x hx (List.mem_of_mem_erase hk)⟩
    | broadcast =>
      simp only [registers] at hreg hdis
      exact ⟨hreg, fun x hx hk => hdis x hx hk⟩
  have hdis1 : ∀ x ∈ registers rest, x ∉ h1.clients := by
    intro x hx hm
    rw [hcs] at hm
    exact hregrest.2 x hx (List.mem_of_mem_filter hm)
  refine ⟨hnd1, hbo1, hregrest.1, hdis1, ?_⟩
  intro h' B hiff hcount
  have hK : ∀ x, ((x ∈ h.clients ∧ Select.unregister x ∉ sel :: rest) ∨
        RegisteredStill (sel :: rest) x) ↔
      ((x ∈ sel.keys h.clients ∧ Select.unregister x ∉ rest) ∨
        RegisteredStill rest x) := by
    intro x
    cases sel with
    | register c =>
      rw [registeredStill_cons_register]
      simp only [Select.keys, mem_addKey, List.mem_cons, not_or]
      constructor
      · rintro (⟨hx, _, hu⟩ | ⟨rfl, hu⟩ | hrs)
        · exact Or.inl ⟨Or.inr hx, hu⟩
        · exact Or.inl ⟨Or.inl rfl, hu⟩
        · exact Or.inr hrs
      · rintro (⟨rfl | hx, hu⟩ | hrs)
        · exact Or.inr (Or.inl ⟨rfl, hu⟩)
        · exact Or.inl ⟨hx, by simp, hu⟩
        · exact Or.inr (Or.inr hrs)
    | unregister c =>
      rw [registeredStill_cons_other _ _ _ (by simp)]
      simp only [Select.keys, List.Nodup.mem_erase_iff hnd, List.mem_cons, not_or,
        Select.unregister.injEq]
      constructor
      · rintro (⟨hx, hxc, hu⟩ | hrs)
        · exact Or.inl ⟨⟨hxc, hx⟩, hu⟩
        · exact Or.inr hrs
      · rintro (⟨⟨hxc, hx⟩, hu⟩ | hrs)
        · exact Or.inl ⟨hx, hxc, hu⟩
        · exact Or.inr hrs
    | broadcast =>
      rw [registeredStill_cons_other _ _ _ (by simp)]
      simp only [Select.keys, List.mem_cons, not_or]
      constructor
      · rintro (⟨hx, _, hu⟩ | hrs)
        · exact Or.inl ⟨hx, hu⟩
        · exact Or.inr hrs
      · rintro (⟨hx, hu⟩ | hrs)
        · exact Or.inl ⟨hx, by simp, hu⟩
        · exact Or.inr hrs
  refine ⟨?_, ?_⟩
  · intro x
    rw [hiff x, hK x, hcs]
    simp only [List.mem_append, List.mem_filter, not_or, Bool.not_eq_true',
      Bool.not_eq_eq_eq_not, Bool.not_true]
    constructor
    · rintro ⟨(⟨⟨hk, hr⟩, hu⟩ | hrs), hnb⟩
      · exact ⟨Or.inl ⟨hk, hu⟩, fun hh => by rw [hr] at hh; exact Bool.noConfusion hh.2, hnb⟩
      · exact ⟨Or.inr hrs,
          fun hh => hregrest.2 x (registeredStill_mem_registers x rest hrs) hh.1, hnb⟩
    · rintro ⟨(⟨hk, hu⟩ | hrs), hnd1, hnb⟩
      · refine ⟨Or.inl ⟨⟨hk, ?_⟩, hu⟩, hnb⟩
        cases hr : mem.roomy x with
        | true => rfl
        | false => exact absurd ⟨hk, hr⟩ hnd1
      · exact ⟨Or.inr hrs, hnb⟩
  · intro hempty
    obtain ⟨hd0, hbp0⟩ := List.append_eq_nil.mp hempty
    have hall : (sel.keys h.clients).filter mem.roomy = sel.keys h.clients := by
      apply List.filter_eq_self.mpr
      intro x hx
      cases hr : mem.roomy x with
      | true => rfl
      | false =>
        have : x ∈ (sel.keys h.clients).filter (fun c => !mem.roomy c) := by
          simp [List.mem_filter, hx, hr]
        rw [hd0] at this
        simp at this
    have hc := hcount hbp0
    rw [hcs, hall] at hc
    cases sel with
    | register c =>
      have hcn : c ∉ h.clients := hdis c (by simp [registers])
      simp only [Select.keys, addKey_of_not_mem c _ hcn, List.length_cons] at hc
      simp only [unregistersOfRegistered, registers, List.length_cons,
        addKey_of_not_mem c _ hcn]
      omega
    | unregister c =>
      simp only [Select.keys] at hc
      simp only [unregistersOfRegistered, registers]
      by_cases hcm : c ∈ h.clients
      · have hl := List.length_erase_of_mem hcm
        have hpos : 0 < h.clients.length := List.length_pos_of_mem hcm
        rw [if_pos hcm]
        omega
      · rw [List.erase_of_not_mem hcm] at hc
        rw [if_neg hcm, List.erase_of_not_mem hcm]
        omega
    | broadcast =>
      simp only [Select.keys] at hc
      simp only [unregistersOfRegistered, registers]
      exact hc

/-- A step that is no loop iteration leaves the broadcast channel open. -/
theorem step_foreign_open (now : Ptr → Nat) (h : Hub) (mem : Mem) (act : Action)
    (s' : Hub × Mem) (hact : ∀ sel, act ≠ .loop sel) (hbo : h.broadcast.closed = false)
    (hs : System.step now h mem act = .running s') : s'.1.broadcast.closed = false := by
  cases act with
  | loop sel => exact absurd rfl (hact sel)
  | emit ev =>
    simp only [System.step] at hs
    cases hb : h.Broadcast ev with
    | panic => rw [hb] at hs; simp at hs
    | full => rw [hb] at hs; simp at hs
    | sent b =>
      rw [hb] at hs
      simp only [Outcome.running.injEq] at hs
      obtain ⟨_, _, hbeq⟩ := send_sent_inv _ _ _ hb
      rw [← hs, hbeq]
  | write c ok =>
    simp only [System.step] at hs
    cases hw : (mem c).writePump ok with
    | panic => rw [hw] at hs; simp at hs
    | idle => rw [hw] at hs; simp at hs
    | blocked cl => rw [hw] at hs; simp at hs
    | running cl =>
      rw [hw] at hs
      simp only [Outcome.running.injEq] at hs
      rw [← hs]
      exact hbo

theorem system_backpressured_cons (now : Ptr → Nat) (act : Action) (acts : List Action)
    (h : Hub) (mem : Mem) (s' : Hub × Mem)
    (hs : System.step now h mem act = .running s') :
    System.backpressured now (act :: acts) (h, mem) =
      (match act with
        | .loop sel => (sel.keys h.clients).filter (fun c => !mem.roomy c)
        | _ => []) ++ System.backpressured now acts s' := by
  cases act <;> simp only [System.backpressured, hs]

/-- The accounting of the connection set along an interleaving, from any state. -/
theorem system_accounting (now : Ptr → Nat) (acts : List Action) :
    ∀ (h : Hub) (mem : Mem) (h' : Hub) (mem' : Mem), h.clients.Nodup →
      h.broadcast.closed = false → (registers (loopSels acts)).Nodup →
      (∀ c ∈ registers (loopSels acts), c ∉ h.clients) →
      System.runs now acts (h, mem) = .running (h', mem') →
      h'.clients.Nodup ∧
      (∀ x, x ∈ h'.clients ↔
        ((x ∈ h.clients ∧ Select.unregister x ∉ loopSels acts) ∨
          RegisteredStill (loopSels acts) x) ∧
          x ∉ System.backpressured now acts (h, mem)) ∧
      (System.backpressured now acts (h, mem) = [] →
        h'.clients.length + unregistersOfRegistered h.clients (loopSels acts) =
          h.clients.length + (registers (loopSels acts)).length) := by
  induction acts with
  | nil =>
    intro h mem h' mem' hnd _ _ _ hrun
    simp only [System.runs, Outcome.running.injEq, Prod.mk.injEq] at hrun
    obtain ⟨rfl, rfl⟩ := hrun
    refine ⟨hnd, ?_, ?_⟩
    · intro x
      constructor
      · intro hx
        exact ⟨Or.inl ⟨hx, by simp [loopSels]⟩, by simp [System.backpressured]⟩
      · rintro ⟨(⟨hx, _⟩ | ⟨pre, post, heq, _⟩), _⟩
        · exact hx
        · simp [loopSels] at heq
    · intro _
      simp [unregistersOfRegistered, registers, loopSels]
  | cons act rest ih =>
    intro h mem h' mem' hnd hbo hreg hdis hrun
    obtain ⟨h1, mem1, hstep, hrest⟩ := system_runs_cons_inv now act rest h mem _ hrun
    have hbp := system_backpressured_cons now act rest h mem _ hstep
    cases act with
    | loop sel =>
      have hstep1 : h.Run now mem sel = .running (h1, mem1) := hstep
      obtain ⟨hnd1, hbo1, hreg1, hdis1, hcomb⟩ := accounting_step now h mem sel
        (loopSels rest) h1 mem1 hnd hbo hreg hdis hstep1
      obtain ⟨hnd', hiff, hcount⟩ := ih h1 mem1 h' mem' hnd1 hbo1 hreg1 hdis1 hrest
      obtain ⟨g1, g2⟩ := hcomb h' _ hiff hcount
      rw [hbp]
      exact ⟨hnd', g1, g2⟩
    | emit ev =>
      have hcl : h1.clients = h.clients :=
        step_foreign_clients now h mem (.emit ev) (h1, mem1)
          (fun sel e => Action.noConfusion e) (Or.inl hstep)
      have hbo1 : h1.broadcast.closed = false :=
        step_foreign_open now h mem (.emit ev) (h1, mem1)
          (fun sel e => Action.noConfusion e) hbo hstep
      have hl : loopSels (Action.emit ev :: rest) = loopSels rest := rfl
      rw [hl] at hreg hdis ⊢
      obtain ⟨hnd', hiff, hcount⟩ := ih h1 mem1 h' mem' (hcl ▸ hnd) hbo1 hreg
        (fun c hc => hcl ▸ hdis c hc) hrest
      rw [hbp]
      simp only [List.nil_append]
      rw [hcl] at hiff hcount
      exact ⟨hnd', hiff, hcount⟩
    | write c ok =>
      have hcl : h1.clients = h.clients :=
        step_foreign_clients now h mem (.write c ok) (h1, mem1)
          (fun sel e => Action.noConfusion e) (Or.inl hstep)
      have hbo1 : h1.broadcast.closed = false :=
        step_foreign_open now h mem (.write c ok) (h1, mem1)
          (fun sel e => Action.noConfusion e) hbo hstep
      have hl : loopSels (Action.write c ok :: rest) = loopSels rest := rfl
      rw [hl] at hreg hdis ⊢
      obtain ⟨hnd', hiff, hcount⟩ := ih h1 mem1 h' mem' (hcl ▸ hnd) hbo1 hreg
        (fun c hc => hcl ▸ hdis c hc) hrest
      rw [hbp]
      simp only [List.nil_append]
      rw [hcl] at hiff hcount
      exact ⟨hnd', hiff, hcount⟩

/-! ## The registry under any interleaving of lookups -/

theorem HubCall_step_keys_mono (c : HubCall) (r : HubHeap) :
    ∀ k ∈ r.keys, k ∈ (c.step r).2.keys := by
  intro k hk
  cases c with
  | lookup j =>
    simp only [HubCall.step]
    split <;> exact hk
  | returned p => exact hk
  | create j =>
    simp only [HubCall.step, HubHeap.keys, List.map_cons, List.mem_cons]
    by_cases hkj : k = j
    · exact Or.inl hkj
    · right
      obtain ⟨e, he, hek⟩ := List.mem_map.mp hk
      refine List.mem_map.mpr ⟨e, List.mem_filter.mpr ⟨he, ?_⟩, hek⟩
      simp only [bne_iff_ne, ne_eq]
      rw [hek]
      exact hkj

theorem HubCall_step_keys_nodup (c : HubCall) (r : HubHeap) (h : r.keys.Nodup) :
    (c.step r).2.keys.Nodup := by
  cases c with
  | lookup j =>
    simp only [HubCall.step]
    split <;> exact h
  | returned p => exact h
  | create j =>
    simp only [HubCall.step, HubHeap.keys, List.map_cons, List.nodup_cons]
    refine ⟨?_, (keys_filter_sublist r.hubs j).nodup h⟩
    intro hmem
    obtain ⟨x, hx, hxu⟩ := List.mem_map.mp hmem
    have := (List.mem_filter.mp hx).2
    simp at this
    exact this hxu

theorem HubCall_step_keys_new (c : HubCall) (r : HubHeap) :
    ∀ k ∈ (c.step r).2.keys, k ∈ r.keys ∨ c = .create k := by
  intro k hk
  cases c with
  | lookup j =>
    simp only [HubCall.step] at hk
    split at hk <;> exact Or.inl hk
  | returned p => exact Or.inl hk
  | create j =>
    simp only [HubCall.step, HubHeap.keys, List.map_cons, List.mem_cons] at hk
    rcases hk with hk | hk
    · exact Or.inr (by rw [hk])
    · exact Or.inl ((keys_filter_sublist r.hubs j).subset hk)

/-- Only the write of a call that found no entry for `k` changes the entry of `k`. -/
theorem HubCall_step_entry (c : HubCall) (r : HubHeap) (k : Nat) (hc : c ≠ .create k) :
    (c.step r).2.hubs.find? (fun e => e.1 == k) = r.hubs.find? (fun e => e.1 == k) := by
  cases c with
  | lookup j =>
    simp only [HubCall.step]
    split <;> rfl
  | returned p => rfl
  | create j =>
    have hjk : j ≠ k := fun e => hc (by rw [e])
    have hkj : ¬ k = j := fun e => hjk e.symm
    simp only [HubCall.step]
    rw [List.find?_cons_of_neg _ (by simpa using hjk), find_filter_ne, if_neg hkj]

theorem find_none_not_mem_keys (r : HubHeap) (k : Nat)
    (h : r.hubs.find? (fun e => e.1 == k) = none) : k ∉ r.keys := by
  intro hk
  obtain ⟨e, he, hek⟩ := List.mem_map.mp hk
  have := List.find?_eq_none.mp h e he
  simp [hek] at this

theorem find_some_mem_keys (r : HubHeap) (k : Nat) (e : Nat × HubPtr)
    (h : r.hubs.find? (fun e => e.1 == k) = some e) : k ∈ r.keys := by
  have h1 := List.find?_some h
  have h2 := List.mem_of_find?_eq_some h
  exact List.mem_map.mpr ⟨e, h2, by simpa using h1⟩

theorem callFor_mono (r r1 : HubHeap) (k : Nat) (c : HubCall)
    (hmono : ∀ x ∈ r.keys, x ∈ r1.keys) (h : callFor r k c) : callFor r1 k c := by
  rcases h with h | h | ⟨p, hp, hk⟩
  · exact Or.inl h
  · exact Or.inr (Or.inl h)
  · exact Or.inr (Or.inr ⟨p, hp, hmono k hk⟩)

theorem callFor_step (r : HubHeap) (k : Nat) (c : HubCall) (h : callFor r k c) :
    callFor (c.step r).2 k (c.step r).1 := by
  rcases h with h | h | ⟨p, hp, hk⟩
  · subst h
    simp only [HubCall.step]
    cases hf : r.hubs.find? (fun e => e.1 == k) with
    | none => exact Or.inr (Or.inl rfl)
    | some e => exact Or.inr (Or.inr ⟨e.2, rfl, find_some_mem_keys r k e hf⟩)
  · subst h
    refine Or.inr (Or.inr ⟨r.objects.length, rfl, ?_⟩)
    simp [HubCall.step, HubHeap.keys]
  · subst hp
    exact Or.inr (Or.inr ⟨p, rfl, hk⟩)

theorem pool_step_inv (ids : Nat → Nat) (s : HubPool) (i : Nat)
    (hinv : ∀ j, callFor s.registry (ids j) (s.calls j)) :
    ∀ j, callFor (s.step i).registry (ids j) ((s.step i).calls j) := by
  intro j
  by_cases hj : j = i
  · subst hj
    simp only [HubPool.step, if_true]
    exact callFor_step _ _ _ (hinv j)
  · simp only [HubPool.step, hj, if_false]
    exact callFor_mono _ _ _ _ (HubCall_step_keys_mono _ _) (hinv j)

/-- The registry after any interleaving of the steps of any number of calls. -/
theorem pool_run_spec (ids : Nat → Nat) : ∀ (sched : List Nat) (s : HubPool),
    (∀ j, callFor s.registry (ids j) (s.calls j)) → s.registry.keys.Nodup →
    (∀ j, callFor (HubPool.run sched s).registry (ids j) ((HubPool.run sched s).calls j)) ∧
    (HubPool.run sched s).registry.keys.Nodup ∧
    (∀ k ∈ s.registry.keys, k ∈ (HubPool.run sched s).registry.keys) ∧
    (∀ k ∈ (HubPool.run sched s).registry.keys, k ∈ s.registry.keys ∨ k ∈ sched.map ids)
  | [], s, hinv, hnd => ⟨hinv, hnd, fun _ hk => hk, fun _ hk => Or.inl hk⟩
  | i :: sched, s, hinv, hnd => by
    obtain ⟨h1, h2, h3, h4⟩ := pool_run_spec ids sched (s.step i) (pool_step_inv ids s i hinv)
      (HubCall_step_keys_nodup _ _ hnd)
    refine ⟨h1, h2, fun k hk => h3 k (HubCall_step_keys_mono _ _ k hk), ?_⟩
    intro k hk
    rcases h4 k hk with h | h
    · rcases HubCall_step_keys_new (s.calls i) s.registry k h with h | h
      · exact Or.inl h
      · right
        have hki : ids i = k := by
          rcases hinv i with hc | hc | ⟨p, hp, _⟩
          · rw [hc] at h; exact HubCall.noConfusion h
          · rw [hc] at h
            simpa using h
          · rw [hp] at h; exact HubCall.noConfusion h
        simp only [List.map_cons, List.mem_cons]
        exact Or.inl hki.symm
    · right
      simp only [List.map_cons, List.mem_cons]
      exact Or.inr h

theorem pool_start_inv (ids : Nat → Nat) (r : HubHeap) :
    ∀ j, callFor (HubPool.start ids r).registry (ids j) ((HubPool.start ids r).calls j) :=
  fun _ => Or.inl rfl

/-- A call that runs its two steps without a step of another goroutine in between, when no
call is between its lookup and its write: no call is left there, the room ids keep their
entry, and every entry is as it was. -/
theorem pool_step_twice (s : HubPool) (i : Nat) (hno : ∀ j k, s.calls j ≠ .create k) :
    (∀ j k, ((s.step i).step i).calls j ≠ .create k) ∧
    (∀ k ∈ s.registry.keys, k ∈ ((s.step i).step i).registry.keys) ∧
    (∀ k ∈ s.registry.keys,
      ((s.step i).step i).registry.hubs.find? (fun e => e.1 == k) =
        s.registry.hubs.find? (fun e => e.1 == k)) := by
  have hmono : ∀ k ∈ s.registry.keys, k ∈ ((s.step i).step i).registry.keys := fun k hk =>
    HubCall_step_keys_mono _ _ k (HubCall_step_keys_mono _ _ k hk)
  have hcall1 : (s.step i).calls i = ((s.calls i).step s.registry).1 := by
    simp [HubPool.step]
  have hreg1 : (s.step i).registry = ((s.calls i).step s.registry).2 := rfl
  have hcall2 : ∀ j, ((s.step i).step i).calls j =
      if j = i then (((s.step i).calls i).step (s.step i).registry).1 else s.calls j := by
    intro j
    by_cases hj : j = i
    · simp [HubPool.step, hj]
    · simp [HubPool.step, hj]
  have hreg2 : ((s.step i).step i).registry =
      (((s.step i).calls i).step (s.step i).registry).2 := rfl
  cases hc : s.calls i with
  | create k0 => exact absurd hc (hno i k0)
  | returned p =>
    rw [hc] at hcall1
    have e1 : (s.step i).calls i = .returned p := hcall1
    have r1 : (s.step i).registry = s.registry := by rw [hreg1, hc]; rfl
    refine ⟨?_, hmono, ?_⟩
    · intro j k
      rw [hcall2 j]
      by_cases hj : j = i
      · simp [hj, e1, HubCall.step]
      · simp only [hj, if_false]
        exact hno j k
    · intro k _
      rw [hreg2, e1, r1]
      rfl
  | lookup k0 =>
    cases hf : s.registry.hubs.find? (fun e => e.1 == k0) with
    | some e =>
      have e1 : (s.step i).calls i = .returned e.2 := by
        rw [hcall1, hc]
        simp only [HubCall.step, hf]
      have r1 : (s.step i).registry = s.registry := by
        rw [hreg1, hc]
        simp only [HubCall.step, hf]
      refine ⟨?_, hmono, ?_⟩
      · intro j k
        rw [hcall2 j]
        by_cases hj : j = i
        · simp [hj, e1, HubCall.step]
        · simp only [hj, if_false]
          exact hno j k
      · intro k _
        rw [hreg2, e1, r1]
        rfl
    | none =>
      have e1 : (s.step i).calls i = .create k0 := by
        rw [hcall1, hc]
        simp only [HubCall.step, hf]
      have r1 : (s.step i).registry = s.registry := by
        rw [hreg1, hc]
        simp only [HubCall.step, hf]
      refine ⟨?_, hmono, ?_⟩
      · intro j k
        rw [hcall2 j]
        by_cases hj : j = i
        · simp [hj, e1, HubCall.step]
        · simp only [hj, if_false]
          exact hno j k
      · intro k hk
        rw [hreg2, e1, r1]
        apply HubCall_step_entry
        intro e
        have hk0 : k0 = k := by simpa using e
        exact find_none_not_mem_keys s.registry k0 hf (hk0 ▸ hk)

/-- Calls that do not overlap never replace an entry. -/
theorem pool_oneByOne (is : List Nat) : ∀ (s : HubPool), (∀ j k, s.calls j ≠ .create k) →
    ∀ k ∈ s.registry.keys,
      (HubPool.run (oneByOne is) s).registry.hubs.find? (fun e => e.1 == k) =
        s.registry.hubs.find? (fun e => e.1 == k) := by
  induction is with
  | nil => intro s _ k _; rfl
  | cons i is ih =>
    intro s hno k hk
    obtain ⟨h1, h2, h3⟩ := pool_step_twice s i hno
    show (HubPool.run (oneByOne is) ((s.step i).step i)).registry.hubs.find? _ = _
    rw [ih _ h1 k (h2 k hk), h3 k hk]

/-! ## A message frame on a full broadcast channel -/

/-- A `message` frame whose record is stored while the broadcast channel is full: the
record is stored and the reader waits in the send. -/
theorem readFrame_message_full (create : List Message → Message → Option (Nat × Nat))
    (c : Ptr) (payload : List (String × Json)) (w : World) (id t : Nat)
    (hc : create w.creates (Client.newMessage w.hub.roomID (w.mem c).userID payload) =
      some (id, t))
    (hbo : w.hub.broadcast.closed = false)
    (hfull : ¬ w.hub.broadcast.buf.length < w.hub.broadcast.cap) :
    Client.readFrame create c ⟨"message", payload⟩ w =
      .blocked ⟨w.hub, w.mem, w.presence,
        w.creates ++ [Client.newMessage w.hub.roomID (w.mem c).userID payload], w.loop⟩ := by
  rw [readFrame_message, hc]
  simp only [World.Broadcast, Hub.Broadcast]
  rw [send_full _ _ hbo hfull]

theorem readPump_frame_blocked (now : Ptr → Nat)
    (create : List Message → Message → Option (Nat × Nat)) (c : Ptr) (incoming : wsIncoming)
    (reads : List ReadJSON) (w w' : World)
    (h : Client.readFrame create c incoming w = .blocked w') :
    Client.readPump now create c (.frame incoming :: reads) w = .blocked w' := by
  simp only [Client.readPump, h]

theorem readPump_nil (now : Ptr → Nat)
    (create : List Message → Message → Option (Nat × Nat)) (c : Ptr) (w : World) :
    Client.readPump now create c [] w = .running w := by
  simp only [Client.readPump]

/-- A control loop that waits for ever takes no case of its `select`. -/
theorem loopRun_stuck (now : Ptr → Nat) (w : World) (sel : Select) (h : w.loop = .stuck) :
    w.loopRun now sel = w := by
  simp only [World.loopRun, h]

/-- Once a loop that is at its `select` has taken an event from the full broadcast
channel, the send of a waiting goroutine completes. -/
theorem Broadcast_after_loop (now : Ptr → Nat) (w : World) (ev : Event)
    (hsel : w.loop = .selecting) (hwf : w.hub.WF w.mem)
    (hfull : w.hub.broadcast.buf.length = w.hub.broadcast.cap) :
    ∃ w2, World.Broadcast (w.loopRun now .broadcast) ev = .running w2 ∧
      w2.hub.broadcast.buf = w.hub.broadcast.buf.tail ++ [ev] ∧ w2.creates = w.creates := by
  obtain ⟨hnd, hbo, hcap, hcl⟩ := hwf
  cases hq : w.hub.broadcast.buf with
  | nil =>
    rw [hq, hcap] at hfull
    simp at hfull
  | cons e rest =>
    have hrun := Run_broadcast_eq now w.hub w.mem e rest hnd (fun d hd => (hcl d hd).1) hq
    have hl : w.loopRun now .broadcast =
        ⟨{ w.hub with broadcast := { w.hub.broadcast with buf := rest },
                      clients := w.hub.clients.filter w.mem.roomy },
          w.mem.offer e w.hub.clients, w.presence, w.creates, w.loop⟩ := by
      simp only [World.loopRun, hsel, hrun]
    rw [hl]
    have hroom : rest.length < w.hub.broadcast.cap := by
      rw [← hfull, hq]
      simp
    refine ⟨_, World_Broadcast_room _ ev hbo hroom, ?_, rfl⟩
    simp

/-! ## The record of a message frame and of a REST request -/

/-- C1. Processing one broadcast(event) transition on a state the program builds, with
`ev` the event received from the broadcast channel: the iteration completes; every
connection of the set whose mailbox holds fewer than 32 events stays in the set and gets
exactly `ev` appended to its open mailbox; every connection of the set whose mailbox
holds 32 events is removed from the set and its mailbox is closed with the same content;
no connection is added, and mailboxes outside the set are not touched. -/
theorem broadcast_delivers_once_or_drops (now : Ptr → Nat) (h : Hub) (mem : Mem)
    (ev : Event) (rest : List Event) (hwf : h.WF mem)
    (hq : h.broadcast.buf = ev :: rest) :
    ∃ h' mem', h.Run now mem .broadcast = .running (h', mem') ∧
      (∀ c ∈ h.clients, (mem c).send.buf.length < 32 →
        c ∈ h'.clients ∧ (mem' c).send.buf = (mem c).send.buf ++ [ev] ∧
          (mem' c).send.closed = false) ∧
      (∀ c ∈ h.clients, 32 ≤ (mem c).send.buf.length →
        c ∉ h'.clients ∧ (mem' c).send.buf = (mem c).send.buf ∧
          (mem' c).send.closed = true) ∧
      (∀ c, c ∈ h'.clients → c ∈ h.clients) ∧
      (∀ c, c ∉ h.clients → mem' c = mem c) := by
  obtain ⟨hnd, _, _, hcl⟩ := hwf
  have hop : ∀ c ∈ h.clients, (mem c).send.closed = false := fun c hc => (hcl c hc).1
  refine ⟨_, _, Run_broadcast_eq now h mem ev rest hnd hop hq, ?_, ?_, ?_, ?_⟩
  · intro c hc hlen
    have hroom : (mem c).send.buf.length < (mem c).send.cap := by
      rw [(hcl c hc).2]; exact hlen
    refine ⟨(mem_filter_roomy mem _ c).mpr ⟨hc, hroom⟩, ?_, ?_⟩
    · rw [offer_room mem ev _ c hc hroom]
    · rw [offer_room mem ev _ c hc hroom]; exact hop c hc
  · intro c hc hlen
    have hfull : ¬ (mem c).send.buf.length < (mem c).send.cap := by
      rw [(hcl c hc).2]; omega
    refine ⟨fun hmem => hfull ((mem_filter_roomy mem _ c).mp hmem).2, ?_, ?_⟩
    · rw [offer_full mem ev _ c hc hfull]
    · rw [offer_full mem ev _ c hc hfull]
  · intro c hc
    exact ((mem_filter_roomy mem _ c).mp hc).1
  · intro c hc
    exact offer_not_mem mem ev _ c hc

/-- C1 at an example: the connection at address 0 holds 32 events and the one at address 1
none; after the broadcast of one event the first is out of the set and the second holds
that event. -/
theorem broadcast_delivers_once_or_drops_witness :
    (exHubOf [0, 1] [exEvent]).WF (exMemFilled 32) ∧
    ∃ h' mem', (exHubOf [0, 1] [exEvent]).Run exNow (exMemFilled 32) .broadcast =
        .running (h', mem') ∧
      1 ∈ h'.clients ∧ (mem' 1).send.buf = [exEvent] ∧
      0 ∉ h'.clients ∧ (mem' 0).send.closed = true ∧ (mem' 0).send.buf.length = 32 := by
  obtain ⟨h', mem', hrun, hroom, hfull, _, _⟩ :=
    broadcast_delivers_once_or_drops exNow (exHubOf [0, 1] [exEvent]) (exMemFilled 32)
      exEvent [] (by decide) rfl
  have h1 := hroom 1 (by decide) (by decide)
  have h0 := hfull 0 (by decide) (by decide)
  exact ⟨by decide, h', mem', hrun, h1.1, h1.2.1, h0.1, h0.2.2, by rw [h0.2.1]; decide⟩

/-- C2 (what the code does). A connection `c` with a new mailbox registers while the
broadcast channel is empty and every registered connection has two free slots: the register
iteration and the broadcast iteration that follows complete, and the mailbox of `c` then
holds `presence_update` first and `presence_join` (user id of `c`) second; every connection
that was already registered has gained the same two events in the same order. -/
theorem register_update_precedes_join (now : Ptr → Nat) (h : Hub) (mem : Mem) (c : Ptr)
    (hwf : h.WF mem) (hc : c ∉ h.clients) (hfresh : (mem c).send = Chan.make 32)
    (hq : h.broadcast.buf = [])
    (hroom : ∀ d ∈ h.clients, (mem d).send.buf.length + 2 ≤ 32) :
    ∃ h' mem', Hub.runs now [.register c, .broadcast] (h, mem) = .running (h', mem') ∧
      (mem' c).send.buf =
        [⟨"presence_update", .status (snapshot now (c :: h.clients) mem)⟩,
         ⟨"presence_join", .userId (mem c).userID⟩] ∧
      ∀ d ∈ h.clients, (mem' d).send.buf = (mem d).send.buf ++
        [⟨"presence_update", .status (snapshot now (c :: h.clients) mem)⟩,
         ⟨"presence_join", .userId (mem c).userID⟩] := by
  obtain ⟨hnd, hbo, hcap, hcl⟩ := hwf
  have hks : addKey c h.clients = c :: h.clients := addKey_of_not_mem c _ hc
  have hnd1 : (c :: h.clients).Nodup := List.nodup_cons.mpr ⟨hc, hnd⟩
  have hop : ∀ d ∈ c :: h.clients, (mem d).send.closed = false := by
    intro d hd
    rcases List.mem_cons.mp hd with rfl | hd
    · rw [hfresh]; rfl
    · exact (hcl d hd).1
  have hroom' : ∀ d ∈ c :: h.clients, (mem d).send.buf.length + 2 ≤ (mem d).send.cap := by
    intro d hd
    rcases List.mem_cons.mp hd with rfl | hd
    · rw [hfresh]; simp [Chan.make]
    · rw [(hcl d hd).2]; exact hroom d hd
  have hbroom : h.broadcast.buf.length < h.broadcast.cap := by rw [hq, hcap]; simp
  have e1 := Run_register_eq now h mem c hnd hbo hbroom (by rw [hks]; exact hop)
  rw [hks, hq, List.nil_append] at e1
  obtain ⟨h', mem', e2, _, _, hbuf, _⟩ := offer_then_broadcast now h.roomID h.broadcast
    (c :: h.clients) mem
    ⟨"presence_update", .status (snapshot now (c :: h.clients) mem)⟩
    ⟨"presence_join", .userId (mem c).userID⟩ hnd1 hop hroom'
  refine ⟨h', mem', ?_, ?_, ?_⟩
  · rw [runs_cons now _ _ h mem _ e1, runs_cons now _ _ _ _ _ e2, runs_nil]
  · have := (hbuf c (List.mem_cons_self _ _)).1
    rw [this, hfresh]; simp [Chan.make]
  · intro d hd
    exact (hbuf d (List.mem_cons_of_mem _ hd)).1

/-- C2 at an example: the connection at address 1 (user 101) registers to room 7, where
the connection at address 0 (user 100) is registered; both mailboxes then hold
`presence_update` before `presence_join`. -/
theorem register_update_precedes_join_witness :
    ∃ h' mem', Hub.runs exNow [.register 1, .broadcast] (exHubOf [0] [], exMem) =
        .running (h', mem') ∧
      (mem' 1).send.buf =
        [⟨"presence_update", .status [(100, ⟨true, 0⟩), (101, ⟨true, 0⟩)]⟩,
         ⟨"presence_join", .userId 101⟩] ∧
      ∀ d ∈ [0], (mem' d).send.buf = (exMem d).send.buf ++
        [⟨"presence_update", .status [(100, ⟨true, 0⟩), (101, ⟨true, 0⟩)]⟩,
         ⟨"presence_join", .userId 101⟩] :=
  register_update_precedes_join exNow (exHubOf [0] []) exMem 1 (by decide) (by decide) rfl rfl
    (by decide)

/-- C3 (amended). Connection `b` registers to a room in which `a` is registered, the
broadcast channel is empty and every mailbox holds at most 30 events: the register
iteration and the broadcast iteration that delivers its queued event complete, `a` and `b`
are both in the set afterwards, each has gained exactly two events, one `presence_update`
and one `presence_join` with the user id of `b`, and the payload of the `presence_update`
has an online entry for the user of `a` and one for the user of `b`. -/
theorem register_second_connection (now : Ptr → Nat) (h : Hub) (mem : Mem) (a b : Ptr)
    (hwf : h.WF mem) (ha : a ∈ h.clients) (hb : b ∉ h.clients)
    (hbo : (mem b).send.closed = false ∧ (mem b).send.cap = 32)
    (hq : h.broadcast.buf = [])
    (hroom : ∀ d ∈ b :: h.clients, (mem d).send.buf.length ≤ 30) :
    ∃ h' mem' st, Hub.runs now [.register b, .broadcast] (h, mem) = .running (h', mem') ∧
      (∀ d ∈ [a, b], d ∈ h'.clients ∧
        (mem' d).send.buf = (mem d).send.buf ++
          [⟨"presence_update", .status st⟩, ⟨"presence_join", .userId (mem b).userID⟩]) ∧
      (∃ t, statusGet st (mem a).userID = some ⟨true, t⟩) ∧
      (∃ t, statusGet st (mem b).userID = some ⟨true, t⟩) := by
  obtain ⟨hnd, hbopen, hcap, hcl⟩ := hwf
  have hks : addKey b h.clients = b :: h.clients := addKey_of_not_mem b _ hb
  have hnd1 : (b :: h.clients).Nodup := List.nodup_cons.mpr ⟨hb, hnd⟩
  have hop : ∀ d ∈ b :: h.clients, (mem d).send.closed = false := by
    intro d hd
    rcases List.mem_cons.mp hd with rfl | hd
    · exact hbo.1
    · exact (hcl d hd).1
  have hroom' : ∀ d ∈ b :: h.clients, (mem d).send.buf.length + 2 ≤ (mem d).send.cap := by
    intro d hd
    have hcap' : (mem d).send.cap = 32 := by
      rcases List.mem_cons.mp hd with rfl | hd'
      · exact hbo.2
      · exact (hcl d hd').2
    have := hroom d hd
    omega
  have hbroom : h.broadcast.buf.length < h.broadcast.cap := by rw [hq, hcap]; simp
  have e1 := Run_register_eq now h mem b hnd hbopen hbroom (by rw [hks]; exact hop)
  rw [hks, hq, List.nil_append] at e1
  obtain ⟨h', mem', e2, hcs, _, hbuf, _⟩ := offer_then_broadcast now h.roomID h.broadcast
    (b :: h.clients) mem
    ⟨"presence_update", .status (snapshot now (b :: h.clients) mem)⟩
    ⟨"presence_join", .userId (mem b).userID⟩ hnd1 hop hroom'
  have hab : ∀ d ∈ [a, b], d ∈ b :: h.clients := by
    intro d hd
    simp only [List.mem_cons, List.mem_singleton, List.not_mem_nil, or_false] at hd
    rcases hd with rfl | rfl
    · exact List.mem_cons_of_mem _ ha
    · exact List.mem_cons_self _ _
  refine ⟨h', mem', snapshot now (b :: h.clients) mem, ?_, ?_, ?_, ?_⟩
  · rw [runs_cons now _ _ h mem _ e1, runs_cons now _ _ _ _ _ e2, runs_nil]
  · intro d hd
    exact ⟨hcs ▸ hab d hd, (hbuf d (hab d hd)).1⟩
  · exact snapshot_online now _ mem a (List.mem_cons_of_mem _ ha)
  · exact snapshot_online now _ mem b (List.mem_cons_self _ _)

/-- C3 (amended) at an example: the connection at address 1 registers to room 7, where the
connection at address 0 is registered, both with empty mailboxes. -/
theorem register_second_connection_witness :
    ∃ h' mem' st, Hub.runs exNow [.register 1, .broadcast] (exHubOf [0] [], exMem) =
        .running (h', mem') ∧
      (∀ d ∈ [0, 1], d ∈ h'.clients ∧
        (mem' d).send.buf = (exMem d).send.buf ++
          [⟨"presence_update", .status st⟩, ⟨"presence_join", .userId 101⟩]) ∧
      (∃ t, statusGet st 100 = some ⟨true, t⟩) ∧ (∃ t, statusGet st 101 = some ⟨true, t⟩) :=
  register_second_connection exNow (exHubOf [0] []) exMem 0 1 (by decide) (by decide)
    (by decide) (by decide) rfl (by decide)

/-- C3 as stated fails when a mailbox that is not full has a single free slot.  The
connection at address 0 (user 100) is registered with 31 events in its mailbox, the
connection at address 1 (user 101) has a new mailbox, the broadcast channel is empty: no
mailbox is full.  After the register iteration for address 1 and the broadcast iteration
that follows, the connection at address 0 is out of the set, its mailbox is closed with 32
events, and no `presence_join` is among them. -/
theorem register_second_connection_counterexample :
    (exHubOf [0] []).WF (exMemFilled 31) ∧
    (∀ d ∈ [0, 1], ((exMemFilled 31) d).send.closed = false ∧
      ((exMemFilled 31) d).send.buf.length < 32) ∧
    ∃ h' mem', Hub.runs exNow [.register 1, .broadcast] (exHubOf [0] [], exMemFilled 31) =
        .running (h', mem') ∧
      0 ∉ h'.clients ∧ (mem' 0).send.closed = true ∧ (mem' 0).send.buf.length = 32 ∧
      (⟨"presence_join", .userId 101⟩ : Event) ∉ (mem' 0).send.buf :=
  ⟨by decide, by decide, _, _, rfl, by decide, by decide, by decide, by decide⟩

/-- C4. Processing unregister(c) for a connection `c` of the set, on a state the program
builds.  The iteration completes when the broadcast channel has a free slot, and is
otherwise left waiting in its own send; in the state it reaches either way, `c` is out of
the set and its mailbox is closed with unchanged content; no connection is added; every
other connection of the set either stays in the set with an open mailbox or had a full
mailbox and was removed and closed by the delivery of the presence update, and it stays
when its mailbox held fewer than 32 events; and in every continuation of the loop that
completes, `c` is still out of the set and its mailbox still holds the same events. -/
theorem unregister_removes_exactly (now : Ptr → Nat) (h : Hub) (mem : Mem) (c : Ptr)
    (hwf : h.WF mem) (hc : c ∈ h.clients) :
    ∃ h' mem',
      (h.Run now mem (.unregister c) = .running (h', mem') ∨
        h.Run now mem (.unregister c) = .blocked (h', mem')) ∧
      (h.broadcast.buf.length < 64 → h.Run now mem (.unregister c) = .running (h', mem')) ∧
      c ∉ h'.clients ∧ (mem' c).send.closed = true ∧
      (mem' c).send.buf = (mem c).send.buf ∧
      (∀ d, d ∈ h'.clients → d ∈ h.clients ∧ d ≠ c) ∧
      (∀ d ∈ h.clients, d ≠ c →
        (d ∈ h'.clients ∧ (mem' d).send.closed = false) ∨
        (32 ≤ (mem d).send.buf.length ∧ d ∉ h'.clients ∧ (mem' d).send.closed = true)) ∧
      (∀ d ∈ h.clients, d ≠ c → (mem d).send.buf.length < 32 → d ∈ h'.clients) ∧
      (∀ sels h'' mem'', Hub.runs now sels (h', mem') = .running (h'', mem'') →
        c ∉ h''.clients ∧ (mem'' c).send.buf = (mem c).send.buf) := by
  obtain ⟨hnd, hbo, hcap, hcl⟩ := hwf
  have hop : ∀ d ∈ h.clients, (mem d).send.closed = false := fun d hd => (hcl d hd).1
  have hce : c ∉ h.clients.erase c :=
    fun hmem => ((List.Nodup.mem_erase_iff hnd).mp hmem).1 rfl
  have herase : ∀ d, d ∈ h.clients.erase c ↔ d ≠ c ∧ d ∈ h.clients :=
    fun d => List.Nodup.mem_erase_iff hnd
  by_cases hroom : h.broadcast.buf.length < h.broadcast.cap
  · have e := Run_unregister_eq now h mem c hnd hbo hroom hop hc
    have hc' : (((mem.setSend c ⟨(mem c).send.cap, (mem c).send.buf, true⟩).offer
        ⟨"presence_update", .status (snapshot now (h.clients.erase c) mem)⟩
        (h.clients.erase c)) c) = (mem.setSend c ⟨(mem c).send.cap, (mem c).send.buf, true⟩) c :=
      offer_not_mem _ _ _ _ hce
    refine ⟨_, _, Or.inl e, fun _ => e, ?_, ?_, ?_, ?_, ?_, ?_, ?_⟩
    · exact fun hmem => hce (List.mem_of_mem_filter hmem)
    · rw [hc', setSend_self]
    · rw [hc', setSend_self]
    · intro d hd
      have := (herase d).mp (List.mem_of_mem_filter hd)
      exact ⟨this.2, this.1⟩
    · intro d hd hdc
      have hde : d ∈ h.clients.erase c := (herase d).mpr ⟨hdc, hd⟩
      have hm1 : (mem.setSend c ⟨(mem c).send.cap, (mem c).send.buf, true⟩) d = mem d :=
        setSend_of_ne _ _ _ _ hdc
      by_cases hr : (mem d).send.buf.length < (mem d).send.cap
      · left
        refine ⟨(mem_filter_roomy mem _ d).mpr ⟨hde, hr⟩, ?_⟩
        rw [offer_room _ _ _ d hde (by rw [hm1]; exact hr), hm1]
        exact hop d hd
      · right
        refine ⟨by rw [(hcl d hd).2] at hr; omega,
          fun hmem => hr ((mem_filter_roomy mem _ d).mp hmem).2, ?_⟩
        rw [offer_full _ _ _ d hde (by rw [hm1]; exact hr)]
    · intro d hd hdc hlen
      exact (mem_filter_roomy mem _ d).mpr ⟨(herase d).mpr ⟨hdc, hd⟩,
        by rw [(hcl d hd).2]; exact hlen⟩
    · intro sels h'' mem'' hrun
      have := runs_closed_outside now c sels _ _ h'' mem'' ((hnd.erase c).filter _) rfl
        (fun hmem => hce (List.mem_of_mem_filter hmem)) (by rw [hc', setSend_self]) hrun
      rw [this.2, hc', setSend_self]
      exact ⟨this.1, rfl⟩
  · have e := Run_unregister_blocked now h mem c hbo hroom (hop c hc) hc
    refine ⟨_, _, Or.inr e, fun hlt => absurd (by rw [hcap]; exact hlt) hroom,
      hce, ?_, ?_, ?_, ?_, ?_, ?_⟩
    · rw [setSend_self]
    · rw [setSend_self]
    · intro d hd
      have := (herase d).mp hd
      exact ⟨this.2, this.1⟩
    · intro d hd hdc
      left
      refine ⟨(herase d).mpr ⟨hdc, hd⟩, ?_⟩
      rw [setSend_of_ne _ _ _ _ hdc]
      exact hop d hd
    · intro d hd hdc _
      exact (herase d).mpr ⟨hdc, hd⟩
    · intro sels h'' mem'' hrun
      have := runs_closed_outside now c sels
        { h with clients := h.clients.erase c }
        (mem.setSend c ⟨(mem c).send.cap, (mem c).send.buf, true⟩) h'' mem''
        (hnd.erase c) hbo hce (by rw [setSend_self]) hrun
      rw [this.2, setSend_self]
      exact ⟨this.1, rfl⟩

/-- C4 at an example: the connections at addresses 0 and 1 are registered and the
connection at address 0 is unregistered. -/
theorem unregister_removes_exactly_witness :
    ∃ h' mem', (exHubOf [0, 1] [exEvent]).Run exNow exMem (.unregister 0) =
        .running (h', mem') ∧
      0 ∉ h'.clients ∧ (mem' 0).send.closed = true ∧ (mem' 0).send.buf = [] ∧
      1 ∈ h'.clients := by
  obtain ⟨h', mem', _, hrun, hout, hclosed, hbuf, _, _, hstay, _⟩ :=
    unregister_removes_exactly exNow (exHubOf [0, 1] [exEvent]) exMem 0 (by decide)
      (by decide)
  exact ⟨h', mem', hrun (by decide), hout, hclosed, hbuf,
    hstay 1 (by decide) (by decide) (by decide)⟩

/-- C5 (what the code does). A registered connection `c` is unregistered while the
broadcast channel is empty and every other registered connection has two free slots: the
unregister iteration and the broadcast iteration that follows complete, and every remaining
connection has gained `presence_update` first and `presence_leave` (user id of `c`)
second. -/
theorem unregister_update_precedes_leave (now : Ptr → Nat) (h : Hub) (mem : Mem) (c : Ptr)
    (hwf : h.WF mem) (hc : c ∈ h.clients) (hq : h.broadcast.buf = [])
    (hroom : ∀ d ∈ h.clients, d ≠ c → (mem d).send.buf.length + 2 ≤ 32) :
    ∃ h' mem', Hub.runs now [.unregister c, .broadcast] (h, mem) = .running (h', mem') ∧
      ∀ d ∈ h.clients, d ≠ c → d ∈ h'.clients ∧
        (mem' d).send.buf = (mem d).send.buf ++
          [⟨"presence_update", .status (snapshot now (h.clients.erase c) mem)⟩,
           ⟨"presence_leave", .userId (mem c).userID⟩] := by
  obtain ⟨hnd, hbopen, hcap, hcl⟩ := hwf
  have hop : ∀ d ∈ h.clients, (mem d).send.closed = false := fun d hd => (hcl d hd).1
  have hbroom : h.broadcast.buf.length < h.broadcast.cap := by rw [hq, hcap]; simp
  have e1 := Run_unregister_eq now h mem c hnd hbopen hbroom hop hc
  rw [hq, List.nil_append] at e1
  have hce : c ∉ h.clients.erase c :=
    fun hmem => ((List.Nodup.mem_erase_iff hnd).mp hmem).1 rfl
  have hmem1 : ∀ d ∈ h.clients.erase c,
      (mem.setSend c ⟨(mem c).send.cap, (mem c).send.buf, true⟩) d = mem d := by
    intro d hd
    exact setSend_of_ne _ _ _ _ (fun hh => hce (hh ▸ hd))
  have hop1 : ∀ d ∈ h.clients.erase c,
      ((mem.setSend c ⟨(mem c).send.cap, (mem c).send.buf, true⟩) d).send.closed = false := by
    intro d hd
    rw [hmem1 d hd]; exact hop d (List.mem_of_mem_erase hd)
  have hroom1 : ∀ d ∈ h.clients.erase c,
      ((mem.setSend c ⟨(mem c).send.cap, (mem c).send.buf, true⟩) d).send.buf.length + 2 ≤
        ((mem.setSend c ⟨(mem c).send.cap, (mem c).send.buf, true⟩) d).send.cap := by
    intro d hd
    have hd' := (List.Nodup.mem_erase_iff hnd).mp hd
    rw [hmem1 d hd, (hcl d hd'.2).2]
    exact hroom d hd'.2 hd'.1
  rw [← filter_roomy_setSend mem c ⟨(mem c).send.cap, (mem c).send.buf, true⟩ _ hce] at e1
  obtain ⟨h', mem', e2, hcs, _, hbuf, _⟩ := offer_then_broadcast now h.roomID h.broadcast
    (h.clients.erase c) (mem.setSend c ⟨(mem c).send.cap, (mem c).send.buf, true⟩)
    ⟨"presence_update", .status (snapshot now (h.clients.erase c) mem)⟩
    ⟨"presence_leave", .userId (mem c).userID⟩ (hnd.erase c) hop1 hroom1
  refine ⟨h', mem', ?_, ?_⟩
  · rw [runs_cons now _ _ h mem _ e1, runs_cons now _ _ _ _ _ e2, runs_nil]
  · intro d hd hdc
    have hde : d ∈ h.clients.erase c := (List.Nodup.mem_erase_iff hnd).mpr ⟨hdc, hd⟩
    refine ⟨hcs ▸ hde, ?_⟩
    rw [(hbuf d hde).1, hmem1 d hde]

/-- C5 at an example: the connections at addresses 0 and 1 are registered and the
connection at address 0 (user 100) is unregistered; the mailbox of the other then holds
`presence_update` before `presence_leave`. -/
theorem unregister_update_precedes_leave_witness :
    ∃ h' mem', Hub.runs exNow [.unregister 0, .broadcast] (exHubOf [0, 1] [], exMem) =
        .running (h', mem') ∧
      ∀ d ∈ [0, 1], d ≠ 0 → d ∈ h'.clients ∧
        (mem' d).send.buf = (exMem d).send.buf ++
          [⟨"presence_update", .status [(101, ⟨true, 0⟩)]⟩,
           ⟨"presence_leave", .userId 100⟩] :=
  unregister_update_precedes_leave exNow (exHubOf [0, 1] []) exMem 0 (by decide) (by decide)
    rfl (by decide)

/-- C6. A connection `c` of the set whose mailbox is empty, on a state the program builds
with the events `evs` pending on the broadcast channel, and no writer that drains the
mailbox.  For every `k` up to the number of pending events the first `k` broadcast
iterations complete; while `k ≤ 32` the connection is still in the set and its open
mailbox holds exactly the first `k` events; from `k = 33` on it is out of the set and its
mailbox is closed, holding the first 32 events.  Moreover, for every iteration of the loop
other than its own unregister, on any state the program builds: with fewer than 32 events
in its mailbox the connection stays in the set, open, with exactly one event more; with 32
events it is removed and its mailbox is closed with the same content. -/
theorem slow_consumer_dropped_at_capacity (now : Ptr → Nat) (h : Hub) (mem : Mem) (c : Ptr)
    (evs : List Event) (hwf : h.WF mem) (hc : c ∈ h.clients)
    (hempty : (mem c).send.buf = []) (hq : h.broadcast.buf = evs) :
    (∀ k, k ≤ evs.length →
      ∃ h' mem', Hub.runs now (List.replicate k .broadcast) (h, mem) = .running (h', mem') ∧
        (k ≤ 32 → c ∈ h'.clients ∧ (mem' c).send.closed = false ∧
          (mem' c).send.buf = evs.take k) ∧
        (32 < k → c ∉ h'.clients ∧ (mem' c).send.closed = true ∧
          (mem' c).send.buf = evs.take 32)) ∧
    (∀ (sel : Select) (h1 : Hub) (mem1 : Mem) (h' : Hub) (mem' : Mem),
      h1.WF mem1 → c ∈ h1.clients → sel ≠ .unregister c →
      h1.Run now mem1 sel = .running (h', mem') →
      ((mem1 c).send.buf.length < 32 →
        c ∈ h'.clients ∧ (mem' c).send.closed = false ∧
          ∃ ev, (mem' c).send.buf = (mem1 c).send.buf ++ [ev]) ∧
      (32 ≤ (mem1 c).send.buf.length →
        c ∉ h'.clients ∧ (mem' c).send.closed = true ∧
          (mem' c).send.buf = (mem1 c).send.buf)) := by
  constructor
  · intro k hk
    obtain ⟨h', mem', hrun, _, _, hall⟩ := runs_broadcast_client now k evs h mem hwf hq hk
    obtain ⟨_, _, hin, hdrop⟩ := hall c
    refine ⟨h', mem', hrun, ?_, ?_⟩
    · intro hk32
      have := hin hc (by rw [hempty]; simpa using hk32)
      rw [hempty] at this
      simpa using this
    · intro hk32
      have := hdrop hc (by rw [hempty]; simp) (by rw [hempty]; simpa using hk32)
      rw [hempty] at this
      simpa using this
  · intro sel h1 mem1 h' mem' hwf1 hc1 hsel hrun
    obtain ⟨hnd, hbo, _, hcl⟩ := hwf1
    obtain ⟨hcs, _, _, _, ev, _, _, _, hin, _⟩ :=
      Run_running_spec now h1 mem1 sel h' mem' hnd hbo hrun
    have hkey : c ∈ sel.keys h1.clients := by
      cases sel with
      | register x => exact (mem_addKey x c _).mpr (Or.inr hc1)
      | unregister x =>
        have hx : c ≠ x := fun hh => hsel (by rw [hh])
        exact (List.Nodup.mem_erase_iff hnd).mpr ⟨hx, hc1⟩
      | broadcast => exact hc1
    have hm := hin c hkey
    constructor
    · intro hlen
      have hr : (mem1 c).send.buf.length < (mem1 c).send.cap := by
        rw [(hcl c hc1).2]; exact hlen
      refine ⟨by rw [hcs]; exact (mem_filter_roomy mem1 _ c).mpr ⟨hkey, hr⟩, ?_, ev, ?_⟩
      · rw [hm]; simp [Client.offer, hr, (hcl c hc1).1]
      · rw [hm]; simp [Client.offer, hr]
    · intro hlen
      have hr : ¬ (mem1 c).send.buf.length < (mem1 c).send.cap := by
        rw [(hcl c hc1).2]; omega
      refine ⟨by rw [hcs]; exact fun hmem => hr ((mem_filter_roomy mem1 _ c).mp hmem).2,
        ?_, ?_⟩
      · rw [hm]; simp [Client.offer, hr]
      · rw [hm]; simp [Client.offer, hr]

/-- C6 at an example: 33 events are pending for a room whose only connection never drains
its mailbox; after 32 iterations it is still registered, after the next one it is not. -/
theorem slow_consumer_dropped_at_capacity_witness :
    (∃ h' mem', Hub.runs exNow (List.replicate 32 .broadcast)
        (exHubOf [0] (List.replicate 33 exEvent), exMem) = .running (h', mem') ∧
      0 ∈ h'.clients ∧ (mem' 0).send.buf.length = 32) ∧
    (∃ h' mem', Hub.runs exNow (List.replicate 33 .broadcast)
        (exHubOf [0] (List.replicate 33 exEvent), exMem) = .running (h', mem') ∧
      0 ∉ h'.clients ∧ (mem' 0).send.closed = true ∧ (mem' 0).send.buf.length = 32) := by
  have key := (slow_consumer_dropped_at_capacity exNow
    (exHubOf [0] (List.replicate 33 exEvent)) exMem 0 (List.replicate 33 exEvent)
    (by decide) (by decide) rfl rfl).1
  obtain ⟨h1, mem1, hrun1, hin1, _⟩ := key 32 (by decide)
  obtain ⟨h2, mem2, hrun2, _, hout2⟩ := key 33 (by decide)
  have a := hin1 (by decide)
  have b := hout2 (by decide)
  exact ⟨⟨h1, mem1, hrun1, a.1, by rw [a.2.2]; decide⟩,
    ⟨h2, mem2, hrun2, b.1, b.2.1, by rw [b.2.2]; decide⟩⟩

/-- C7. An interleaving of register, unregister and broadcast iterations of the control
loop with calls of `Broadcast` by other goroutines and writer iterations, on a new
broadcaster, in which no connection is registered twice, that completes: the connection
set has no repeated key; a connection is in it exactly when it was registered, not
unregistered afterwards, and not removed by backpressure; and when nothing was removed by
backpressure the size of the set is the number of registers minus the number of
unregisters of registered connections. -/
theorem connection_set_accounting (now : Ptr → Nat) (roomID : Nat) (mem : Mem)
    (acts : List Action) (h' : Hub) (mem' : Mem) (hreg : (sysRegisters acts).Nodup)
    (hrun : System.runs now acts (NewHub roomID, mem) = .running (h', mem')) :
    h'.clients.Nodup ∧
    (∀ c, c ∈ h'.clients ↔
      RegisteredStill (loopSels acts) c ∧
        c ∉ System.backpressured now acts (NewHub roomID, mem)) ∧
    (System.backpressured now acts (NewHub roomID, mem) = [] →
      unregistersOfRegistered [] (loopSels acts) ≤ (sysRegisters acts).length ∧
      h'.clients.length =
        (sysRegisters acts).length - unregistersOfRegistered [] (loopSels acts)) := by
  rw [sysRegisters_eq] at hreg ⊢
  obtain ⟨hnd, hiff, hcount⟩ := system_accounting now acts (NewHub roomID) mem h' mem'
    (by simp [NewHub]) rfl hreg (by simp [NewHub]) hrun
  refine ⟨hnd, ?_, ?_⟩
  · intro c
    rw [hiff c]
    simp [NewHub]
  · intro hempty
    have := hcount hempty
    simp only [NewHub, List.length_nil, Nat.zero_add] at this
    omega

/-- C7 at an example: two connections register, another goroutine calls `Broadcast`, the
loop delivers the three queued events, the writer of the first connection writes one
event, and the first connection is unregistered; one connection is left. -/
theorem connection_set_accounting_witness :
    ∃ h' mem', System.runs exNow
        [Action.loop (.register 0), Action.loop (.register 1), Action.emit exEvent,
          Action.loop .broadcast, Action.loop .broadcast, Action.loop .broadcast,
          Action.write 0 true, Action.loop (.unregister 0)]
        (NewHub 7, exMem) = .running (h', mem') ∧
      h'.clients.length = 2 - 1 ∧
      (∀ c, c ∈ h'.clients ↔
        RegisteredStill [.register 0, .register 1, .broadcast, .broadcast, .broadcast,
          .unregister 0] c ∧
          c ∉ System.backpressured exNow
            [Action.loop (.register 0), Action.loop (.register 1), Action.emit exEvent,
              Action.loop .broadcast, Action.loop .broadcast, Action.loop .broadcast,
              Action.write 0 true, Action.loop (.unregister 0)]
            (NewHub 7, exMem)) := by
  obtain ⟨⟨h', mem'⟩, hrun⟩ : ∃ s, System.runs exNow
      [Action.loop (.register 0), Action.loop (.register 1), Action.emit exEvent,
        Action.loop .broadcast, Action.loop .broadcast, Action.loop .broadcast,
        Action.write 0 true, Action.loop (.unregister 0)]
      (NewHub 7, exMem) = .running s := ⟨_, rfl⟩
  obtain ⟨_, hiff, hcount⟩ := connection_set_accounting exNow 7 exMem
    [Action.loop (.register 0), Action.loop (.register 1), Action.emit exEvent,
      Action.loop .broadcast, Action.loop .broadcast, Action.loop .broadcast,
      Action.write 0 true, Action.loop (.unregister 0)] h' mem' (by decide) hrun
  exact ⟨h', mem', hrun, (hcount (by decide)).2, hiff⟩

/-- C8. Any interleaving of loop iterations, calls of `Hub.Broadcast` by other goroutines
and writer iterations that completes, from a state whose key set has no repeated key and
whose broadcast channel is open.  There are a list `deq` of events and a list `log` of
tagged events such that: `deq` followed by what is still pending is what was pending
followed by what was put on the broadcast channel, so `deq` is the sequence of events taken
from the channel, in the order they were put on it; the entries of `log` tagged `true`
are exactly `deq` in that order, and every entry tagged `false` is a `presence_update`;
and for every connection the events written to its transport followed by the content of
its mailbox form a subsequence, in order, of what they were at the start followed by
`log`. -/
theorem mailbox_order (now : Ptr → Nat) (acts : List Action) :
    ∀ (h : Hub) (mem : Mem) (h' : Hub) (mem' : Mem), h.clients.Nodup →
      h.broadcast.closed = false →
      System.runs now acts (h, mem) = .running (h', mem') →
      ∃ (deq : List Event) (log : List (Bool × Event)),
        h.broadcast.buf ++ enqueued mem acts = deq ++ h'.broadcast.buf ∧
        (log.filter (fun x => x.1)).map (fun x => x.2) = deq ∧
        (∀ x ∈ log, x.1 = false → x.2.type = "presence_update") ∧
        ∀ c, List.Sublist ((mem' c).conn.written ++ (mem' c).send.buf)
          ((mem c).conn.written ++ (mem c).send.buf ++ log.map (fun x => x.2)) := by
  induction acts with
  | nil =>
    intro h mem h' mem' _ _ hrun
    simp only [System.runs, Outcome.running.injEq, Prod.mk.injEq] at hrun
    obtain ⟨rfl, rfl⟩ := hrun
    exact ⟨[], [], by simp [enqueued], rfl, by simp, fun c => by simp⟩
  | cons act acts ih =>
    intro h mem h' mem' hnd hbo hrun
    obtain ⟨h1, mem1, hstep, hrest⟩ := system_runs_cons_inv now act acts h mem _ hrun
    obtain ⟨hnd1, hbo1, hu, deq1, log1, hq1, hf1, ht1, hs1⟩ :=
      step_order now h mem act h1 mem1 hnd hbo hstep
    obtain ⟨deq2, log2, hq2, hf2, ht2, hs2⟩ := ih h1 mem1 h' mem' hnd1 hbo1 hrest
    refine ⟨deq1 ++ deq2, log1 ++ log2, ?_, ?_, ?_, ?_⟩
    · rw [enqueued_cons, ← List.append_assoc, hq1, List.append_assoc,
        ← enqueued_congr mem mem1 hu acts, hq2, List.append_assoc]
    · rw [List.filter_append, List.map_append, hf1, hf2]
    · intro x hx hfalse
      rcases List.mem_append.mp hx with hx | hx
      · exact ht1 x hx hfalse
      · exact ht2 x hx hfalse
    · intro c
      have := (hs2 c).trans (List.Sublist.append (hs1 c) (List.Sublist.refl _))
      simpa [List.append_assoc] using this

/-- C8 at an example: a connection registers, another goroutine broadcasts an event, the
loop delivers the `presence_join` and the event, and the writer writes one event. -/
theorem mailbox_order_witness :
    ∃ h' mem', System.runs exNow
        [.loop (.register 0), .emit exEvent, .loop .broadcast, .loop .broadcast,
          .write 0 true] (NewHub 7, exMem) = .running (h', mem') ∧
      ∃ (deq : List Event) (log : List (Bool × Event)),
        (NewHub 7).broadcast.buf ++ enqueued exMem
            [.loop (.register 0), .emit exEvent, .loop .broadcast, .loop .broadcast,
              .write 0 true] = deq ++ h'.broadcast.buf ∧
        (log.filter (fun x => x.1)).map (fun x => x.2) = deq ∧
        (∀ x ∈ log, x.1 = false → x.2.type = "presence_update") ∧
        ∀ c, List.Sublist ((mem' c).conn.written ++ (mem' c).send.buf)
          ((exMem c).conn.written ++ (exMem c).send.buf ++ log.map (fun x => x.2)) := by
  obtain ⟨⟨h', mem'⟩, hrun⟩ : ∃ s, System.runs exNow
      [.loop (.register 0), .emit exEvent, .loop .broadcast, .loop .broadcast,
        .write 0 true] (NewHub 7, exMem) = .running s := ⟨_, rfl⟩
  exact ⟨h', mem', hrun, mailbox_order exNow _ (NewHub 7) exMem h' mem' (by decide) rfl hrun⟩

/-- C9. `Emit(roomID, ev)` on the registry, and the processing of the event by the loop.
(1) The broadcaster of the room is in the registry with exactly the connection `a`
registered, on a state the program builds; its broadcast channel is not full and the
mailbox of `a` has room for the pending events and `ev`.  Then `Emit` returns with `ev`
behind the pending events; the iterations that take the pending events complete and leave
`ev` alone on the channel; the iteration that takes `ev` completes, after it the mailbox of
`a` holds exactly one event more and that event is `ev`; no other `Client` object has
changed since the call, and `a` is still the only connection of the set.
(2) The broadcaster is in the registry with no connection registered: `Emit` returns, the
iterations that take the pending events and `ev` complete, the memory is unchanged and the
set is still empty.
(3) The registry has no broadcaster for the room: `Emit` creates it and returns, the
iteration that takes `ev` completes, the memory is unchanged and the set is empty. -/
theorem emit_delivers_once (now : Ptr → Nat) (r : RoomHubs) (mem : Mem) (roomID : Nat)
    (ev : Event) :
    (∀ (h : Hub) (a : Ptr), r.get roomID = some h → h.WF mem → h.clients = [a] →
      h.broadcast.buf.length < 64 →
      (mem a).send.buf.length + h.broadcast.buf.length < 32 →
      ∃ r1 h1 h2 mem2 h3 mem3, r.Emit roomID ev = .running r1 ∧
        r1.get roomID = some h1 ∧ h1.broadcast.buf = h.broadcast.buf ++ [ev] ∧
        Hub.runs now (List.replicate h.broadcast.buf.length .broadcast) (h1, mem) =
          .running (h2, mem2) ∧
        h2.broadcast.buf = [ev] ∧
        h2.Run now mem2 .broadcast = .running (h3, mem3) ∧
        (mem3 a).send.buf = (mem2 a).send.buf ++ [ev] ∧
        (mem3 a).send.closed = false ∧
        (∀ p, p ≠ a → mem3 p = mem p) ∧ h3.clients = [a] ∧ h3.broadcast.buf = []) ∧
    (∀ (h : Hub), r.get roomID = some h → h.WF mem → h.clients = [] →
      h.broadcast.buf.length < 64 →
      ∃ r1 h1 h3, r.Emit roomID ev = .running r1 ∧ r1.get roomID = some h1 ∧
        Hub.runs now (List.replicate (h.broadcast.buf.length + 1) .broadcast) (h1, mem) =
          .running (h3, mem) ∧
        h3.clients = [] ∧ h3.broadcast.buf = []) ∧
    (r.get roomID = none →
      ∃ r1 h1 h3, r.Emit roomID ev = .running r1 ∧ r1.get roomID = some h1 ∧
        h1.Run now mem .broadcast = .running (h3, mem) ∧
        h3.clients = [] ∧ h3.broadcast.buf = []) := by
  refine ⟨?_, ?_, ?_⟩
  · intro h a hget hwf hcs hbroom hroom
    obtain ⟨hnd, hbo, hcap, hcl⟩ := hwf
    obtain ⟨r1, hemit, hget1⟩ := Emit_present r roomID ev h hget hbo (by rw [hcap]; exact hbroom)
    have hwf1 : Hub.WF ⟨h.roomID, ⟨h.broadcast.cap, h.broadcast.buf ++ [ev], false⟩, h.clients⟩
        mem := ⟨hnd, rfl, hcap, hcl⟩
    obtain ⟨h2, mem2, hrun, hwf2, hbuf2, hall⟩ :=
      runs_broadcast_client now h.broadcast.buf.length (h.broadcast.buf ++ [ev]) _ mem hwf1
        rfl (by simp)
    have ha : a ∈ h.clients := by rw [hcs]; simp
    obtain ⟨_, _, hin, _⟩ := hall a
    obtain ⟨ha2, hopen2, hbufa⟩ := hin ha (by omega)
    have hcs2 : h2.clients = [a] := by
      apply eq_singleton_of_nodup _ _ hwf2.1 ha2
      intro d hd
      have := (hall d).1 hd
      simpa [hcs] using this
    have hq2 : h2.broadcast.buf = [ev] := by
      rw [hbuf2]; simp
    have hop2 : ∀ d ∈ h2.clients, (mem2 d).send.closed = false := fun d hd => (hwf2.2.2.2 d hd).1
    have hr2 : (mem2 a).send.buf.length < (mem2 a).send.cap := by
      rw [(hwf2.2.2.2 a ha2).2, hbufa]
      simp only [List.length_append, List.length_take, List.length_singleton]
      omega
    have e3 := Run_broadcast_eq now h2 mem2 ev [] hwf2.1 hop2 hq2
    refine ⟨r1, _, h2, mem2, _, _, hemit, hget1, rfl, hrun, hq2, e3, ?_, ?_, ?_, ?_, rfl⟩
    · rw [offer_room _ _ _ a ha2 hr2]
    · rw [offer_room _ _ _ a ha2 hr2]; exact hopen2
    · intro p hp
      have hp1 : p ∉ h.clients := by rw [hcs]; simpa using hp
      have hp2 : p ∉ h2.clients := by rw [hcs2]; simpa using hp
      rw [offer_not_mem _ _ _ _ hp2]
      exact ((hall p).2.1 hp1).2
    · show h2.clients.filter mem2.roomy = [a]
      rw [hcs2]
      simp [Mem.roomy, hr2]
  · intro h hget hwf hcs hbroom
    obtain ⟨hnd, hbo, hcap, hcl⟩ := hwf
    obtain ⟨r1, hemit, hget1⟩ := Emit_present r roomID ev h hget hbo (by rw [hcap]; exact hbroom)
    have hwf1 : Hub.WF ⟨h.roomID, ⟨h.broadcast.cap, h.broadcast.buf ++ [ev], false⟩, h.clients⟩
        mem := ⟨hnd, rfl, hcap, hcl⟩
    obtain ⟨h3, mem3, hrun, _, hbuf3, hall⟩ :=
      runs_broadcast_client now (h.broadcast.buf.length + 1) (h.broadcast.buf ++ [ev]) _ mem
        hwf1 rfl (by simp)
    have hmem : mem3 = mem := by
      funext p
      exact ((hall p).2.1 (by simp [hcs])).2
    subst hmem
    refine ⟨r1, _, h3, hemit, hget1, hrun, ?_, ?_⟩
    · cases hc3 : h3.clients with
      | nil => rfl
      | cons x xs =>
        have : x ∈ h3.clients := by rw [hc3]; simp
        have := (hall x).1 this
        simp [hcs] at this
    · rw [hbuf3]; simp
  · intro hget
    obtain ⟨r1, hemit, hget1⟩ := Emit_absent r roomID ev hget
    have hm : mem.offer ev [] = mem := by funext p; simp [Mem.offer]
    have e3 := Run_broadcast_eq now ⟨roomID, ⟨64, [ev], false⟩, []⟩ mem ev [] (by simp)
      (by simp) rfl
    rw [hm] at e3
    exact ⟨r1, _, _, hemit, hget1, e3, rfl, rfl⟩

/-- C9 at an example: `Emit` to room 7, whose only connection is at address 0, and `Emit`
to room 8, which the registry does not know. -/
theorem emit_delivers_once_witness :
    (∃ r1 h1 h2 mem2 h3 mem3, exRooms.Emit 7 exEvent = .running r1 ∧
      r1.get 7 = some h1 ∧ h1.broadcast.buf = [] ++ [exEvent] ∧
      Hub.runs exNow (List.replicate 0 .broadcast) (h1, exMem) = .running (h2, mem2) ∧
      h2.broadcast.buf = [exEvent] ∧
      h2.Run exNow mem2 .broadcast = .running (h3, mem3) ∧
      (mem3 0).send.buf = (mem2 0).send.buf ++ [exEvent] ∧
      (mem3 0).send.closed = false ∧
      (∀ p, p ≠ 0 → mem3 p = exMem p) ∧ h3.clients = [0] ∧ h3.broadcast.buf = []) ∧
    (∃ r1 h1 h3, exRooms.Emit 8 exEvent = .running r1 ∧ r1.get 8 = some h1 ∧
      h1.Run exNow exMem .broadcast = .running (h3, exMem) ∧
      h3.clients = [] ∧ h3.broadcast.buf = []) :=
  ⟨(emit_delivers_once exNow exRooms exMem 7 exEvent).1 (exHubOf [0] []) 0 rfl (by decide)
      rfl (by decide) (by decide),
    (emit_delivers_once exNow exRooms exMem 8 exEvent).2.2 rfl⟩

/-- C10. A broadcast transition whose connection `d` has a full mailbox, on a state the
program builds: the iteration completes; the broadcast channel afterwards holds exactly the
events that were pending behind `ev`, so no `presence_leave` and no other event was put
on it; `d` is removed and its mailbox is closed with unchanged content, so nothing was
delivered to it; and the mailbox of every other connection either is unchanged or has
gained exactly `ev`, so no `presence_update` was delivered. -/
theorem broadcast_drop_is_silent (now : Ptr → Nat) (h : Hub) (mem : Mem) (ev : Event)
    (rest : List Event) (d : Ptr) (hwf : h.WF mem) (hq : h.broadcast.buf = ev :: rest)
    (hd : d ∈ h.clients) (hfull : 32 ≤ (mem d).send.buf.length) :
    ∃ h' mem', h.Run now mem .broadcast = .running (h', mem') ∧
      h'.broadcast.buf = rest ∧
      d ∉ h'.clients ∧ (mem' d).send.closed = true ∧
      (mem' d).send.buf = (mem d).send.buf ∧
      (∀ c, c ≠ d → (mem' c).send.buf = (mem c).send.buf ∨
        (mem' c).send.buf = (mem c).send.buf ++ [ev]) ∧
      (∀ c, c ∉ h.clients → mem' c = mem c) := by
  obtain ⟨hnd, _, _, hcl⟩ := hwf
  have hop : ∀ c ∈ h.clients, (mem c).send.closed = false := fun c hc => (hcl c hc).1
  have hdfull : ¬ (mem d).send.buf.length < (mem d).send.cap := by
    rw [(hcl d hd).2]; omega
  refine ⟨_, _, Run_broadcast_eq now h mem ev rest hnd hop hq, rfl, ?_, ?_, ?_, ?_, ?_⟩
  · exact fun hmem => hdfull ((mem_filter_roomy mem _ d).mp hmem).2
  · rw [offer_full mem ev _ d hd hdfull]
  · rw [offer_full mem ev _ d hd hdfull]
  · intro c _
    by_cases hc : c ∈ h.clients
    · by_cases hr : (mem c).send.buf.length < (mem c).send.cap
      · right; rw [offer_room mem ev _ c hc hr]
      · left; rw [offer_full mem ev _ c hc hr]
    · left; rw [offer_not_mem mem ev _ c hc]
  · intro c hc
    exact offer_not_mem mem ev _ c hc

/-- C10 at an example: the connection at address 0 holds 32 events when one event is
broadcast; nothing is left on the broadcast channel and the mailbox at address 1 holds
just that event. -/
theorem broadcast_drop_is_silent_witness :
    ∃ h' mem', (exHubOf [0, 1] [exEvent]).Run exNow (exMemFilled 32) .broadcast =
        .running (h', mem') ∧
      h'.broadcast.buf = [] ∧ 0 ∉ h'.clients ∧ (mem' 0).send.closed = true ∧
      (mem' 0).send.buf = ((exMemFilled 32) 0).send.buf ∧
      ((mem' 1).send.buf = ((exMemFilled 32) 1).send.buf ∨
        (mem' 1).send.buf = ((exMemFilled 32) 1).send.buf ++ [exEvent]) := by
  obtain ⟨h', mem', hrun, hq, hout, hclosed, hbuf, hothers, _⟩ :=
    broadcast_drop_is_silent exNow (exHubOf [0, 1] [exEvent]) (exMemFilled 32) exEvent [] 0
      (by decide) rfl (by decide) (by decide)
  exact ⟨h', mem', hrun, hq, hout, hclosed, hbuf, hothers 1 (by decide)⟩

/-- C11 (what the code does). When the broadcast channel of a broadcaster is full, the
register case and the unregister case do not run to completion: the loop waits in its own
send `h.broadcast <- ev`, of which it is the only receiver, with the set already changed,
and no further iteration is ever taken. -/
theorem control_loop_blocks_on_full_channel (now : Ptr → Nat) (h : Hub) (mem : Mem) (c : Ptr)
    (hnd : h.clients.Nodup) (hbo : h.broadcast.closed = false)
    (hfull : h.broadcast.cap ≤ h.broadcast.buf.length)
    (hco : (mem c).send.closed = false) :
    (h.Run now mem (.register c) = .blocked ({ h with clients := addKey c h.clients }, mem) ∧
      ∀ sels, Hub.runs now (.register c :: sels) (h, mem) =
        .blocked ({ h with clients := addKey c h.clients }, mem)) ∧
    (∃ s, h.Run now mem (.unregister c) = .blocked s ∧ c ∉ s.1.clients ∧
      ∀ sels, Hub.runs now (.unregister c :: sels) (h, mem) = .blocked s) := by
  have hnr : ¬ h.broadcast.buf.length < h.broadcast.cap := by omega
  have e1 := Run_register_blocked now h mem c hbo hnr
  refine ⟨⟨e1, fun sels => by simp only [Hub.runs, e1]⟩, ?_⟩
  by_cases hc : c ∈ h.clients
  · have e2 := Run_unregister_blocked now h mem c hbo hnr hco hc
    exact ⟨_, e2, fun hmem => ((List.Nodup.mem_erase_iff hnd).mp hmem).1 rfl,
      fun sels => by simp only [Hub.runs, e2]⟩
  · have e2 : h.Run now mem (.unregister c) = .blocked (h, mem) := by
      simp only [Hub.Run, hc, if_false, Hub.Broadcast, send_full _ _ hbo hnr]
    exact ⟨_, e2, hc, fun sels => by simp only [Hub.runs, e2]⟩

/-- C11 at an example: 64 calls of `Broadcast` by other goroutines fill the broadcast
channel of a new broadcaster before the loop takes an event; the register case that the
`select` then takes never completes. -/
theorem control_loop_blocks_on_full_channel_witness :
    System.runs exNow (List.replicate 64 (.emit exEvent)) (NewHub 7, exMem) =
      .running (exHubOf [] (List.replicate 64 exEvent), exMem) ∧
    (exHubOf [] (List.replicate 64 exEvent)).Run exNow exMem (.register 0) =
      .blocked (exHubOf [0] (List.replicate 64 exEvent), exMem) ∧
    System.runs exNow (List.replicate 64 (.emit exEvent) ++ [.loop (.register 0)])
      (NewHub 7, exMem) = .blocked (exHubOf [0] (List.replicate 64 exEvent), exMem) :=
  ⟨rfl, (control_loop_blocks_on_full_channel exNow (exHubOf [] (List.replicate 64 exEvent))
    exMem 0 (by decide) rfl (by decide) (by decide)).1.1, rfl⟩

/-- C12 (amended). An interleaving of loop iterations, calls of `Broadcast` and writer
iterations on a new broadcaster that completes, in which `c` is the last connection to
register, no connection registers twice, nothing registers or unregisters after `c`, and
the final set holds all `N` registered connections (none was removed).  Then the register
iteration for `c` appends one and the same `presence_update` to the mailbox of every one
of the `N` connections, and it is the last one the loop builds; its payload has an entry
for a user id exactly when one of the `N` connections has that user id, every entry is
online, and the number of entries is the number of distinct user ids among the `N`
connections: it is `N` when the connections belong to `N` different users. -/
theorem last_presence_update_lists_users (now : Ptr → Nat) (roomID : Nat) (mem : Mem)
    (pre post : List Action) (c : Ptr) (h' : Hub) (mem' : Mem)
    (hrun : System.runs now (pre ++ .loop (.register c) :: post) (NewHub roomID, mem) =
      .running (h', mem'))
    (hpost : ∀ act ∈ post, ∀ x, act ≠ .loop (.register x) ∧ act ≠ .loop (.unregister x))
    (hdist : (c :: sysRegisters pre).Nodup)
    (hnone : h'.clients.length = (sysRegisters pre).length + 1) :
    ∃ h1 mem1 h2 mem2 st,
      System.runs now pre (NewHub roomID, mem) = .running (h1, mem1) ∧
      h1.Run now mem1 (.register c) = .running (h2, mem2) ∧
      System.runs now post (h2, mem2) = .running (h', mem') ∧
      (∀ d ∈ h'.clients,
        (mem2 d).send.buf = (mem1 d).send.buf ++ [⟨"presence_update", .status st⟩]) ∧
      (∀ u, (statusGet st u).map (fun s => s.online) =
        if u ∈ h'.clients.map (fun d => (mem d).userID) then some true else none) ∧
      st.length = (h'.clients.map (fun d => (mem d).userID)).dedup.length ∧
      ((h'.clients.map (fun d => (mem d).userID)).Nodup → st.length = h'.clients.length) := by
  obtain ⟨⟨h1, mem1⟩, hpre, hrest⟩ :=
    system_runs_append_inv now pre _ (NewHub roomID, mem) (h', mem') hrun
  obtain ⟨h2, mem2, hstep, hpostrun⟩ := system_runs_cons_inv now _ post h1 mem1 _ hrest
  simp only [System.step] at hstep
  obtain ⟨hnd1, hbo1, hu1, hm1⟩ := system_runs_members now pre (NewHub roomID) mem h1 mem1
    (by simp [NewHub]) rfl hpre
  have hsub1 : ∀ d ∈ h1.clients, d ∈ sysRegisters pre := by
    intro d hd
    rcases hm1 d hd with h0 | h0
    · simp [NewHub] at h0
    · exact h0
  have hc1 : c ∉ h1.clients := fun hc => (List.nodup_cons.mp hdist).1 (hsub1 c hc)
  obtain ⟨_, hroom, hop⟩ := Run_register_inv now h1 mem1 c _ hnd1 hstep
  have e := Run_register_eq now h1 mem1 c hnd1 hbo1 hroom hop
  rw [addKey_of_not_mem c _ hc1] at e
  have hs2 := hstep
  rw [e] at hs2
  simp only [Outcome.running.injEq, Prod.mk.injEq] at hs2
  obtain ⟨hh2, hmem2⟩ := hs2
  have hnd2 : h2.clients.Nodup := Run_running_nodup now h1 mem1 _ h2 mem2 hnd1 hbo1 hstep
  have hbo2 : h2.broadcast.closed = false := by rw [← hh2]
  obtain ⟨hnd', _, hu2, hm2⟩ := system_runs_members now post h2 mem2 h' mem' hnd2 hbo2 hpostrun
  have hsub2 : ∀ d ∈ h'.clients, d ∈ h2.clients := by
    intro d hd
    rcases hm2 d hd with h0 | h0
    · exact h0
    · rw [mem_sysRegisters] at h0
      exact absurd rfl (hpost _ h0 d).1
  have hsub2' : ∀ d ∈ h'.clients, d ∈ c :: h1.clients ∧
      (mem1 d).send.buf.length < (mem1 d).send.cap := by
    intro d hd
    have := hsub2 d hd
    rw [← hh2] at this
    exact (mem_filter_roomy mem1 _ d).mp this
  have hAB : h'.clients ⊆ c :: sysRegisters pre := by
    intro d hd
    rcases List.mem_cons.mp (hsub2' d hd).1 with rfl | h0
    · exact List.mem_cons_self _ _
    · exact List.mem_cons_of_mem _ (hsub1 d h0)
  have hperm : h'.clients.Perm (c :: sysRegisters pre) :=
    (List.subperm_of_subset hnd' hAB).perm_of_length_le (by simp [hnone])
  have hiff : ∀ x, x ∈ c :: h1.clients ↔ x ∈ h'.clients := by
    intro x
    constructor
    · intro hx
      apply hperm.mem_iff.mpr
      rcases List.mem_cons.mp hx with rfl | h0
      · exact List.mem_cons_self _ _
      · exact List.mem_cons_of_mem _ (hsub1 x h0)
    · exact fun hx => (hsub2' x hx).1
  have husers : ∀ u, u ∈ (c :: h1.clients).map (fun d => (mem1 d).userID) ↔
      u ∈ h'.clients.map (fun d => (mem d).userID) := by
    intro u
    simp only [List.mem_map]
    constructor
    · rintro ⟨d, hd, rfl⟩
      exact ⟨d, (hiff d).mp hd, (hu1 d).symm⟩
    · rintro ⟨d, hd, rfl⟩
      exact ⟨d, (hiff d).mpr hd, hu1 d⟩
  have hlen : (snapshot now (c :: h1.clients) mem1).length =
      (h'.clients.map (fun d => (mem d).userID)).dedup.length := by
    rw [snapshot_length]
    apply List.Perm.length_eq
    rw [List.perm_ext_iff_of_nodup (List.nodup_dedup _) (List.nodup_dedup _)]
    intro u
    rw [List.mem_dedup, List.mem_dedup]
    exact husers u
  refine ⟨h1, mem1, h2, mem2, snapshot now (c :: h1.clients) mem1, hpre, hstep, hpostrun,
    ?_, ?_, hlen, ?_⟩
  · intro d hd
    obtain ⟨hk, hr⟩ := hsub2' d hd
    rw [← hmem2, offer_room mem1 _ _ d hk hr]
  · intro u
    rw [statusGet_snapshot]
    by_cases hu : u ∈ h'.clients.map (fun d => (mem d).userID)
    · rw [if_pos hu, if_pos ((husers u).mpr hu)]
    · rw [if_neg hu, if_neg (fun hh => hu ((husers u).mp hh))]
  · intro hnd
    rw [hlen, hnd.dedup]
    simp

/-- C12 (amended) at an example: the connections at addresses 0 and 1, of users 100 and
101, register to a new room, with a delivery and a writer iteration in between. -/
theorem last_presence_update_lists_users_witness :
    ∃ h' mem' h1 mem1 h2 mem2 st,
      System.runs exNow
        ([Action.loop (.register 0), Action.loop .broadcast, Action.write 0 true] ++
          Action.loop (.register 1) :: [Action.loop .broadcast]) (NewHub 7, exMem) = .running (h', mem') ∧
      h'.clients.length = 2 ∧
      System.runs exNow [Action.loop (.register 0), Action.loop .broadcast, Action.write 0 true]
        (NewHub 7, exMem) = .running (h1, mem1) ∧
      h1.Run exNow mem1 (.register 1) = .running (h2, mem2) ∧
      System.runs exNow [Action.loop .broadcast] (h2, mem2) = .running (h', mem') ∧
      (∀ d ∈ h'.clients,
        (mem2 d).send.buf = (mem1 d).send.buf ++ [⟨"presence_update", .status st⟩]) ∧
      (∀ u, (statusGet st u).map (fun s => s.online) =
        if u ∈ h'.clients.map (fun d => (exMem d).userID) then some true else none) ∧
      st.length = (h'.clients.map (fun d => (exMem d).userID)).dedup.length ∧
      ((h'.clients.map (fun d => (exMem d).userID)).Nodup → st.length = h'.clients.length) := by
  obtain ⟨⟨h', mem'⟩, hrun⟩ : ∃ s, System.runs exNow
      ([Action.loop (.register 0), Action.loop .broadcast, Action.write 0 true] ++
        Action.loop (.register 1) :: [Action.loop .broadcast]) (NewHub 7, exMem) = .running s := ⟨_, rfl⟩
  have hlen : h'.clients.length = 2 := by
    have e : (match System.runs exNow
        ([Action.loop (.register 0), Action.loop .broadcast, Action.write 0 true] ++
          Action.loop (.register 1) :: [Action.loop .broadcast]) (NewHub 7, exMem) with
        | .running s => s.1.clients.length
        | _ => 0) = 2 := by decide
    rw [hrun] at e
    exact e
  obtain ⟨h1, mem1, h2, mem2, st, hrest⟩ := last_presence_update_lists_users exNow 7 exMem
    [Action.loop (.register 0), Action.loop .broadcast, Action.write 0 true] [Action.loop .broadcast] 1 h' mem' hrun
    (by intro act ha x; simp only [List.mem_singleton] at ha; subst ha; simp)
    (by decide) (by rw [hlen]; decide)
  exact ⟨h', mem', h1, mem1, h2, mem2, st, hrun, hlen, hrest⟩

/-- C12 as stated fails when two connections belong to one user.  The connections at
addresses 0 and 1, both of user 100, register to a new room and none is removed: two
connections are in the set, and the last `presence_update` in each mailbox has a payload
with one entry. -/
theorem last_presence_update_lists_users_counterexample :
    ∃ h' mem', Hub.runs exNow [.register 0, .register 1] (NewHub 7, exMemShared) =
        .running (h', mem') ∧
      h'.clients.length = 2 ∧
      (mem' 0).send.buf.getLast? = some ⟨"presence_update", .status [(100, ⟨true, 0⟩)]⟩ ∧
      (mem' 1).send.buf.getLast? = some ⟨"presence_update", .status [(100, ⟨true, 0⟩)]⟩ :=
  ⟨_, _, rfl, by decide, by decide, by decide⟩

/-- C13. Presence round trip, for every state of the tracker, user id `u` and clock reading
`t`: `IsOnline(u)` is true right after `Online(u)`; it is false right after `Offline(u)`;
and after `Online(u)` followed by `Offline(u)` the snapshot `AllStatuses()` has no entry
for `u`. -/
theorem presence_round_trip (p : Presence) (u t : Nat) :
    (p.Online u t).IsOnline u = true ∧
    (p.Offline u).IsOnline u = false ∧
    ((p.Online u t).Offline u).IsOnline u = false ∧
    statusGet ((p.Online u t).Offline u).AllStatuses u = none := by
  have h1 : (p.Online u t).IsOnline u = true := by
    simp [Presence.IsOnline, LastSeen_Online]
  have h2 : ∀ q : Presence, (q.Offline u).IsOnline u = false := by
    intro q
    simp [Presence.IsOnline, LastSeen_Offline]
  refine ⟨h1, h2 p, h2 _, ?_⟩
  have := allStatuses_isSome ((p.Online u t).Offline u) u
  rw [h2] at this
  cases hs : statusGet ((p.Online u t).Offline u).AllStatuses u with
  | none => rfl
  | some st => rw [hs] at this; simp at this

/-- C13 at an example: user 5 goes online at time 3 while user 6 is online, then
offline. -/
theorem presence_round_trip_witness :
    ((NewPresence.Online 6 1).Online 5 3).IsOnline 5 = true ∧
    (((NewPresence.Online 6 1).Online 5 3).Offline 5).IsOnline 5 = false ∧
    statusGet (((NewPresence.Online 6 1).Online 5 3).Offline 5).AllStatuses 5 = none :=
  ⟨(presence_round_trip (NewPresence.Online 6 1) 5 3).1,
   (presence_round_trip (NewPresence.Online 6 1) 5 3).2.2.1,
   (presence_round_trip (NewPresence.Online 6 1) 5 3).2.2.2⟩

/-- C14. For every state the tracker reaches from `NewPresence()` by calls of `Online` and
`Offline`, and every user id `u`: the snapshot `AllStatuses()` has an entry for `u`
exactly when `IsOnline(u)` is true; every entry has `online = true` and a `lastSeen` that
is the time `LastSeen(u)` returns; and when the last call about `u` was `Online(u)` at
clock reading `t`, both the entry and `LastSeen(u)` carry `t`. -/
theorem presence_snapshot_matches (ops : List PresenceOp) (u : Nat) :
    (statusGet (NewPresence.run ops).AllStatuses u).isSome = (NewPresence.run ops).IsOnline u ∧
    (∀ st, statusGet (NewPresence.run ops).AllStatuses u = some st →
      st.online = true ∧ (NewPresence.run ops).LastSeen u = (st.lastSeen, true)) ∧
    (∀ pre post t, ops = pre ++ PresenceOp.online u t :: post →
      (∀ op ∈ post, op.uid ≠ u) →
      (NewPresence.run ops).IsOnline u = true ∧
      (NewPresence.run ops).LastSeen u = (t, true) ∧
      statusGet (NewPresence.run ops).AllStatuses u =
        some { online := true, lastSeen := t }) := by
  have hk : (NewPresence.run ops).Keyed := keyed_run ops NewPresence (by simp [Presence.Keyed, NewPresence])
  refine ⟨allStatuses_isSome _ u, ?_, ?_⟩
  · intro st hst
    rw [allStatuses_keyed _ u hk] at hst
    unfold Presence.LastSeen
    cases hf : (NewPresence.run ops).online.find? (fun e => e.1 == u) with
    | none => rw [hf] at hst; simp at hst
    | some e =>
      rw [hf] at hst
      simp only [Option.some.injEq] at hst
      rw [← hst]
      exact ⟨rfl, rfl⟩
  · intro pre post t hops hpost
    have hls : (NewPresence.run ops).LastSeen u = (t, true) := by
      rw [hops, run_append]
      show (((NewPresence.run pre).Online u t).run post).LastSeen u = (t, true)
      rw [LastSeen_run_other u post _ hpost, LastSeen_Online, if_pos rfl]
    exact ⟨by rw [Presence.IsOnline, hls], hls, allStatuses_of_LastSeen _ u t hk hls⟩

/-- C14 at an example: user 5 goes online at time 3, user 6 goes online at time 4 and
offline again; the snapshot has the entry of user 5 with time 3. -/
theorem presence_snapshot_matches_witness :
    (NewPresence.run [.online 5 3, .online 6 4, .offline 6]).IsOnline 5 = true ∧
    (NewPresence.run [.online 5 3, .online 6 4, .offline 6]).LastSeen 5 = (3, true) ∧
    statusGet (NewPresence.run [.online 5 3, .online 6 4, .offline 6]).AllStatuses 5 =
      some { online := true, lastSeen := 3 } :=
  (presence_snapshot_matches [.online 5 3, .online 6 4, .offline 6] 5).2.2
    [] [.online 6 4, .offline 6] 3 rfl (by decide)

/-- C15. Registry get-or-create, `RoomHubs.hub`.  For a room id that has an entry it
returns the stored broadcaster and leaves the registry unchanged.  For a room id without
an entry it returns the broadcaster of `NewHub`, which carries that room id, has an empty
connection set and an empty broadcast channel; the registry afterwards maps the room id to
it, has one entry more, and maps every other room id as before.  In both cases a second
call with the same room id returns the same broadcaster and leaves the registry as the
first call left it. -/
theorem hub_get_or_create (r : RoomHubs) (roomID : Nat) :
    (∀ h, r.get roomID = some h → r.hub roomID = (h, r)) ∧
    (r.get roomID = none →
      (r.hub roomID).1 = NewHub roomID ∧ (r.hub roomID).1.roomID = roomID ∧
      (r.hub roomID).1.clients = [] ∧ (r.hub roomID).1.broadcast.buf = [] ∧
      (r.hub roomID).1.broadcast.cap = 64 ∧
      (r.hub roomID).2.get roomID = some (NewHub roomID) ∧
      (r.hub roomID).2.hubs.length = r.hubs.length + 1 ∧
      ∀ k, k ≠ roomID → (r.hub roomID).2.get k = r.get k) ∧
    (r.hub roomID).2.hub roomID = ((r.hub roomID).1, (r.hub roomID).2) := by
  refine ⟨fun h hget => hub_present r roomID h hget, ?_, ?_⟩
  · intro hget
    have hh := hub_absent r roomID hget
    refine ⟨by rw [hh], by rw [hh]; rfl, by rw [hh]; rfl, by rw [hh]; rfl, by rw [hh]; rfl,
      ?_, by rw [hh]; rfl, fun k hk => get_hub_ne r roomID k hk⟩
    have := get_hub_self r roomID
    rw [hh] at this ⊢
    exact this
  · exact hub_present _ roomID _ (get_hub_self r roomID)

/-- C15 at an example: the registry that knows room 7 returns its broadcaster unchanged,
and creates a new broadcaster for room 8. -/
theorem hub_get_or_create_witness :
    exRooms.hub 7 = (exHubOf [0] [], exRooms) ∧ (exRooms.hub 8).1 = NewHub 8 ∧
    (exRooms.hub 8).2.hubs.length = exRooms.hubs.length + 1 :=
  ⟨(hub_get_or_create exRooms 7).1 (exHubOf [0] []) rfl,
   ((hub_get_or_create exRooms 8).2.1 rfl).1,
   ((hub_get_or_create exRooms 8).2.1 rfl).2.2.2.2.2.2.1⟩

/-- C16 (what the code does). Any number of goroutines call `RoomHubs.hub`, directly or
through `Emit` or `addClient`, on a registry whose map has distinct keys, and their steps
interleave in any order, since the method takes no lock.  In every state that is reached:
a room id that had an entry still has one, the number of entries has not decreased, the
keys are distinct, every room id with an entry had one before or is the room id of a call
that took a step, and the room id of a call that has returned has an entry; so from an
empty registry, once the calls that took a step have returned, the number of entries is
the number of distinct room ids they asked for.  The broadcaster behind an entry is not
kept: when two calls for room 7 both look before either writes, room 7 is mapped to the
broadcaster at address 0 after the first write and to the one at address 1 after the
second.  Calls that do not overlap never replace an entry. -/
theorem registry_entry_replaced_by_race (ids : Nat → Nat) (r : HubHeap) (sched : List Nat)
    (hkeys : r.keys.Nodup) :
    (∀ k ∈ r.keys, k ∈ (HubPool.run sched (HubPool.start ids r)).registry.keys) ∧
    r.hubs.length ≤ (HubPool.run sched (HubPool.start ids r)).registry.hubs.length ∧
    (HubPool.run sched (HubPool.start ids r)).registry.keys.Nodup ∧
    (∀ k ∈ (HubPool.run sched (HubPool.start ids r)).registry.keys,
      k ∈ r.keys ∨ k ∈ sched.map ids) ∧
    (∀ i p, (HubPool.run sched (HubPool.start ids r)).calls i = .returned p →
      ids i ∈ (HubPool.run sched (HubPool.start ids r)).registry.keys) ∧
    (r.hubs = [] →
      (∀ i ∈ sched, ∃ p, (HubPool.run sched (HubPool.start ids r)).calls i = .returned p) →
      (HubPool.run sched (HubPool.start ids r)).registry.hubs.length =
        (sched.map ids).dedup.length) ∧
    (∀ (s : HubPool), (∀ j k, s.calls j ≠ .create k) → ∀ is, ∀ k ∈ s.registry.keys,
      (HubPool.run (oneByOne is) s).registry.hubs.find? (fun e => e.1 == k) =
        s.registry.hubs.find? (fun e => e.1 == k)) ∧
    ((HubPool.run [0, 1, 0] (HubPool.start (fun _ => 7) ⟨[], [], []⟩)).registry.hubs.find?
        (fun e => e.1 == 7) = some (7, 0) ∧
      (HubPool.run [0, 1, 0, 1] (HubPool.start (fun _ => 7) ⟨[], [], []⟩)).registry.hubs.find?
        (fun e => e.1 == 7) = some (7, 1) ∧
      (HubPool.run [0, 1, 0, 1] (HubPool.start (fun _ => 7) ⟨[], [], []⟩)).registry.objects =
        [NewHub 7, NewHub 7] ∧
      (HubPool.run [0, 1, 0, 1] (HubPool.start (fun _ => 7) ⟨[], [], []⟩)).registry.started =
        [0, 1]) := by
  obtain ⟨hinv, hnd, hmono, hnew⟩ := pool_run_spec ids sched (HubPool.start ids r)
    (pool_start_inv ids r) hkeys
  have hret : ∀ i p, (HubPool.run sched (HubPool.start ids r)).calls i = .returned p →
      ids i ∈ (HubPool.run sched (HubPool.start ids r)).registry.keys := by
    intro i p hp
    rcases hinv i with hc | hc | ⟨q, _, hk⟩
    · rw [hc] at hp; exact HubCall.noConfusion hp
    · rw [hc] at hp; exact HubCall.noConfusion hp
    · exact hk
  have hlen : ∀ x : HubHeap, x.hubs.length = x.keys.length := fun x => by
    simp [HubHeap.keys]
  refine ⟨hmono, ?_, hnd, hnew, hret, ?_, ?_, by decide, by decide, by decide, by decide⟩
  · rw [hlen, hlen]
    exact (List.subperm_of_subset hkeys hmono).length_le
  · intro hempty hall
    rw [hlen]
    apply List.Perm.length_eq
    rw [List.perm_ext_iff_of_nodup hnd (List.nodup_dedup _)]
    intro k
    rw [List.mem_dedup]
    constructor
    · intro hk
      rcases hnew k hk with h | h
      · have : (HubPool.start ids r).registry.keys = [] := by
          show r.keys = []
          simp [HubHeap.keys, hempty]
        rw [this] at h
        simp at h
      · exact h
    · intro hk
      obtain ⟨i, hi, hik⟩ := List.mem_map.mp hk
      obtain ⟨p, hp⟩ := hall i hi
      rw [← hik]
      exact hret i p hp
  · intro s hno is k hk
    exact pool_oneByOne is s hno k hk

/-- C16 at an example: from an empty registry three goroutines ask for the rooms 7, 8 and
7, the first two interleaved; all return and the registry has two entries. -/
theorem registry_entry_replaced_by_race_witness :
    (HubPool.run [0, 1, 1, 0, 2, 2]
      (HubPool.start (fun i => if i = 1 then 8 else 7) ⟨[], [], []⟩)).registry.hubs.length =
      2 ∧
    (HubPool.run [0, 1, 1, 0, 2, 2]
      (HubPool.start (fun i => if i = 1 then 8 else 7) ⟨[], [], []⟩)).registry.keys.Nodup :=
  ⟨((registry_entry_replaced_by_race (fun i => if i = 1 then 8 else 7) ⟨[], [], []⟩
      [0, 1, 1, 0, 2, 2] List.nodup_nil).2.2.2.2.2.1 rfl
      (by
        intro i hi
        simp only [List.mem_cons, List.mem_singleton, List.not_mem_nil, or_false] at hi
        rcases hi with h | h | h | h | h | h <;> subst h <;> exact ⟨_, rfl⟩)).trans
      (by decide),
   (registry_entry_replaced_by_race (fun i => if i = 1 then 8 else 7) ⟨[], [], []⟩
      [0, 1, 1, 0, 2, 2] List.nodup_nil).2.2.1⟩

/-- C17 (what the code does). The reader pump of connection `c` reads a frame of type
`message`.  When the persistence call succeeds with id `id` and creation time `t` and the
broadcast channel has a free slot, the pump handles the frame and goes on with the next
read: exactly one event is put on the broadcast channel of the connection's broadcaster,
it has type `message` and carries `id` and `t`, and nothing else of the broadcaster, no
mailbox, no transport and no presence changes.  When the persistence call fails, the pump
handles the frame and goes on with the next read with the broadcaster, every mailbox and
transport and the presence tracker unchanged: no event is broadcast and nothing is sent
back to the sender.  When the persistence call succeeds and the broadcast channel is
full, the record is stored and the pump waits in the send with no event on the channel;
if the control loop waits for ever inside its own send, no iteration ever takes an event
from the channel, so the stored message is never broadcast; if the control loop is at its
`select`, the send completes once the loop has taken an event. -/
theorem reader_message_frame (now : Ptr → Nat)
    (create : List Message → Message → Option (Nat × Nat)) (c : Ptr)
    (payload : List (String × Json)) (w : World) :
    (∀ id t,
      create w.creates (Client.newMessage w.hub.roomID (w.mem c).userID payload) =
        some (id, t) →
      w.hub.broadcast.closed = false →
      w.hub.broadcast.buf.length < w.hub.broadcast.cap →
      ∃ w' typ text imageUrl,
        Client.readPump now create c [.frame ⟨"message", payload⟩] w = .running w' ∧
        w'.hub.broadcast.buf = w.hub.broadcast.buf ++
          [⟨"message", .message id w.hub.roomID (w.mem c).userID typ text imageUrl t⟩] ∧
        w'.hub.clients = w.hub.clients ∧ w'.hub.roomID = w.hub.roomID ∧
        w'.mem = w.mem ∧ w'.presence = w.presence ∧ w'.loop = w.loop ∧
        w'.creates =
          w.creates ++ [Client.newMessage w.hub.roomID (w.mem c).userID payload] ∧
        ∀ reads, Client.readPump now create c (.frame ⟨"message", payload⟩ :: reads) w =
          Client.readPump now create c reads w') ∧
    (create w.creates (Client.newMessage w.hub.roomID (w.mem c).userID payload) = none →
      Client.readPump now create c [.frame ⟨"message", payload⟩] w =
        .running ⟨w.hub, w.mem, w.presence,
          w.creates ++ [Client.newMessage w.hub.roomID (w.mem c).userID payload],
          w.loop⟩ ∧
      ∀ reads, Client.readPump now create c (.frame ⟨"message", payload⟩ :: reads) w =
        Client.readPump now create c reads ⟨w.hub, w.mem, w.presence,
          w.creates ++ [Client.newMessage w.hub.roomID (w.mem c).userID payload],
          w.loop⟩) ∧
    (∀ id t,
      create w.creates (Client.newMessage w.hub.roomID (w.mem c).userID payload) =
        some (id, t) →
      w.hub.broadcast.closed = false →
      ¬ w.hub.broadcast.buf.length < w.hub.broadcast.cap →
      (∀ reads, Client.readPump now create c (.frame ⟨"message", payload⟩ :: reads) w =
        .blocked ⟨w.hub, w.mem, w.presence,
          w.creates ++ [Client.newMessage w.hub.roomID (w.mem c).userID payload],
          w.loop⟩) ∧
      (w.loop = .stuck → ∀ sel,
        World.loopRun now ⟨w.hub, w.mem, w.presence,
          w.creates ++ [Client.newMessage w.hub.roomID (w.mem c).userID payload],
          w.loop⟩ sel =
        ⟨w.hub, w.mem, w.presence,
          w.creates ++ [Client.newMessage w.hub.roomID (w.mem c).userID payload],
          w.loop⟩) ∧
      (w.loop = .selecting → w.hub.WF w.mem →
        w.hub.broadcast.buf.length = w.hub.broadcast.cap →
        ∀ ev, ∃ w2,
          World.Broadcast (World.loopRun now ⟨w.hub, w.mem, w.presence,
            w.creates ++ [Client.newMessage w.hub.roomID (w.mem c).userID payload],
            w.loop⟩ .broadcast) ev = .running w2 ∧
          w2.hub.broadcast.buf = w.hub.broadcast.buf.tail ++ [ev])) := by
  refine ⟨?_, ?_, ?_⟩
  · intro id t hc hbo hroom
    obtain ⟨w', hrun, hbuf, _, _, hcl, hrid, hmem, hpr, hlp, hcr⟩ :=
      readFrame_message_stored create c payload w id t hc hbo hroom
    refine ⟨w', _, _, _, ?_, hbuf, hcl, hrid, hmem, hpr, hlp, hcr, ?_⟩
    · rw [readPump_frame now create c _ [] w w' hrun, readPump_nil]
    · intro reads
      exact readPump_frame now create c _ reads w w' hrun
  · intro hc
    have e := readFrame_message_failed create c payload w hc
    refine ⟨?_, ?_⟩
    · rw [readPump_frame now create c _ [] w _ e, readPump_nil]
    · intro reads
      exact readPump_frame now create c _ reads w _ e
  · intro id t hc hbo hfull
    have e := readFrame_message_full create c payload w id t hc hbo hfull
    refine ⟨fun reads => readPump_frame_blocked now create c _ reads w _ e, ?_, ?_⟩
    · intro hst sel
      exact loopRun_stuck now _ sel hst
    · intro hsel hwf hlen ev
      obtain ⟨w2, hrun, hbuf, _⟩ := Broadcast_after_loop now
        ⟨w.hub, w.mem, w.presence,
          w.creates ++ [Client.newMessage w.hub.roomID (w.mem c).userID payload], w.loop⟩
        ev hsel hwf hlen
      exact ⟨w2, hrun, hbuf⟩

/-- C17 at an example: connection 0 of user 100 is registered in room 7, 64 events fill
the broadcast channel and the register case for connection 1 has left the loop waiting in
its own send.  The reader of connection 0 then reads a `message` frame and persistence
assigns id 5 and time 9: the record is stored, the reader waits for ever, the frame read
next is never handled, and the channel holds the 64 events it held, none of them the
`message` event. -/
theorem reader_message_frame_witness :
    (World.loopRun exNow exWorldFull (.register 1)).loop = .stuck ∧
    Client.readPump exNow (fun _ _ => some (5, 9)) 0
        [.frame ⟨"message", [("text", .str "hi")]⟩, .frame ⟨"typing", []⟩]
        (World.loopRun exNow exWorldFull (.register 1)) =
      .blocked ⟨(World.loopRun exNow exWorldFull (.register 1)).hub,
        (World.loopRun exNow exWorldFull (.register 1)).mem,
        (World.loopRun exNow exWorldFull (.register 1)).presence,
        [⟨0, 0, 0, 7, 100, "text", "hi", ""⟩], .stuck⟩ ∧
    (World.loopRun exNow exWorldFull (.register 1)).hub.broadcast.buf =
      List.replicate 64 exEvent :=
  ⟨by decide,
   ((reader_message_frame exNow (fun _ _ => some (5, 9)) 0 [("text", .str "hi")]
      (World.loopRun exNow exWorldFull (.register 1))).2.2 5 9 rfl (by decide)
      (by decide)).1 [.frame ⟨"typing", []⟩],
   by decide⟩

/-- C19 (what the code does). The reader loop of connection `c` meets a decode or transport
error.  It handles no frame that would be read after the error.  When the control loop of
the broadcaster is at its `select`, the deferred function hands `c` to the loop, which
removes it from the set, then closes the transport, then marks the user offline, so that
`IsOnline` is false for the user.  When the control loop waits for ever inside its own
send, nothing receives the unregister: the reader waits for ever in the first of the three
steps, and the state is unchanged, so the transport is not closed by the reader and the
presence tracker is not told. -/
theorem reader_exit_needs_live_loop (now : Ptr → Nat)
    (create : List Message → Message → Option (Nat × Nat)) (c : Ptr)
    (reads : List ReadJSON) (w : World) :
    Client.readPump now create c (.error :: reads) w =
      Client.readPump now create c [.error] w ∧
    (w.loop = .selecting → w.hub.WF w.mem →
      ∃ w', Client.readPump now create c (.error :: reads) w = .running w' ∧
        w'.hub = (w.loopRun now (.unregister c)).hub ∧
        w'.mem = (w.loopRun now (.unregister c)).mem.closeConn c ∧
        w'.presence = w.presence.Offline (w.mem c).userID ∧
        c ∉ w'.hub.clients ∧ (w'.mem c).conn.closed = true ∧
        w'.presence.IsOnline (w.mem c).userID = false) ∧
    (w.loop = .stuck →
      Client.readPump now create c (.error :: reads) w = .blocked w) := by
  refine ⟨by simp only [Client.readPump], ?_, ?_⟩
  · intro hsel hwf
    obtain ⟨w', hrun, hh, hm, hp, hnot, hcl, _⟩ := readPumpExit_selecting now c w hsel hwf
    refine ⟨w', by simp only [Client.readPump, hrun], hh, hm, hp, hnot, hcl, ?_⟩
    rw [hp]
    exact IsOnline_Offline _ _
  · intro hst
    simp only [Client.readPump, Client.readPumpExit, hst]

/-- C19 at an example: connection 0 of user 100 is registered in room 7 and the user is
online; 64 events fill the broadcast channel and the register case for connection 1 leaves
the loop waiting in its own send.  The reader of connection 0 then meets an error: it waits
for ever, the transport of connection 0 stays open and user 100 stays online. -/
theorem reader_exit_needs_live_loop_witness :
    (World.loopRun exNow exWorldFull (.register 1)).loop = .stuck ∧
    Client.readPump exNow (fun _ _ => none) 0 [.error]
        (World.loopRun exNow exWorldFull (.register 1)) =
      .blocked (World.loopRun exNow exWorldFull (.register 1)) ∧
    ((World.loopRun exNow exWorldFull (.register 1)).mem 0).conn.closed = false ∧
    (World.loopRun exNow exWorldFull (.register 1)).presence.IsOnline 100 = true ∧
    0 ∈ (World.loopRun exNow exWorldFull (.register 1)).hub.clients :=
  ⟨by decide,
   (reader_exit_needs_live_loop exNow (fun _ _ => none) 0 []
      (World.loopRun exNow exWorldFull (.register 1))).2.2 (by decide),
   by decide, by decide, by decide⟩

/-- C20. The upgrade endpoint.  When the room lookup fails the request is answered with 404
and `room not found`; when the room is private and the membership query finds no record
for the room and the user it is answered with 403 and `not a member of private room`; in
both cases the registry, the memory and the presence tracker are unchanged, so nothing was
upgraded, no connection was registered and the user was not marked online.  For a public
room, and for a private room whose membership query succeeds, the endpoint does what
`Handler.initWS` does: when the upgrade succeeds the user is marked online, the new client
is created for that user, the broadcaster of the room exists, and the client is handed to
it for registration. -/
theorem upgrade_endpoint_gate (findRoom : Nat → Option Room) (isMember : Nat → Nat → Bool)
    (upgradeOk : Bool) (now : Nat) (p : Ptr) (roomID userID : Nat) (s : Server) :
    (findRoom roomID = none →
      Handler.RoomWebSocket findRoom isMember upgradeOk now p roomID userID s =
        (.rejected 404 "room not found", s)) ∧
    (∀ r, findRoom roomID = some r → r.isPrivate = true → isMember roomID userID = false →
      Handler.RoomWebSocket findRoom isMember upgradeOk now p roomID userID s =
        (.rejected 403 "not a member of private room", s)) ∧
    (∀ r, findRoom roomID = some r → r.isPrivate = false ∨ isMember roomID userID = true →
      Handler.RoomWebSocket findRoom isMember upgradeOk now p roomID userID s =
        Handler.initWS upgradeOk now p roomID userID s ∧
      (upgradeOk = true →
        (Handler.RoomWebSocket findRoom isMember upgradeOk now p roomID userID s).1 =
          .upgraded p ∧
        (Handler.RoomWebSocket findRoom isMember upgradeOk now p roomID userID s).2.presence.IsOnline
          userID = true ∧
        (Handler.RoomWebSocket findRoom isMember upgradeOk now p roomID userID s).2.mem p =
          Client.fresh userID ∧
        ((Handler.RoomWebSocket findRoom isMember upgradeOk now p roomID userID
          s).2.rooms.get roomID).isSome = true)) := by
  refine ⟨?_, ?_, ?_⟩
  · intro hf
    simp only [Handler.RoomWebSocket, hf]
  · intro r hf hp hm
    simp only [Handler.RoomWebSocket, hf, hp, hm]
    rfl
  · intro r hf hor
    have e : Handler.RoomWebSocket findRoom isMember upgradeOk now p roomID userID s =
        Handler.initWS upgradeOk now p roomID userID s := by
      rcases hor with hp | hm
      · simp [Handler.RoomWebSocket, hf, hp]
      · simp [Handler.RoomWebSocket, hf, hm]
    refine ⟨e, ?_⟩
    intro hup
    subst hup
    rw [e]
    refine ⟨rfl, IsOnline_Online _ _ _, ?_, ?_⟩
    · simp [Handler.initWS, Handler.addClient]
    · simp only [Handler.initWS, if_true, Handler.addClient]
      rw [get_hub_self]
      rfl

/-- C20 at an example: room 7 is private; user 100 has no membership record and is turned
away with 403, user 101 has one and is upgraded and marked online. -/
theorem upgrade_endpoint_gate_witness :
    Handler.RoomWebSocket (fun n => if n = 7 then some ⟨7, true⟩ else none)
        (fun _ u => u == 101) true 3 1 7 100 ⟨exRooms, exMem, NewPresence⟩ =
      (.rejected 403 "not a member of private room", ⟨exRooms, exMem, NewPresence⟩) ∧
    (Handler.RoomWebSocket (fun n => if n = 7 then some ⟨7, true⟩ else none)
        (fun _ u => u == 101) true 3 1 7 101 ⟨exRooms, exMem, NewPresence⟩).1 =
      .upgraded 1 ∧
    Handler.RoomWebSocket (fun n => if n = 7 then some ⟨7, true⟩ else none)
        (fun _ u => u == 101) true 3 1 8 101 ⟨exRooms, exMem, NewPresence⟩ =
      (.rejected 404 "room not found", ⟨exRooms, exMem, NewPresence⟩) :=
  ⟨(upgrade_endpoint_gate (fun n => if n = 7 then some ⟨7, true⟩ else none)
      (fun _ u => u == 101) true 3 1 7 100 ⟨exRooms, exMem, NewPresence⟩).2.1 ⟨7, true⟩
      rfl rfl rfl,
   ((upgrade_endpoint_gate (fun n => if n = 7 then some ⟨7, true⟩ else none)
      (fun _ u => u == 101) true 3 1 7 101 ⟨exRooms, exMem, NewPresence⟩).2.2 ⟨7, true⟩
      rfl (Or.inr rfl)).2 rfl |>.1,
   (upgrade_endpoint_gate (fun n => if n = 7 then some ⟨7, true⟩ else none)
      (fun _ u => u == 101) true 3 1 8 101 ⟨exRooms, exMem, NewPresence⟩).1 rfl⟩

/-- C21. The connection set of a broadcaster is written only by its own control loop.
A call of `Broadcast` by another goroutine and an iteration of a writer pump leave the set
as it was.  A registry lookup, an `Emit` and a client registration (`addClient`) leave the
set of every broadcaster as it was, and a broadcaster they create has the empty set.  A
frame handled by a reader pump leaves the set as it was, and after the deferred function
of a reader the broadcaster is the one the loop left when it took the unregister.  The
REST send-message handler and the upgrade endpoint leave the set of every broadcaster as
it was.  Inside one iteration of the loop the set is first mutated and then visited: the
iteration offers its event once to every connection of the mutated set and keeps those
with a free slot. -/
theorem connection_set_owned_by_loop (now : Ptr → Nat) :
    (∀ (h : Hub) (mem : Mem) (act : Action) (s' : Hub × Mem), (∀ sel, act ≠ .loop sel) →
      System.step now h mem act = .running s' ∨ System.step now h mem act = .blocked s' →
      s'.1.clients = h.clients) ∧
    (∀ (s : RoomHubs × Mem) (op : RegistryOp) (s' : RoomHubs × Mem),
      (∀ roomID sel, op ≠ .loop roomID sel) →
      RoomHubs.step now s op = .running s' ∨ RoomHubs.step now s op = .blocked s' →
      s.1.keepsSets s'.1) ∧
    (∀ create (c : Ptr) (incoming : wsIncoming) (w w' : World),
      Client.readFrame create c incoming w = .running w' ∨
        Client.readFrame create c incoming w = .blocked w' →
      w'.hub.clients = w.hub.clients) ∧
    (∀ (c : Ptr) (w w' : World),
      Client.readPumpExit now c w = .running w' ∨ Client.readPumpExit now c w = .blocked w' →
      w'.hub = (w.loopRun now (.unregister c)).hub) ∧
    (∀ create (roomID userID : Nat) (bound : Option SendMessageRequest) (s s' : RestState),
      Handler.SendMessageREST create roomID userID bound s = .running s' ∨
        Handler.SendMessageREST create roomID userID bound s = .blocked s' →
      s.rooms.keepsSets s'.rooms) ∧
    (∀ findRoom isMember upgradeOk (t : Nat) (p : Ptr) (roomID userID : Nat) (s : Server),
      s.rooms.keepsSets
        (Handler.RoomWebSocket findRoom isMember upgradeOk t p roomID userID s).2.rooms) ∧
    (∀ (h : Hub) (mem : Mem) (sel : Select) (h' : Hub) (mem' : Mem), h.clients.Nodup →
      h.broadcast.closed = false →
      h.Run now mem sel = .running (h', mem') →
      h'.clients = (sel.keys h.clients).filter mem.roomy ∧
      ∃ ev, ∀ d ∈ sel.keys h.clients, mem' d = (mem d).offer ev) := by
  refine ⟨fun h mem act s' hact hs => step_foreign_clients now h mem act s' hact hs,
    fun s op s' hop hs => step_keepsSets now s op s' hop hs,
    fun create c incoming w w' hs => readFrame_clients create c incoming w w' hs,
    fun c w w' hs => readPumpExit_hub now c w w' hs,
    fun create roomID userID bound s s' hs =>
      SendMessageREST_keepsSets create roomID userID bound s s' hs,
    fun findRoom isMember upgradeOk t p roomID userID s =>
      RoomWebSocket_keepsSets findRoom isMember upgradeOk t p roomID userID s, ?_⟩
  intro h mem sel h' mem' hnd hbo hrun
  obtain ⟨hcl, _, _, _, ev, _, _, _, hoff, _⟩ :=
    Run_running_spec now h mem sel h' mem' hnd hbo hrun
  exact ⟨hcl, ev, hoff⟩

/-- C21 at an example: a call of `Broadcast` on the broadcaster of room 7 with connection
0 registered, and an `Emit` to room 7 through the registry, leave the set at connection
0. -/
theorem connection_set_owned_by_loop_witness :
    (∃ s', System.step exNow (exHubOf [0] []) exMem (.emit exEvent) = .running s' ∧
      s'.1.clients = [0]) ∧
    (∃ s', RoomHubs.step exNow (exRooms, exMem) (.emit 7 exEvent) = .running s' ∧
      ∃ h1, s'.1.get 7 = some h1 ∧ h1.clients = [0]) := by
  constructor
  · obtain ⟨s', hrun⟩ : ∃ s', System.step exNow (exHubOf [0] []) exMem (.emit exEvent) =
        .running s' := ⟨_, rfl⟩
    exact ⟨s', hrun, (connection_set_owned_by_loop exNow).1 (exHubOf [0] []) exMem
      (.emit exEvent) s' (fun sel hsel => Action.noConfusion hsel) (Or.inl hrun)⟩
  · obtain ⟨s', hrun⟩ : ∃ s', RoomHubs.step exNow (exRooms, exMem) (.emit 7 exEvent) =
        .running s' := ⟨_, rfl⟩
    have hk := (connection_set_owned_by_loop exNow).2.1 (exRooms, exMem) (.emit 7 exEvent) s'
      (fun roomID sel hsel => RegistryOp.noConfusion hsel) (Or.inl hrun)
    have hsome : (s'.1.get 7).isSome = true := by
      have e : (match RoomHubs.step exNow (exRooms, exMem) (.emit 7 exEvent) with
          | .running s => (s.1.get 7).isSome
          | _ => false) = true := by decide
      rw [hrun] at e
      exact e
    obtain ⟨h1, hg⟩ := Option.isSome_iff_exists.mp hsome
    rcases hk 7 h1 hg with ⟨h, hget, hc⟩ | ⟨hnone, _⟩
    · have hh : h = exHubOf [0] [] := by
        have e : exRooms.get 7 = some (exHubOf [0] []) := by decide
        rw [e] at hget
        simp only [Option.some.injEq] at hget
        exact hget.symm
      exact ⟨s', hrun, h1, hg, by rw [hc, hh]; rfl⟩
    · have e : exRooms.get 7 = some (exHubOf [0] []) := by decide
      rw [e] at hnone
      simp at hnone

/-- C22 (what the code does). Two goroutines call `RoomHubs.hub` for a room id that has no
entry.  When the first call returns before the second starts, one broadcaster is created
and started and both calls return it.  When both calls make their lookup before either
writes the map, which nothing in `RoomHubs.hub` prevents, each call creates and starts a
broadcaster of its own: two broadcasters exist for the room, the two calls return
different ones, and the map keeps only the one written last. -/
theorem hub_creation_race (r : HubHeap) (roomID : Nat)
    (hno : r.hubs.find? (fun e => e.1 == roomID) = none) :
    (∃ r1, HubRace.run [false, false, true] ⟨.lookup roomID, .lookup roomID, r⟩ =
        ⟨.returned r.objects.length, .returned r.objects.length, r1⟩ ∧
      r1.objects = r.objects ++ [NewHub roomID] ∧
      r1.started = r.started ++ [r.objects.length] ∧
      r1.hubs.find? (fun e => e.1 == roomID) = some (roomID, r.objects.length)) ∧
    (∃ r2, HubRace.run [false, true, false, true] ⟨.lookup roomID, .lookup roomID, r⟩ =
        ⟨.returned r.objects.length, .returned (r.objects.length + 1), r2⟩ ∧
      r2.objects = r.objects ++ [NewHub roomID, NewHub roomID] ∧
      r2.started = r.started ++ [r.objects.length, r.objects.length + 1] ∧
      r2.hubs.find? (fun e => e.1 == roomID) = some (roomID, r.objects.length + 1)) := by
  constructor
  · refine ⟨(HubCall.step r (.create roomID)).2, ?_, rfl, rfl, ?_⟩
    · simp only [HubRace.run, HubCall_step_lookup_none r roomID hno,
        HubCall_step_lookup_created]
      rfl
    · simp [HubCall.step]
  · refine ⟨(HubCall.step (HubCall.step r (.create roomID)).2 (.create roomID)).2, ?_, ?_, ?_,
      ?_⟩
    · simp only [HubRace.run, HubCall_step_lookup_none r roomID hno]
      simp [HubCall.step]
    · simp [HubCall.step]
    · simp [HubCall.step]
    · simp [HubCall.step]

/-- C22 at an example: on an empty registry two callers ask for room 7 and both look
before either writes; the first gets the broadcaster at address 0, the second the one at
address 1, and two loops are started. -/
theorem hub_creation_race_witness :
    ∃ r2, HubRace.run [false, true, false, true] ⟨.lookup 7, .lookup 7, ⟨[], [], []⟩⟩ =
        ⟨.returned 0, .returned 1, r2⟩ ∧
      r2.objects = [NewHub 7, NewHub 7] ∧ r2.started = [0, 1] ∧
      r2.hubs.find? (fun e => e.1 == 7) = some (7, 1) :=
  (hub_creation_race ⟨[], [], []⟩ 7 rfl).2

/-- C23 (what the code does). `Handler.initWS` calls `Online(user)` for every upgraded
connection and the deferred function of a reader pump calls `Offline(user)` when it runs
to its end; the tracker keeps one entry per user and does not count connections.  So
after every reader exit `IsOnline` is false for the user of that connection, whatever
other connections the user has.  When no user opens a connection while they have one
open, `IsOnline(u)` is true exactly when `u` has an opened connection whose reader loop
has not exited.  When user 100 opens two connections and the reader of the first exits,
user 100 still has an open connection and `IsOnline(100)` is false. -/
theorem presence_ignores_other_connections (mem : Mem) :
    (∀ (now : Nat) (p : Ptr) (roomID userID : Nat) (s : Server),
      (Handler.initWS true now p roomID userID s).2.presence =
        s.presence.Online userID now) ∧
    (∀ (now : Ptr → Nat) (c : Ptr) (w w' : World),
      Client.readPumpExit now c w = .running w' →
      w'.presence = w.presence.Offline (w.mem c).userID) ∧
    (∀ (s : Sessions) (p : Ptr),
      (s.step (.readerExit p)).presence.IsOnline (s.mem p).userID = false) ∧
    (∀ evs, (Sessions.init mem).Valid evs → (Sessions.init mem).OneEach evs →
      ∀ u, ((Sessions.init mem).run evs).presence.IsOnline u =
        ((Sessions.init mem).run evs).connected u) ∧
    ((Sessions.init mem).Valid [.opened 0 100 1, .opened 1 100 2, .readerExit 0] ∧
      ((Sessions.init mem).run
        [.opened 0 100 1, .opened 1 100 2, .readerExit 0]).connected 100 = true ∧
      ((Sessions.init mem).run
        [.opened 0 100 1, .opened 1 100 2, .readerExit 0]).presence.IsOnline 100 =
          false) := by
  refine ⟨initWS_presence, readPumpExit_presence, ?_, ?_, ?_⟩
  · intro s p
    exact IsOnline_Offline _ _
  · intro evs hv ho
    exact sessions_run_inv evs (Sessions.init mem) List.nodup_nil
      (fun q1 h1 => absurd h1 (List.not_mem_nil q1))
      (fun u => by simp [Sessions.init, Sessions.connected, Presence.IsOnline,
        Presence.LastSeen, NewPresence]) hv ho
  · refine ⟨⟨by simp [Sessions.init], by simp [Sessions.step, Sessions.init],
      by simp [Sessions.step, Sessions.init], trivial⟩, ?_, ?_⟩
    · simp [Sessions.run, Sessions.step, Sessions.init, Sessions.connected, Client.fresh]
    · exact IsOnline_Offline _ _

/-- C23 at an example: user 100 opens connection 0, its reader exits, and the user opens
connection 1: the tracker says online, and the user has an open connection. -/
theorem presence_ignores_other_connections_witness :
    ((Sessions.init exMem).run
      [.opened 0 100 1, .readerExit 0, .opened 1 100 2]).presence.IsOnline 100 =
      ((Sessions.init exMem).run
        [.opened 0 100 1, .readerExit 0, .opened 1 100 2]).connected 100 ∧
    ((Sessions.init exMem).run
      [.opened 0 100 1, .readerExit 0, .opened 1 100 2]).connected 100 = true :=
  ⟨(presence_ignores_other_connections exMem).2.2.2.1
      [.opened 0 100 1, .readerExit 0, .opened 1 100 2]
      ⟨by decide, by decide, by decide, trivial⟩
      ⟨by decide, by decide, trivial⟩ 100,
   by decide⟩

/-- C24. Capacity invariant.  A new broadcaster has an empty broadcast channel of 64 slots
and a new connection an empty mailbox of 32 slots.  In every state that an interleaving of
loop iterations (register, unregister, broadcast), calls of `Broadcast` (by `Emit` or a
reader) and writer iterations reaches from a new broadcaster and new connections, whether
the last step completed or is left waiting in a send, the broadcast channel holds at most
64 events and every mailbox at most 32; and the steps keep these bounds from any state
that has them. -/
theorem capacity_invariant (now : Ptr → Nat) (acts : List Action) (roomID : Nat)
    (users : Ptr → Nat) (s' : Hub × Mem) :
    ((NewHub roomID).broadcast.buf = [] ∧ (NewHub roomID).broadcast.cap = 64 ∧
      ∀ u, (Client.fresh u).send.buf = [] ∧ (Client.fresh u).send.cap = 32) ∧
    (System.runs now acts (NewHub roomID, fun p => Client.fresh (users p)) = .running s' ∨
        System.runs now acts (NewHub roomID, fun p => Client.fresh (users p)) =
          .blocked s' →
      s'.1.broadcast.cap = 64 ∧ s'.1.broadcast.buf.length ≤ 64 ∧
      ∀ p, (s'.2 p).send.cap = 32 ∧ (s'.2 p).send.buf.length ≤ 32) ∧
    (∀ h mem, h.Capped mem →
      System.runs now acts (h, mem) = .running s' ∨
        System.runs now acts (h, mem) = .blocked s' →
      s'.1.Capped s'.2) := by
  refine ⟨⟨rfl, rfl, fun u => ⟨rfl, rfl⟩⟩, ?_, ?_⟩
  · intro hs
    have h0 : (NewHub roomID).Capped (fun p => Client.fresh (users p)) :=
      ⟨rfl, by simp [NewHub, Chan.make], fun p => ⟨rfl, by simp [Client.fresh, Chan.make]⟩⟩
    exact system_runs_capped now acts (NewHub roomID, fun p => Client.fresh (users p)) s' h0 hs
  · intro h mem hc hs
    exact system_runs_capped now acts (h, mem) s' hc hs

/-- C24 at an example: 65 calls of `Broadcast` on a new broadcaster whose loop takes
nothing: the 65th waits, and the channel holds 64 events. -/
theorem capacity_invariant_witness :
    ∃ s', System.runs exNow (List.replicate 65 (.emit exEvent)) (NewHub 7, exMem) =
        .blocked s' ∧
      s'.1.broadcast.buf.length = 64 ∧
      (s'.1.broadcast.cap = 64 ∧ s'.1.broadcast.buf.length ≤ 64 ∧
        ∀ p, (s'.2 p).send.cap = 32 ∧ (s'.2 p).send.buf.length ≤ 32) := by
  obtain ⟨s', hrun⟩ : ∃ s', System.runs exNow (List.replicate 65 (.emit exEvent))
      (NewHub 7, exMem) = .blocked s' := ⟨_, rfl⟩
  have hlen : s'.1.broadcast.buf.length = 64 := by
    have e : (match System.runs exNow (List.replicate 65 (.emit exEvent)) (NewHub 7, exMem) with
        | .blocked s => s.1.broadcast.buf.length
        | _ => 0) = 64 := by decide
    rw [hrun] at e
    exact e
  exact ⟨s', hrun, hlen,
    (capacity_invariant exNow (List.replicate 65 (.emit exEvent)) 7 (fun p => 100 + p) s').2.1
      (Or.inr hrun)⟩

/-- C25. Mailbox safety.  An interleaving of loop iterations, calls of `Broadcast` and
writer iterations on a new broadcaster, in which every connection registers at most once
and registers with an open mailbox, never panics: no step sends to a closed mailbox and
none closes a mailbox a second time.  In every state it reaches, whether the last step
completed or is left waiting in a send, every connection in the set has an open mailbox,
every connection with a closed mailbox is outside the set, and the keys of the set are
distinct. -/
theorem mailbox_safety (now : Ptr → Nat) (acts : List Action) (roomID : Nat) (mem : Mem)
    (hopen : ∀ c ∈ sysRegisters acts, (mem c).send.closed = false)
    (hdist : (sysRegisters acts).Nodup) :
    System.runs now acts (NewHub roomID, mem) ≠ .panic ∧
    ∀ s', System.runs now acts (NewHub roomID, mem) = .running s' ∨
        System.runs now acts (NewHub roomID, mem) = .blocked s' →
      (∀ c ∈ s'.1.clients, (s'.2 c).send.closed = false) ∧
      (∀ c, (s'.2 c).send.closed = true → c ∉ s'.1.clients) ∧
      s'.1.clients.Nodup := by
  have h0 : (NewHub roomID).Safe mem :=
    ⟨List.nodup_nil, rfl, fun c hc => absurd hc (List.not_mem_nil c)⟩
  obtain ⟨hnp, hall⟩ := system_runs_safe now acts (NewHub roomID, mem) h0 hdist
    (fun c hc => ⟨List.not_mem_nil c, hopen c hc⟩)
  refine ⟨hnp, ?_⟩
  intro s' hs'
  obtain ⟨hnd, _, hop⟩ := hall s' hs'
  refine ⟨hop, ?_, hnd⟩
  intro c hc hmem
  rw [hop c hmem] at hc
  exact Bool.noConfusion hc

/-- C25 at an example: connection 0 registers with 31 events in its mailbox; the
`presence_update` fills the mailbox, the delivery of `presence_join` drops the connection
and closes the mailbox, and the unregister that follows does not close it again: the run
completes with the connection outside the set. -/
theorem mailbox_safety_witness :
    ∃ s', System.runs exNow
        [Action.loop (.register 0), Action.loop .broadcast, Action.loop (.unregister 0)]
        (NewHub 7, exMemFilled 31) = .running s' ∧
      (s'.2 0).send.closed = true ∧ 0 ∉ s'.1.clients := by
  obtain ⟨s', hrun⟩ : ∃ s', System.runs exNow
      [Action.loop (.register 0), Action.loop .broadcast, Action.loop (.unregister 0)]
      (NewHub 7, exMemFilled 31) = .running s' := ⟨_, rfl⟩
  have hcl : (s'.2 0).send.closed = true := by
    have e : (match System.runs exNow
        [Action.loop (.register 0), Action.loop .broadcast, Action.loop (.unregister 0)]
        (NewHub 7, exMemFilled 31) with
        | .running s => (s.2 0).send.closed
        | _ => false) = true := by decide
    rw [hrun] at e
    exact e
  exact ⟨s', hrun, hcl,
    ((mailbox_safety exNow
      [Action.loop (.register 0), Action.loop .broadcast, Action.loop (.unregister 0)]
      7 (exMemFilled 31) (by decide) (by decide)).2 s' (Or.inl hrun)).2.1 0 hcl⟩

/-- C26 (amended). The unregister case for a connection `c` that is not in the set, on a
broadcaster with distinct keys, open mailboxes of its members, and an open broadcast
channel with a free slot.  The iteration completes.  The case itself removes nothing and
closes nothing: `presence_leave` with the user id of `c` is put behind the pending events,
and one `presence_update` with the snapshot of the set is offered to every connection of
the set, by the drop-on-full policy: a member with a free slot gets it appended and stays,
a member with a full mailbox is closed and removed; nothing outside the set changes, so
the mailbox of `c` is not touched.  When every member has a free slot the set is unchanged
and no mailbox is closed. -/
theorem unregister_absent_connection (now : Ptr → Nat) (h : Hub) (mem : Mem) (c : Ptr)
    (hnd : h.clients.Nodup) (hbo : h.broadcast.closed = false)
    (hroom : h.broadcast.buf.length < h.broadcast.cap)
    (hop : ∀ d ∈ h.clients, (mem d).send.closed = false) (hc : c ∉ h.clients) :
    ∃ h' mem', h.Run now mem (.unregister c) = .running (h', mem') ∧
      h'.broadcast.buf =
        h.broadcast.buf ++ [⟨"presence_leave", .userId (mem c).userID⟩] ∧
      h'.clients = h.clients.filter mem.roomy ∧
      (∀ d ∈ h.clients,
        mem' d = (mem d).offer ⟨"presence_update", .status (h.clientsStatus now mem)⟩) ∧
      (∀ p, p ∉ h.clients → mem' p = mem p) ∧
      ((∀ d ∈ h.clients, (mem d).send.buf.length < (mem d).send.cap) →
        h'.clients = h.clients ∧
        (∀ p, (mem' p).send.closed = (mem p).send.closed) ∧
        ∀ d ∈ h.clients, (mem' d).send.buf = (mem d).send.buf ++
          [⟨"presence_update", .status (h.clientsStatus now mem)⟩]) := by
  refine ⟨_, _, Run_unregister_absent_eq now h mem c hnd hbo hroom hop hc, rfl, rfl,
    ?_, ?_, ?_⟩
  · intro d hd
    simp [Mem.offer, hd, clientsStatus_eq_snapshot]
  · intro p hp
    exact offer_not_mem _ _ _ _ hp
  · intro hall
    refine ⟨filter_roomy_all mem h.clients hall, ?_, ?_⟩
    · intro p
      by_cases hp : p ∈ h.clients
      · rw [offer_room _ _ _ _ hp (hall p hp)]
      · rw [offer_not_mem _ _ _ _ hp]
    · intro d hd
      rw [offer_room _ _ _ _ hd (hall d hd)]
      rfl

/-- C26 (amended) at an example: connection 0 is registered in room 7 with an empty
mailbox; the unregister of connection 5, which never registered, leaves the set as it was,
queues `presence_leave` of user 105 and appends a `presence_update` to the mailbox of
connection 0. -/
theorem unregister_absent_connection_witness :
    ∃ h' mem', (exHubOf [0] []).Run exNow exMem (.unregister 5) = .running (h', mem') ∧
      h'.broadcast.buf = [⟨"presence_leave", .userId 105⟩] ∧
      h'.clients = [0] ∧
      (∀ p, (mem' p).send.closed = (exMem p).send.closed) ∧
      (mem' 0).send.buf = [⟨"presence_update", .status [(100, ⟨true, 0⟩)]⟩] := by
  obtain ⟨h', mem', hrun, hq, _, _, _, hall⟩ :=
    unregister_absent_connection exNow (exHubOf [0] []) exMem 5 (by decide) rfl
      (by decide) (by decide) (by decide)
  obtain ⟨hcl, hclosed, hbuf⟩ := hall (by decide)
  exact ⟨h', mem', hrun, hq, hcl, hclosed, hbuf 0 (by decide)⟩

/-- C26 as stated fails when a member has a full mailbox.  Connection 0 is registered in
room 7 and its mailbox holds 32 events; the unregister of connection 5, which is not in
the set, completes, and afterwards the set is empty and the mailbox of connection 0 is
closed. -/
theorem unregister_absent_connection_counterexample :
    ∃ h' mem', (exHubOf [0] []).Run exNow (exMemFilled 32) (.unregister 5) =
        .running (h', mem') ∧
      5 ∉ (exHubOf [0] []).clients ∧ (exMemFilled 32 0).send.closed = false ∧
      h'.clients = [] ∧ (mem' 0).send.closed = true :=
  ⟨_, _, rfl, by decide, by decide, by decide, by decide⟩

/-- C27. The payload of the `presence_update` built by a register or unregister iteration
that completes.  With `cs` the connection set after the mutation of the iteration
(`clients[c] = true` or `delete(clients, c)`), the iteration offers one and the same
`presence_update` to every connection of `cs` (a connection with a free slot gets it
appended), and its payload is the snapshot of `cs`: it has an entry for a user id exactly
when a connection of `cs` has that user id, every entry has `online = true`, no user id
has two entries, and the number of entries is the number of distinct user ids, so two
connections of one user give one entry.  The presence tracker is not read: with any other
tracker the loop leaves the same broadcaster and the same memory. -/
theorem presence_update_payload (now : Ptr → Nat) (h : Hub) (mem : Mem) (sel : Select)
    (h' : Hub) (mem' : Mem) (hnd : h.clients.Nodup) (hsel : sel ≠ .broadcast)
    (hrun : h.Run now mem sel = .running (h', mem')) :
    (∀ d ∈ sel.keys h.clients,
      mem' d = (mem d).offer
        ⟨"presence_update",
          .status (Hub.clientsStatus now { h with clients := sel.keys h.clients } mem)⟩) ∧
    (∀ d ∈ sel.keys h.clients, (mem d).send.buf.length < (mem d).send.cap →
      (mem' d).send.buf = (mem d).send.buf ++
        [⟨"presence_update",
          .status (Hub.clientsStatus now { h with clients := sel.keys h.clients } mem)⟩]) ∧
    (∀ u,
      (statusGet (Hub.clientsStatus now { h with clients := sel.keys h.clients } mem) u).map
          (fun s => s.online) =
        if u ∈ (sel.keys h.clients).map (fun d => (mem d).userID) then some true else none) ∧
    ((Hub.clientsStatus now { h with clients := sel.keys h.clients } mem).map
      (fun e => e.1)).Nodup ∧
    (Hub.clientsStatus now { h with clients := sel.keys h.clients } mem).length =
      ((sel.keys h.clients).map (fun d => (mem d).userID)).dedup.length ∧
    (∀ (w : World) (p : Presence),
      (World.loopRun now { w with presence := p } sel).hub = (w.loopRun now sel).hub ∧
      (World.loopRun now { w with presence := p } sel).mem = (w.loopRun now sel).mem) := by
  have hst : Hub.clientsStatus now { h with clients := sel.keys h.clients } mem =
      snapshot now (sel.keys h.clients) mem := rfl
  rw [hst]
  have hev := Run_update_event now h mem sel h' mem' hnd hsel hrun
  refine ⟨hev, ?_, statusGet_snapshot now _ mem, snapshot_keys_nodup now _ mem,
    snapshot_length now _ mem, fun w p => loopRun_presence_free now w p sel⟩
  intro d hd hroom
  rw [hev d hd]
  simp [Client.offer, hroom]

/-- C27 at an example: connection 0 of user 100 is registered in room 7 and connection 1 of
the same user registers; the `presence_update` that both receive has the single entry of
user 100. -/
theorem presence_update_payload_witness :
    ∃ h' mem', (exHubOf [0] []).Run exNow exMemShared (.register 1) = .running (h', mem') ∧
      h'.clients.length = 2 ∧
      Hub.clientsStatus exNow { exHubOf [0] [] with clients := [1, 0] } exMemShared =
        [(100, ⟨true, 0⟩)] ∧
      (mem' 0).send.buf = [⟨"presence_update", .status [(100, ⟨true, 0⟩)]⟩] ∧
      (mem' 1).send.buf = [⟨"presence_update", .status [(100, ⟨true, 0⟩)]⟩] := by
  obtain ⟨⟨h', mem'⟩, hrun⟩ : ∃ s, (exHubOf [0] []).Run exNow exMemShared (.register 1) =
      .running s := ⟨_, rfl⟩
  have hlen : h'.clients.length = 2 := by
    have e : (match (exHubOf [0] []).Run exNow exMemShared (.register 1) with
        | .running s => s.1.clients.length
        | _ => 0) = 2 := by decide
    rw [hrun] at e
    exact e
  have hp := (presence_update_payload exNow (exHubOf [0] []) exMemShared (.register 1) h' mem'
    (by decide) (by decide) hrun).2.1
  exact ⟨h', mem', hrun, hlen, by decide, hp 0 (by decide) (by decide),
    hp 1 (by decide) (by decide)⟩

/-- C28. Sender identity cannot be spoofed through the inbound frame.  For the reader of
the connection `c` (user `(w.mem c).userID`, room `w.hub.roomID`) and every payload:
a `typing` frame does exactly `Broadcast` of the `typing` event with the user id of the
connection, so any two `typing` frames do the same, and it makes no persistence call; the
record that a `message` frame passes to the persistence call has the room id and the user
id of the connection, and the event it broadcasts, if any, is a `message` event with these
two ids; a frame of any other type changes nothing: no event and no persistence call. -/
theorem sender_identity_from_connection
    (create : List Message → Message → Option (Nat × Nat)) (c : Ptr)
    (payload : List (String × Json)) (w : World) :
    (Client.readFrame create c ⟨"typing", payload⟩ w =
        w.Broadcast ⟨"typing", .userId (w.mem c).userID⟩ ∧
      (∀ payload2, Client.readFrame create c ⟨"typing", payload2⟩ w =
        Client.readFrame create c ⟨"typing", payload⟩ w) ∧
      ∀ w', Client.readFrame create c ⟨"typing", payload⟩ w = .running w' →
        w'.hub.broadcast.buf =
          w.hub.broadcast.buf ++ [⟨"typing", .userId (w.mem c).userID⟩] ∧
        w'.creates = w.creates) ∧
    ((Client.newMessage w.hub.roomID (w.mem c).userID payload).roomId = w.hub.roomID ∧
      (Client.newMessage w.hub.roomID (w.mem c).userID payload).userId =
        (w.mem c).userID ∧
      ∀ w', Client.readFrame create c ⟨"message", payload⟩ w = .running w' ∨
          Client.readFrame create c ⟨"message", payload⟩ w = .blocked w' →
        w'.creates =
          w.creates ++ [Client.newMessage w.hub.roomID (w.mem c).userID payload] ∧
        (w'.hub.broadcast.buf = w.hub.broadcast.buf ∨
          ∃ id typ text imageUrl t,
            w'.hub.broadcast.buf = w.hub.broadcast.buf ++
              [⟨"message",
                .message id w.hub.roomID (w.mem c).userID typ text imageUrl t⟩])) ∧
    (∀ typ, typ ≠ "typing" → typ ≠ "message" →
      Client.readFrame create c ⟨typ, payload⟩ w = .running w) := by
  obtain ⟨_, _, _, hr, hu⟩ := newMessage_fields w.hub.roomID (w.mem c).userID payload
  refine ⟨⟨readFrame_typing create c payload w, ?_, ?_⟩, ⟨hr, hu, ?_⟩, ?_⟩
  · intro payload2
    rw [readFrame_typing, readFrame_typing]
  · intro w' h
    rw [readFrame_typing] at h
    obtain ⟨hbuf, hcr, _⟩ := World_Broadcast_running _ _ _ h
    exact ⟨hbuf, hcr⟩
  · intro w' h
    exact ⟨readFrame_message_creates create c payload w w' h,
      readFrame_message_events create c payload w w' h⟩
  · intro typ h1 h2
    exact readFrame_other create c typ payload w h1 h2

/-- C28 at an example: the connection at address 0 belongs to user 100 in room 7; a
`message` frame whose payload names user 999 and room 1 leaves a `message` event of user
100 in room 7, and a frame of type `join` leaves the world as it was. -/
theorem sender_identity_from_connection_witness :
    (∃ w', Client.readFrame (fun _ _ => some (5, 9)) 0
        ⟨"message", [("userId", .number 999), ("roomId", .number 1), ("text", .str "hi")]⟩
        ⟨exHubOf [0] [], exMem, NewPresence, [], .selecting⟩ = .running w' ∧
      w'.hub.broadcast.buf = [⟨"message", .message 5 7 100 "text" "hi" "" 9⟩]) ∧
    Client.readFrame (fun _ _ => some (5, 9)) 0 ⟨"join", [("userId", .number 999)]⟩
        ⟨exHubOf [0] [], exMem, NewPresence, [], .selecting⟩ =
      .running ⟨exHubOf [0] [], exMem, NewPresence, [], .selecting⟩ := by
  refine ⟨?_, (sender_identity_from_connection (fun _ _ => some (5, 9)) 0
    [("userId", .number 999)] ⟨exHubOf [0] [], exMem, NewPresence, [], .selecting⟩).2.2
    "join" (by decide) (by decide)⟩
  obtain ⟨w', hrun⟩ : ∃ w', Client.readFrame (fun _ _ => some (5, 9)) 0
      ⟨"message", [("userId", .number 999), ("roomId", .number 1), ("text", .str "hi")]⟩
      ⟨exHubOf [0] [], exMem, NewPresence, [], .selecting⟩ = .running w' := ⟨_, rfl⟩
  refine ⟨w', hrun, ?_⟩
  have e : (match Client.readFrame (fun _ _ => some (5, 9)) 0
      ⟨"message", [("userId", .number 999), ("roomId", .number 1), ("text", .str "hi")]⟩
      ⟨exHubOf [0] [], exMem, NewPresence, [], .selecting⟩ with
    | .running x => x.hub.broadcast.buf
    | _ => []) = [⟨"message", .message 5 7 100 "text" "hi" "" 9⟩] := by decide
  rw [hrun] at e
  exact e

/-- C29. Presence frame property.  For all user ids `u` and `v` that differ, every state of
the tracker and every clock reading: `Online(u)` and `Offline(u)` leave `IsOnline(v)` and
`LastSeen(v)` as they were; `Offline(u)` for a user that is not online leaves the whole
mapping as it was; and a second `Offline(u)` changes nothing. -/
theorem presence_frame (p : Presence) (u v t : Nat) :
    (u ≠ v →
      (p.Online u t).IsOnline v = p.IsOnline v ∧ (p.Online u t).LastSeen v = p.LastSeen v ∧
      (p.Offline u).IsOnline v = p.IsOnline v ∧ (p.Offline u).LastSeen v = p.LastSeen v) ∧
    (p.IsOnline u = false → p.Offline u = p) ∧
    (p.Offline u).Offline u = p.Offline u := by
  refine ⟨?_, Offline_of_not_online p u, Offline_Offline p u⟩
  intro huv
  have hvu : ¬ v = u := fun h => huv h.symm
  have h1 : (p.Online u t).LastSeen v = p.LastSeen v := by
    rw [LastSeen_Online, if_neg hvu]
  have h2 : (p.Offline u).LastSeen v = p.LastSeen v := by
    rw [LastSeen_Offline, if_neg hvu]
  exact ⟨by unfold Presence.IsOnline; rw [h1], h1, by unfold Presence.IsOnline; rw [h2], h2⟩

/-- C29 at an example: with the users 5 and 6 online, `Offline(6)` leaves user 5 as it
was, and `Offline(7)` for a user that is not online changes nothing. -/
theorem presence_frame_witness :
    (((NewPresence.Online 5 3).Online 6 4).Offline 6).LastSeen 5 =
      ((NewPresence.Online 5 3).Online 6 4).LastSeen 5 ∧
    ((NewPresence.Online 5 3).Online 6 4).LastSeen 5 = (3, true) ∧
    ((NewPresence.Online 5 3).Online 6 4).Offline 7 = (NewPresence.Online 5 3).Online 6 4 :=
  ⟨((presence_frame ((NewPresence.Online 5 3).Online 6 4) 6 5 0).1 (by decide)).2.2.2,
   by decide,
   (presence_frame ((NewPresence.Online 5 3).Online 6 4) 7 5 0).2.1 (by decide)⟩

/-- C30 (what the code does). For every secret, `verifyTOTPCode(secret, code)` returns
true exactly when `code` is six bytes long and at least one of its characters is a decimal
digit.  Every code made of six digits is accepted, and so are codes that are not: the code
`abcde1` has five characters that are no digits and is accepted. -/
theorem verifyTOTPCode_needs_one_digit (secret code : String) :
    (verifyTOTPCode secret code = true ↔
      code.utf8ByteSize = 6 ∧ ∃ c ∈ code.toList, c ∈ "0123456789".toList) ∧
    (code.length = 6 → (∀ c ∈ code.toList, c ∈ "0123456789".toList) →
      verifyTOTPCode secret code = true) ∧
    (verifyTOTPCode secret "abcde1" = true ∧ "abcde1".length = 6 ∧
      ¬ ∀ c ∈ "abcde1".toList, c ∈ "0123456789".toList) := by
  refine ⟨verifyTOTPCode_iff secret code, ?_, ?_, by decide, ?_⟩
  · intro hlen hall
    rw [verifyTOTPCode_iff, utf8ByteSize_digits code hall]
    refine ⟨hlen, ?_⟩
    cases hc : code.toList with
    | nil =>
      have h0 : code.length = code.toList.length := rfl
      rw [hc] at h0
      simp only [List.length_nil] at h0
      omega
    | cons c cs =>
      exact ⟨c, List.mem_cons_self _ _, hall c (by rw [hc]; exact List.mem_cons_self _ _)⟩
  · exact (verifyTOTPCode_iff secret "abcde1").mpr ⟨by decide, '1', by decide, by decide⟩
  · intro h
    exact absurd (h 'a' (by decide)) (by decide)

/-- C30 at an example: the code `a1b2c3` is accepted for the secret `JBSWY3DP`, and so is
the six-digit code `123456`. -/
theorem verifyTOTPCode_needs_one_digit_witness :
    verifyTOTPCode "JBSWY3DP" "a1b2c3" = true ∧ verifyTOTPCode "JBSWY3DP" "123456" = true :=
  ⟨(verifyTOTPCode_needs_one_digit "JBSWY3DP" "a1b2c3").1.mpr
      ⟨by decide, '1', by decide, by decide⟩,
   (verifyTOTPCode_needs_one_digit "JBSWY3DP" "123456").2.1 (by decide) (by decide)⟩

end LinkUp
